import Mathlib

/-!
Shallow embedding of the FP-Growth implementation in
`src/fp_growth/src/frequent_pattern_tree.hpp` (namespace `fpt`), together
with the eager-pruning variant found in `frequent_pattern_tree.h` /
`src/unnamed/part_002` (`RemoveInfrequentItemNodes`).

Items are specialized to `Nat` (the C++ code is generic over a hashable,
totally ordered item type).  Shared-pointer tree nodes become an arena of
nodes addressed by a stable integer `id` (ids are assigned sequentially by
`++instance_count_`, copies preserve the id); the `unordered_multimap`
item index becomes a list of entries in insertion order.  The recursive
miner is written with explicit fuel; fuel-independence above an explicit
bound is proved as the termination claim.
-/

namespace FPG

/-- One tree node, as in `FrequentPatternTreeNode`: stable `id`, optional
`item` (`none` only for the root), parent reference (`none` only for the
root) and a `support` count. The `children` map of the C++ node is
represented implicitly: the child of `p` for item `i` is the arena node
with `parentId = some p.id` and `item = some i`. -/
structure FPNode where
  id : Nat
  item : Option Nat
  parentId : Option Nat
  support : Nat
deriving Repr, DecidableEq

/-- The root node created by the default constructor: no item, no parent,
support initialized to 1 (and never incremented afterwards). -/
def rootNode : FPNode := ⟨0, none, none, 1⟩

/-- The tree state: the arena of nodes in creation order (root first),
the next fresh id, and the item index `item_nodes_` as a list of
(item, node id) pairs in insertion order. -/
structure FPTree where
  nodes : List FPNode
  nextId : Nat
  itemNodes : List (Nat × Nat)
deriving Repr

/-- A freshly constructed tree: just the root. -/
def emptyTree : FPTree := ⟨[rootNode], 1, []⟩

/-- Arena lookup by node id. -/
def findNode (nodes : List FPNode) (i : Nat) : Option FPNode :=
  nodes.find? (fun n => n.id == i)

/-- `iterator->children.count(item)` / `iterator->children[item]`:
the unique child of the node `pid` carrying `item`. -/
def findChild (nodes : List FPNode) (pid : Nat) (item : Nat) : Option FPNode :=
  nodes.find? (fun n => n.parentId == some pid && n.item == some item)

/-- The strict comparator of `insert`:
`item_support.at(a) != item_support.at(b) ? item_support.at(a) > item_support.at(b) : a < b`. -/
def before (supp : Nat → Nat) (a b : Nat) : Bool :=
  if supp a = supp b then a < b else supp b < supp a

/-- Insert `x` into a list sorted by `before`. -/
def insertOrd (supp : Nat → Nat) (x : Nat) : List Nat → List Nat
  | [] => [x]
  | y :: ys => if before supp x y then x :: y :: ys else y :: insertOrd supp x ys

/-- `items_by_descending_support`: the distinct items of the transaction
sorted by descending global support, ties broken by ascending item value
(the `std::set` with the comparator above). -/
def sortItems (supp : Nat → Nat) (tx : List Nat) : List Nat :=
  tx.dedup.foldr (insertOrd supp) []

/-- One step of the insertion walk: either increment the existing child's
support or create a fresh child (support 1, parent = current node) and
register it in the item index.  Returns the updated tree and the id of
the child that becomes the new current node. -/
def insertItem (t : FPTree) (cur : Nat) (item : Nat) : FPTree × Nat :=
  match findChild t.nodes cur item with
  | some c =>
      ({ t with nodes := t.nodes.map (fun n => if n.id = c.id then { n with support := n.support + 1 } else n) },
        c.id)
  | none =>
      let n : FPNode := ⟨t.nextId, some item, some cur, 1⟩
      (⟨t.nodes ++ [n], t.nextId + 1, t.itemNodes ++ [(item, n.id)]⟩, n.id)

/-- The insertion walk over an already-sorted item list. -/
def insertSorted (t : FPTree) (cur : Nat) : List Nat → FPTree
  | [] => t
  | i :: rest =>
      let s := insertItem t cur i
      insertSorted s.1 s.2 rest

/-- `FrequentPatternTree::insert`: sort the transaction's items by the
global-support comparator and walk from the root. -/
def insertTransaction (t : FPTree) (supp : Nat → Nat) (tx : List Nat) : FPTree :=
  insertSorted t 0 (sortItems supp tx)

/-- `get_item_support(begin, end)` applied to one item: the number of
transactions containing that item. -/
def txSupport (ts : List (List Nat)) (i : Nat) : Nat :=
  ts.countP (fun tx => tx.contains i)

/-- The iterator-range constructor: count global supports once, then
insert every transaction in input order. -/
def buildTree (ts : List (List Nat)) : FPTree :=
  ts.foldl (fun t tx => insertTransaction t (txSupport ts) tx) emptyTree

/-- One entry of an item-node multimap: the key (always the node's item),
the referenced node's id, its parent reference, and its support.  For the
permanent index the support is the tree node's final support; for a
conditional index it is the reweighted support of the synthetic copy. -/
structure Entry where
  item : Nat
  id : Nat
  parentId : Option Nat
  support : Nat
deriving Repr, DecidableEq

/-- The permanent item index `item_nodes_` viewed as entries: one entry
per registered node, reading the node's final support from the arena. -/
def permanentIndex (t : FPTree) : List Entry :=
  t.itemNodes.filterMap (fun p =>
    (findNode t.nodes p.2).map (fun n => ⟨p.1, n.id, n.parentId, n.support⟩))

/-- `get_item_support(item, item_nodes)`: sum of the supports of the
entries registered under `item`. -/
def getItemSupport (item : Nat) (index : List Entry) : Nat :=
  ((index.filter (fun e => e.item == item)).map (fun e => e.support)).sum

/-- `get_unique_items`. -/
def uniqueItems (index : List Entry) : List Nat :=
  (index.map (fun e => e.item)).dedup

/-- The ancestor walk
`for (auto node = start; node->parent; node = node->parent)`:
follow parent references, collecting every strict ancestor up to but
excluding the root.  `fuel` bounds the walk; parent ids are strictly
smaller than child ids in a well-formed arena, so `nodes.length` is
always enough. -/
def ancestors (nodes : List FPNode) : Nat → Option Nat → List FPNode
  | _, none => []
  | 0, some _ => []
  | fuel + 1, some pid =>
      match findNode nodes pid with
      | none => []
      | some n =>
          match n.parentId with
          | none => []
          | some _ => n :: ancestors nodes fuel n.parentId

/-- The strict ancestors (excluding the root) of the node referenced by
an index entry, resolved in the permanent arena. -/
def entryAnc (nodes : List FPNode) (e : Entry) : List FPNode :=
  ancestors nodes nodes.length e.parentId

/-- The body of the ancestor loop in `get_conditional_item_nodes`:
`find_item_node` then either accumulate the target's support into the
existing entry or append a copy of the ancestor node with the target's
support. -/
def bumpOrAdd (acc : List Entry) (a : FPNode) (s : Nat) : List Entry :=
  if acc.any (fun e => e.item == a.item.getD 0 && e.id == a.id) then
    acc.map (fun e =>
      if e.item == a.item.getD 0 && e.id == a.id then { e with support := e.support + s } else e)
  else
    acc ++ [⟨a.item.getD 0, a.id, a.parentId, s⟩]

/-- `get_conditional_item_nodes(target, item_nodes)` of the `.hpp`
variant: for every node registered under `target`, walk its strict
ancestors and accumulate the target node's support, merging by node
identity.  No pruning happens here. -/
def getConditionalItemNodes (nodes : List FPNode) (target : Nat) (index : List Entry) : List Entry :=
  (index.filter (fun e => e.item == target)).foldl
    (fun acc tgt => (entryAnc nodes tgt).foldl (fun acc2 a => bumpOrAdd acc2 a tgt.support) acc)
    []

/-- `RemoveInfrequentItemNodes` of the `.h` / `part_002` variant: compute
the per-item totals of the map, then erase every item whose total falls
below the threshold. -/
def removeInfrequentItemNodes (minSupport : Nat) (index : List Entry) : List Entry :=
  index.filter (fun e => minSupport ≤ getItemSupport e.item index)

/-- `GetConditionalItemNodes` of the `.h` / `part_002` variant: the same
accumulation followed by eager pruning of infrequent items. -/
def getConditionalItemNodesEager (nodes : List FPNode) (target : Nat) (index : List Entry)
    (minSupport : Nat) : List Entry :=
  removeInfrequentItemNodes minSupport (getConditionalItemNodes nodes target index)

/-- The largest node id referenced by an index (0 when empty). -/
def maxIdx (index : List Entry) : Nat :=
  index.foldr (fun e m => max e.id m) 0

/-- The recursive `get_frequent_itemsets(current_itemset, item_nodes,
minimum_support)` of the `.hpp` variant, with explicit fuel: for every
distinct item meeting the threshold, emit the extended itemset and
recurse over its conditional base. -/
def minerAux (nodes : List FPNode) : Nat → List Nat → List Entry → Nat → List (List Nat)
  | 0, _, _, _ => []
  | fuel + 1, cur, index, m =>
      (uniqueItems index).flatMap (fun i =>
        if m ≤ getItemSupport i index then
          (cur ++ [i]) :: minerAux nodes fuel (cur ++ [i]) (getConditionalItemNodes nodes i index) m
        else [])

/-- The public `get_frequent_itemsets(minimum_support)`: run the
recursive miner on the permanent index with an empty current itemset.
The fuel `maxIdx + 1` is sufficient because every conditional base
references only strict ancestors, whose ids are strictly smaller. -/
def getFrequentItemsets (t : FPTree) (m : Nat) : List (List Nat) :=
  minerAux t.nodes (maxIdx (permanentIndex t) + 1) [] (permanentIndex t) m

/-- Support of an itemset: the number of transactions containing every
item of the set. -/
def suppFinset (ts : List (List Nat)) (S : Finset Nat) : Nat :=
  ts.countP (fun tx => decide (∀ s ∈ S, s ∈ tx))

/-- Walking the `children` maps from the node `pid` along a list of
items. -/
def pathFrom (nodes : List FPNode) : Nat → List Nat → Option FPNode
  | pid, [] => findNode nodes pid
  | pid, i :: rest =>
      match findChild nodes pid i with
      | none => none
      | some c => pathFrom nodes c.id rest

/-- The node reached from the root along a list of items, if any. -/
def trieNode (t : FPTree) (l : List Nat) : Option FPNode :=
  pathFrom t.nodes 0 l

/-- The support of the node reached from the root along `l` (0 when no
such node exists). -/
def trieSupport (t : FPTree) (l : List Nat) : Nat :=
  (trieNode t l).elim 0 FPNode.support

/-- Boolean test that the first list is an initial segment of the
second. -/
def isPfxOf : List Nat → List Nat → Bool
  | [], _ => true
  | _ :: _, [] => false
  | a :: l, b :: r => a == b && isPfxOf l r

/-- How many transactions of `ts`, once sorted by the global comparator,
start with the item list `l`. -/
def pfxCount (ts : List (List Nat)) (supp : Nat → Nat) (l : List Nat) : Nat :=
  ts.countP (fun tx => isPfxOf l (sortItems supp tx))

/-- The items on the ancestor chain of `n` itself included, nearest
first (so the root-to-`n` path is its reverse). -/
def ancItemsOf (nodes : List FPNode) (n : FPNode) : List Nat :=
  (ancestors nodes nodes.length (some n.id)).map (fun a => a.item.getD 0)

/-- The items on the strict-ancestor chain of an index entry, nearest
first. -/
def ancItems (nodes : List FPNode) (e : Entry) : List Nat :=
  (entryAnc nodes e).map (fun a => a.item.getD 0)

/-- Sum of the supports of the entries of `index` carrying item `i`
whose ancestor chain covers every element of `S`. -/
def condSum (nodes : List FPNode) (index : List Entry) (i : Nat) (S : Finset Nat) : Nat :=
  (index.map (fun e =>
    if e.item = i ∧ ∀ s ∈ S, s ∈ ancItems nodes e then e.support else 0)).sum

/-- How many transactions contain `i`, every element of `S` and every
element of `X`. -/
def coverCount (ts : List (List Nat)) (X : List Nat) (i : Nat) (S : Finset Nat) : Nat :=
  ts.countP (fun tx => decide (i ∈ tx ∧ (∀ s ∈ S, s ∈ tx) ∧ ∀ x ∈ X, x ∈ tx))

/-- Strict sortedness by the global comparator. -/
def SortedB (supp : Nat → Nat) (l : List Nat) : Prop :=
  l.Pairwise (fun a b => before supp a b = true)

/-- Every index entry has positive support. -/
def PosIndex (index : List Entry) : Prop :=
  ∀ e ∈ index, 1 ≤ e.support

/-- Well-formedness of the node arena, as established by construction:
ids are assigned sequentially (so they are exactly `0 .. length-1` in
creation order), the root is the node with id 0, non-root nodes carry an
item and a parent created strictly earlier, supports are positive, and a
node has at most one child per item. -/
structure WFNodes (nodes : List FPNode) : Prop where
  ids : nodes.map FPNode.id = List.range nodes.length
  root_mem : rootNode ∈ nodes
  parent_none : ∀ n ∈ nodes, n.parentId = none → n = rootNode
  item_none : ∀ n ∈ nodes, n.item = none → n = rootNode
  parent_lt : ∀ n ∈ nodes, ∀ p, n.parentId = some p → p < n.id
  supp_pos : ∀ n ∈ nodes, 1 ≤ n.support
  child_unique : ∀ n₁ ∈ nodes, ∀ n₂ ∈ nodes,
    n₁.parentId = n₂.parentId → n₁.item = n₂.item → n₁ = n₂

/-- Well-formedness of the whole tree state: a well-formed arena, the
next id is fresh, and the item index registers exactly the non-root
nodes, in creation order. -/
structure WFTree (t : FPTree) : Prop where
  wf : WFNodes t.nodes
  next_eq : t.nextId = t.nodes.length
  index_eq : t.itemNodes = (t.nodes.drop 1).map (fun n => (n.item.getD 0, n.id))

/-- Parent items strictly precede child items in the global order
(paths are sorted by descending global support). -/
def TreeSorted (supp : Nat → Nat) (nodes : List FPNode) : Prop :=
  ∀ c ∈ nodes, ∀ pid, c.parentId = some pid →
    ∀ p, findNode nodes pid = some p → p.parentId ≠ none →
      before supp (p.item.getD 0) (c.item.getD 0) = true

/-- Building a tree by inserting a list of transactions in order. -/
def buildFrom (supp : Nat → Nat) (t : FPTree) (ts : List (List Nat)) : FPTree :=
  ts.foldl (fun u tx => insertTransaction u supp tx) t

/-- `++support` on one node. -/
def bumpNode (n : FPNode) : FPNode :=
  { n with support := n.support + 1 }

/-- The arena after incrementing the support of the node `cid`. -/
def bumpNodes (nodes : List FPNode) (cid : Nat) : List FPNode :=
  nodes.map (fun n => if n.id = cid then { n with support := n.support + 1 } else n)

/-- Consistency of an item-node multimap with the permanent arena: each
entry is a copy of an arena node (same id, item and parent reference),
entries reference pairwise distinct nodes, and supports are positive.
This is the shape shared by the permanent index and every conditional
index. -/
structure WFIndex (nodes : List FPNode) (index : List Entry) : Prop where
  consistent : ∀ e ∈ index, ∃ n, findNode nodes e.id = some n ∧
    n.item = some e.item ∧ n.parentId = e.parentId
  nodup_ids : (index.map Entry.id).Nodup
  pos : PosIndex index

/-- The support of a node never exceeds the support of its parent, for
every node whose parent is itself a non-root node. -/
def MonoNodes (nodes : List FPNode) : Prop :=
  ∀ c ∈ nodes, ∀ pid, c.parentId = some pid → pid ≠ 0 →
    ∀ p, findNode nodes pid = some p → c.support ≤ p.support

end FPG

namespace FPG

/-! ### The global comparator -/

lemma before_iff {supp : Nat → Nat} {a b : Nat} :
    before supp a b = true ↔
      (supp a = supp b ∧ a < b) ∨ (supp a ≠ supp b ∧ supp b < supp a) := by
  unfold before
  split_ifs with h <;> simp [h]

lemma before_irrefl (supp : Nat → Nat) (a : Nat) : before supp a a = false := by
  simp [before]

lemma before_trans {supp : Nat → Nat} {a b c : Nat}
    (hab : before supp a b = true) (hbc : before supp b c = true) :
    before supp a c = true := by
  rw [before_iff] at *
  rcases hab with ⟨h1, h2⟩ | ⟨h1, h2⟩ <;> rcases hbc with ⟨h3, h4⟩ | ⟨h3, h4⟩ <;> omega

lemma before_total {supp : Nat → Nat} {a b : Nat} (h : a ≠ b) :
    before supp a b = true ∨ before supp b a = true := by
  rw [before_iff, before_iff]
  omega

lemma before_asymm {supp : Nat → Nat} {a b : Nat}
    (hab : before supp a b = true) : before supp b a = false := by
  rw [before_iff] at hab
  rw [Bool.eq_false_iff]
  intro hba
  rw [before_iff] at hba
  omega

lemma before_ne {supp : Nat → Nat} {a b : Nat}
    (hab : before supp a b = true) : a ≠ b := by
  rintro rfl
  simp [before_irrefl] at hab

/-! ### Sorting the transaction -/

lemma insertOrd_perm (supp : Nat → Nat) (x : Nat) (l : List Nat) :
    (insertOrd supp x l).Perm (x :: l) := by
  induction l with
  | nil => simp [insertOrd]
  | cons y ys ih =>
      by_cases h : before supp x y = true
      · simp [insertOrd, h]
      · simp only [insertOrd, h, if_false]
        exact (ih.cons y).trans (List.Perm.swap x y ys)

lemma mem_insertOrd {supp : Nat → Nat} {x y : Nat} {l : List Nat} :
    y ∈ insertOrd supp x l ↔ y = x ∨ y ∈ l := by
  rw [(insertOrd_perm supp x l).mem_iff]
  simp

lemma insertOrd_pairwise {supp : Nat → Nat} {x : Nat} {l : List Nat}
    (hx : x ∉ l) (hl : l.Pairwise (fun a b => before supp a b = true)) :
    (insertOrd supp x l).Pairwise (fun a b => before supp a b = true) := by
  induction l with
  | nil => simp [insertOrd]
  | cons y ys ih =>
      rw [List.pairwise_cons] at hl
      by_cases h : before supp x y = true
      · simp only [insertOrd, h, if_true]
        refine List.Pairwise.cons ?_ (List.Pairwise.cons hl.1 hl.2)
        intro z hz
        rcases List.mem_cons.mp hz with rfl | hz
        · exact h
        · exact before_trans h (hl.1 z hz)
      · simp only [insertOrd, h, if_false]
        have hxy : x ≠ y := fun hxy => hx (hxy ▸ List.mem_cons_self y ys)
        have hyx : before supp y x = true := (before_total hxy).resolve_left (by simpa using h)
        refine List.Pairwise.cons ?_ (ih (fun hm => hx (List.mem_cons_of_mem y hm)) hl.2)
        intro z hz
        rcases mem_insertOrd.mp hz with rfl | hz
        · exact hyx
        · exact hl.1 z hz

lemma foldr_insertOrd_perm (supp : Nat → Nat) (l : List Nat) :
    (l.foldr (insertOrd supp) []).Perm l := by
  induction l with
  | nil => simp
  | cons x xs ih =>
      simpa using (insertOrd_perm supp x (xs.foldr (insertOrd supp) [])).trans (ih.cons x)

lemma foldr_insertOrd_pairwise {supp : Nat → Nat} {l : List Nat} (h : l.Nodup) :
    (l.foldr (insertOrd supp) []).Pairwise (fun a b => before supp a b = true) := by
  induction l with
  | nil => simp
  | cons x xs ih =>
      rw [List.nodup_cons] at h
      have hx : x ∉ xs.foldr (insertOrd supp) [] := fun hm =>
        h.1 ((foldr_insertOrd_perm supp xs).mem_iff.mp hm)
      exact insertOrd_pairwise hx (ih h.2)

lemma sortItems_perm (supp : Nat → Nat) (tx : List Nat) :
    (sortItems supp tx).Perm tx.dedup :=
  foldr_insertOrd_perm supp tx.dedup

lemma mem_sortItems {supp : Nat → Nat} {tx : List Nat} {i : Nat} :
    i ∈ sortItems supp tx ↔ i ∈ tx := by
  rw [(sortItems_perm supp tx).mem_iff, List.mem_dedup]

lemma sortItems_sorted (supp : Nat → Nat) (tx : List Nat) :
    SortedB supp (sortItems supp tx) :=
  foldr_insertOrd_pairwise tx.nodup_dedup

lemma sortItems_nodup (supp : Nat → Nat) (tx : List Nat) :
    (sortItems supp tx).Nodup :=
  (sortItems_perm supp tx).nodup_iff.mpr tx.nodup_dedup

lemma sortedB_cons {supp : Nat → Nat} {x : Nat} {l : List Nat}
    (h : SortedB supp (x :: l)) :
    (∀ y ∈ l, before supp x y = true) ∧ SortedB supp l := by
  rw [SortedB, List.pairwise_cons] at h
  exact h

/-- In a sorted list, anything strictly before a member `i` and itself a
member sits in the part before the first occurrence of `i`. -/
lemma mem_takeWhile_of_before {supp : Nat → Nat} {s : List Nat} {x i : Nat}
    (hs : SortedB supp s) (hx : x ∈ s) (hxi : before supp x i = true) :
    x ∈ s.takeWhile (fun j => j != i) := by
  induction s with
  | nil => cases hx
  | cons y ys ih =>
      obtain ⟨hy, hys⟩ := sortedB_cons hs
      rcases List.mem_cons.mp hx with rfl | hx
      · have hne : (x != i) = true := by simpa using before_ne hxi
        simp [List.takeWhile, hne]
      · have hyx : y ≠ i := by
          rintro rfl
          have h1 := hy x hx
          have h2 := before_asymm hxi
          rw [h1] at h2
          cases h2
        have hne : (y != i) = true := by simpa using hyx
        simp only [List.takeWhile, hne]
        exact List.mem_cons_of_mem y (ih hys hx)

end FPG

namespace FPG

/-! ### Lookup lemmas -/

lemma find?_eq_some_of_mem {α : Type} (p : α → Bool) {l : List α} {a : α}
    (ha : a ∈ l) (hpa : p a = true) (huniq : ∀ b ∈ l, p b = true → b = a) :
    l.find? p = some a := by
  induction l with
  | nil => cases ha
  | cons b bs ih =>
      by_cases hb : p b = true
      · have hba : b = a := huniq b (List.mem_cons_self b bs) hb
        subst hba
        simp [List.find?, hpa]
      · have hba : a ≠ b := by
          rintro rfl
          exact hb hpa
        rw [List.find?, Bool.eq_false_iff.mpr hb]
        exact ih (by
          rcases List.mem_cons.mp ha with rfl | h
          · exact absurd rfl hba
          · exact h)
          (fun c hc hpc => huniq c (List.mem_cons_of_mem b hc) hpc)

lemma findNode_some {nodes : List FPNode} {i : Nat} {n : FPNode}
    (h : findNode nodes i = some n) : n ∈ nodes ∧ n.id = i := by
  unfold findNode at h
  refine ⟨List.mem_of_find?_eq_some h, ?_⟩
  have := List.find?_some h
  simpa using this

lemma findNode_self_of_nodup {nodes : List FPNode} (hnd : (nodes.map FPNode.id).Nodup)
    {n : FPNode} (hn : n ∈ nodes) : findNode nodes n.id = some n := by
  unfold findNode
  refine find?_eq_some_of_mem _ hn (by simp) ?_
  intro b hb hpb
  have hid : b.id = n.id := by simpa using hpb
  exact List.inj_on_of_nodup_map hnd hb hn hid

lemma findChild_some {nodes : List FPNode} {pid it : Nat} {c : FPNode}
    (h : findChild nodes pid it = some c) :
    c ∈ nodes ∧ c.parentId = some pid ∧ c.item = some it := by
  unfold findChild at h
  refine ⟨List.mem_of_find?_eq_some h, ?_⟩
  have := List.find?_some h
  simpa using this

lemma findChild_eq_some {nodes : List FPNode} {pid it : Nat} {c : FPNode}
    (hc : c ∈ nodes) (hp : c.parentId = some pid) (hi : c.item = some it)
    (huniq : ∀ n₁ ∈ nodes, ∀ n₂ ∈ nodes,
      n₁.parentId = n₂.parentId → n₁.item = n₂.item → n₁ = n₂) :
    findChild nodes pid it = some c := by
  unfold findChild
  refine find?_eq_some_of_mem _ hc (by simp [hp, hi]) ?_
  intro b hb hpb
  simp only [Bool.and_eq_true, beq_iff_eq] at hpb
  exact huniq b hb c hc (hpb.1.trans hp.symm) (hpb.2.trans hi.symm)

/-! ### Well-formedness consequences -/

lemma WFNodes.nodup_ids {nodes : List FPNode} (wf : WFNodes nodes) :
    (nodes.map FPNode.id).Nodup := by
  rw [wf.ids]
  exact List.nodup_range _

lemma WFNodes.id_lt {nodes : List FPNode} (wf : WFNodes nodes)
    {n : FPNode} (hn : n ∈ nodes) : n.id < nodes.length := by
  have : n.id ∈ nodes.map FPNode.id := List.mem_map_of_mem FPNode.id hn
  rw [wf.ids] at this
  exact List.mem_range.mp this

lemma WFNodes.findNode_self {nodes : List FPNode} (wf : WFNodes nodes)
    {n : FPNode} (hn : n ∈ nodes) : findNode nodes n.id = some n :=
  FPG.findNode_self_of_nodup wf.nodup_ids hn

lemma WFNodes.root_find {nodes : List FPNode} (wf : WFNodes nodes) :
    findNode nodes 0 = some rootNode :=
  wf.findNode_self wf.root_mem

lemma WFNodes.id_zero {nodes : List FPNode} (wf : WFNodes nodes)
    {n : FPNode} (hn : n ∈ nodes) (h0 : n.id = 0) : n = rootNode := by
  have h1 : findNode nodes n.id = some n := wf.findNode_self hn
  rw [h0, wf.root_find] at h1
  exact (Option.some_injective _ h1).symm

lemma WFNodes.exists_of_lt {nodes : List FPNode} (wf : WFNodes nodes)
    {i : Nat} (hi : i < nodes.length) :
    ∃ n, findNode nodes i = some n ∧ n ∈ nodes ∧ n.id = i := by
  have : i ∈ nodes.map FPNode.id := by
    rw [wf.ids]
    exact List.mem_range.mpr hi
  rcases List.mem_map.mp this with ⟨n, hn, hid⟩
  exact ⟨n, hid ▸ wf.findNode_self hn, hn, hid⟩

/-! ### Support of an item in a filtered index -/

lemma getItemSupport_filter_item (p : Nat → Bool) (index : List Entry) (i : Nat) :
    getItemSupport i (index.filter (fun e => p e.item)) =
      if p i then getItemSupport i index else 0 := by
  induction index with
  | nil => simp [getItemSupport]
  | cons e es ih =>
      by_cases hei : e.item = i
      · by_cases hpi : p i = true
        · rw [List.filter_cons, hei, hpi]
          simp only [if_true]
          unfold getItemSupport at *
          rw [List.filter_cons]
          simp only [hei, beq_self_eq_true, if_true, List.map_cons, List.sum_cons]
          rw [List.filter_cons]
          simp only [hei, beq_self_eq_true, if_true, List.map_cons, List.sum_cons]
          have := ih
          rw [if_pos hpi] at this
          omega
        · rw [List.filter_cons, hei, Bool.eq_false_iff.mpr hpi]
          simp only [Bool.false_eq_true, if_false]
          rw [ih, if_neg hpi]
      · have hne : (e.item == i) = false := by simpa using hei
        by_cases hpe : p e.item = true
        · rw [List.filter_cons, hpe]
          simp only [if_true]
          unfold getItemSupport at *
          rw [List.filter_cons, hne]
          simp only [Bool.false_eq_true, if_false]
          rw [List.filter_cons, hne]
          simp only [Bool.false_eq_true, if_false]
          exact ih
        · rw [List.filter_cons, Bool.eq_false_iff.mpr hpe]
          simp only [Bool.false_eq_true, if_false]
          unfold getItemSupport at *
          rw [List.filter_cons, hne] at *
          simp only [Bool.false_eq_true, if_false] at *
          exact ih

end FPG

namespace FPG

/-! ### Arena updates: bumping a support -/

lemma bumpNode_id (n : FPNode) : (bumpNode n).id = n.id := rfl

lemma bump_fun_id (cid : Nat) (n : FPNode) :
    (if n.id = cid then { n with support := n.support + 1 } else n).id = n.id := by
  split <;> rfl

lemma bump_fun_item (cid : Nat) (n : FPNode) :
    (if n.id = cid then { n with support := n.support + 1 } else n).item = n.item := by
  split <;> rfl

lemma bump_fun_parent (cid : Nat) (n : FPNode) :
    (if n.id = cid then { n with support := n.support + 1 } else n).parentId = n.parentId := by
  split <;> rfl

lemma bumpNodes_map_id (nodes : List FPNode) (cid : Nat) :
    (bumpNodes nodes cid).map FPNode.id = nodes.map FPNode.id := by
  unfold bumpNodes
  rw [List.map_map]
  apply List.map_congr_left
  intro n _
  exact bump_fun_id cid n

lemma length_bumpNodes (nodes : List FPNode) (cid : Nat) :
    (bumpNodes nodes cid).length = nodes.length := by
  simp [bumpNodes]

lemma findNode_bumpNodes (nodes : List FPNode) (cid i : Nat) :
    findNode (bumpNodes nodes cid) i =
      (findNode nodes i).map (fun n => if n.id = cid then bumpNode n else n) := by
  induction nodes with
  | nil => rfl
  | cons n ns ih =>
      unfold findNode bumpNodes at *
      simp only [List.map_cons, List.find?]
      rw [bump_fun_id cid n]
      cases hni : (n.id == i) with
      | true => simp [bumpNode]
      | false => exact ih

lemma findChild_bumpNodes (nodes : List FPNode) (cid pid it : Nat) :
    findChild (bumpNodes nodes cid) pid it =
      (findChild nodes pid it).map (fun n => if n.id = cid then bumpNode n else n) := by
  induction nodes with
  | nil => rfl
  | cons n ns ih =>
      unfold findChild bumpNodes at *
      simp only [List.map_cons, List.find?]
      rw [bump_fun_parent cid n, bump_fun_item cid n]
      cases hni : (n.parentId == some pid && n.item == some it) with
      | true => simp [bumpNode]
      | false => exact ih

/-! ### Arena updates: appending a fresh node -/

lemma find?_append {α : Type} (p : α → Bool) (l₁ l₂ : List α) :
    (l₁ ++ l₂).find? p = (l₁.find? p).or (l₂.find? p) := by
  induction l₁ with
  | nil => simp
  | cons a l ih =>
      cases hp : p a <;> simp [List.find?, hp, ih]

lemma findNode_append (nodes : List FPNode) (w : FPNode) (i : Nat) :
    findNode (nodes ++ [w]) i = (findNode nodes i).or (if w.id = i then some w else none) := by
  unfold findNode
  rw [find?_append]
  congr 1
  by_cases h : w.id = i
  · simp [List.find?, h]
  · have hb : (w.id == i) = false := by simpa using h
    simp [List.find?, hb, h]

lemma findChild_append (nodes : List FPNode) (w : FPNode) (pid it : Nat) :
    findChild (nodes ++ [w]) pid it =
      (findChild nodes pid it).or
        (if w.parentId = some pid ∧ w.item = some it then some w else none) := by
  unfold findChild
  rw [find?_append]
  congr 1
  by_cases h1 : w.parentId = some pid
  · by_cases h2 : w.item = some it
    · simp [List.find?, h1, h2]
    · have hb : (w.item == some it) = false := by simpa using h2
      simp [List.find?, hb, h1, h2]
  · have hb : (w.parentId == some pid) = false := by simpa using h1
    simp [List.find?, hb, h1]

lemma findNode_none_of_ge {nodes : List FPNode} (wf : WFNodes nodes)
    {i : Nat} (hi : nodes.length ≤ i) : findNode nodes i = none := by
  cases h : findNode nodes i with
  | none => rfl
  | some n =>
      obtain ⟨hn, hid⟩ := findNode_some h
      have := wf.id_lt hn
      omega

/-! ### Well-formedness is preserved by the two insertion steps -/

lemma wf_bumpNodes {t : FPTree} (hwf : WFTree t) {c : FPNode}
    (hc : c ∈ t.nodes) (hcid : c.id ≠ 0) :
    WFTree { t with nodes := bumpNodes t.nodes c.id } := by
  obtain ⟨wf, hnext, hidx⟩ := hwf
  refine ⟨⟨?_, ?_, ?_, ?_, ?_, ?_, ?_⟩, ?_, ?_⟩
  · rw [bumpNodes_map_id, length_bumpNodes, wf.ids]
  · have : rootNode = (fun n => if n.id = c.id then { n with support := n.support + 1 } else n) rootNode := by
      have : rootNode.id = 0 := rfl
      simp only [this]
      rw [if_neg (by omega)]
    rw [this]
    exact List.mem_map_of_mem _ wf.root_mem
  · intro n' hn' hp
    rcases List.mem_map.mp hn' with ⟨n, hn, rfl⟩
    rw [bump_fun_parent] at hp
    have hroot := wf.parent_none n hn hp
    subst hroot
    rw [if_neg (by simpa using hcid.symm)]
  · intro n' hn' hp
    rcases List.mem_map.mp hn' with ⟨n, hn, rfl⟩
    rw [bump_fun_item] at hp
    have hroot := wf.item_none n hn hp
    subst hroot
    rw [if_neg (by simpa using hcid.symm)]
  · intro n' hn' p hp
    rcases List.mem_map.mp hn' with ⟨n, hn, rfl⟩
    rw [bump_fun_parent] at hp
    rw [bump_fun_id]
    exact wf.parent_lt n hn p hp
  · intro n' hn'
    rcases List.mem_map.mp hn' with ⟨n, hn, rfl⟩
    have := wf.supp_pos n hn
    split <;> simp <;> omega
  · intro n₁' hn₁' n₂' hn₂' hp hi
    rcases List.mem_map.mp hn₁' with ⟨n₁, hn₁, rfl⟩
    rcases List.mem_map.mp hn₂' with ⟨n₂, hn₂, rfl⟩
    rw [bump_fun_parent, bump_fun_parent] at hp
    rw [bump_fun_item, bump_fun_item] at hi
    have : n₁ = n₂ := wf.child_unique n₁ hn₁ n₂ hn₂ hp hi
    rw [this]
  · simpa [length_bumpNodes] using hnext
  · show t.itemNodes = ((bumpNodes t.nodes c.id).drop 1).map (fun n => (n.item.getD 0, n.id))
    unfold bumpNodes
    rw [← List.map_drop, List.map_map, hidx]
    refine (List.map_congr_left ?_).symm
    intro n _
    simp only [Function.comp_apply]
    rw [bump_fun_item, bump_fun_id]

lemma wf_appendNode {t : FPTree} (hwf : WFTree t) {cur it : Nat}
    (hcur : cur < t.nodes.length)
    (hnone : findChild t.nodes cur it = none) :
    WFTree ⟨t.nodes ++ [⟨t.nextId, some it, some cur, 1⟩], t.nextId + 1,
      t.itemNodes ++ [(it, t.nextId)]⟩ := by
  obtain ⟨wf, hnext, hidx⟩ := hwf
  refine ⟨⟨?_, ?_, ?_, ?_, ?_, ?_, ?_⟩, ?_, ?_⟩
  · simp only [List.map_append, List.length_append, List.map_cons, List.map_nil]
    rw [wf.ids]
    simp [List.range_succ, hnext]
  · exact List.mem_append_left _ wf.root_mem
  · intro n hn hp
    rcases List.mem_append.mp hn with hn | hn
    · exact wf.parent_none n hn hp
    · simp at hn
      subst hn
      cases hp
  · intro n hn hp
    rcases List.mem_append.mp hn with hn | hn
    · exact wf.item_none n hn hp
    · simp at hn
      subst hn
      cases hp
  · intro n hn p hp
    rcases List.mem_append.mp hn with hn | hn
    · exact wf.parent_lt n hn p hp
    · simp at hn
      subst hn
      simp at hp
      subst hp
      simpa [hnext] using hcur
  · intro n hn
    rcases List.mem_append.mp hn with hn | hn
    · exact wf.supp_pos n hn
    · simp at hn
      subst hn
      exact le_refl 1
  · intro n₁ hn₁ n₂ hn₂ hp hi
    rcases List.mem_append.mp hn₁ with hn₁ | hn₁ <;>
      rcases List.mem_append.mp hn₂ with hn₂ | hn₂
    · exact wf.child_unique n₁ hn₁ n₂ hn₂ hp hi
    · simp at hn₂
      subst hn₂
      exfalso
      simp only at hp hi
      have := findChild_eq_some hn₁ hp hi wf.child_unique
      rw [hnone] at this
      cases this
    · simp at hn₁
      subst hn₁
      exfalso
      simp only at hp hi
      have := findChild_eq_some hn₂ hp.symm hi.symm wf.child_unique
      rw [hnone] at this
      cases this
    · simp at hn₁ hn₂
      rw [hn₁, hn₂]
  · simp [hnext]
  · have hlen : 1 ≤ t.nodes.length := List.length_pos.mpr (List.ne_nil_of_mem wf.root_mem)
    show t.itemNodes ++ [(it, t.nextId)] = _
    rw [List.drop_append_of_le_length hlen, List.map_append, hidx]
    simp

end FPG

namespace FPG

/-! ### Insertion step equations -/

lemma insertItem_eq_found {t : FPTree} {cur it : Nat} {c : FPNode}
    (h : findChild t.nodes cur it = some c) :
    insertItem t cur it = ({ t with nodes := bumpNodes t.nodes c.id }, c.id) := by
  unfold insertItem bumpNodes
  rw [h]

lemma insertItem_eq_new {t : FPTree} {cur it : Nat}
    (h : findChild t.nodes cur it = none) :
    insertItem t cur it =
      (⟨t.nodes ++ [⟨t.nextId, some it, some cur, 1⟩], t.nextId + 1,
        t.itemNodes ++ [(it, t.nextId)]⟩, t.nextId) := by
  unfold insertItem
  rw [h]

lemma findNode_append_left {nodes : List FPNode} {w : FPNode} {i : Nat} {n : FPNode}
    (h : findNode nodes i = some n) : findNode (nodes ++ [w]) i = some n := by
  rw [findNode_append, h]
  rfl

/-! ### Path sortedness is preserved -/

lemma treeSorted_bumpNodes {supp : Nat → Nat} {nodes : List FPNode} {cid : Nat}
    (hts : TreeSorted supp nodes) : TreeSorted supp (bumpNodes nodes cid) := by
  intro c' hc' pid hp p' hfind hproot
  rcases List.mem_map.mp hc' with ⟨c, hc, rfl⟩
  rw [bump_fun_parent] at hp
  rw [findNode_bumpNodes] at hfind
  rcases Option.map_eq_some'.mp hfind with ⟨p, hpfind, rfl⟩
  have hpp : (if p.id = cid then bumpNode p else p).parentId = p.parentId := by
    unfold bumpNode
    split <;> rfl
  rw [hpp] at hproot
  have hpi : (if p.id = cid then bumpNode p else p).item = p.item := by
    unfold bumpNode
    split <;> rfl
  rw [hpi, bump_fun_item]
  exact hts c hc pid hp p hpfind hproot

lemma treeSorted_append {supp : Nat → Nat} {t : FPTree} (hwf : WFTree t)
    (hts : TreeSorted supp t.nodes) {cur it : Nat} (hcur : cur < t.nodes.length)
    (hord : ∀ p, findNode t.nodes cur = some p → p.parentId ≠ none →
      before supp (p.item.getD 0) it = true) :
    TreeSorted supp (t.nodes ++ [⟨t.nextId, some it, some cur, 1⟩]) := by
  intro c hc pid hp p hfind hproot
  rw [findNode_append] at hfind
  rcases List.mem_append.mp hc with hcold | hcnew
  · cases hold : findNode t.nodes pid with
    | some p₀ =>
        rw [hold] at hfind
        have hpp₀ : p = p₀ := by
          have : (Option.or (some p₀) _ : Option FPNode) = some p := hfind
          simpa [Option.or] using this.symm
        subst hpp₀
        exact hts c hcold pid hp p hold hproot
    | none =>
        rw [hold] at hfind
        exfalso
        have hidlt := hwf.wf.parent_lt c hcold pid hp
        have hclt := hwf.wf.id_lt hcold
        have : pid < t.nodes.length := by omega
        rcases hwf.wf.exists_of_lt this with ⟨q, hq, _, _⟩
        rw [hq] at hold
        cases hold
  · simp only [List.mem_singleton] at hcnew
    subst hcnew
    simp only at hp
    have hpid : pid = cur := by
      injection hp with h
      exact h.symm
    subst hpid
    rcases hwf.wf.exists_of_lt hcur with ⟨p₀, hp₀, _, _⟩
    rw [hp₀] at hfind
    have hpp₀ : p = p₀ := by
      have : (Option.or (some p₀) _ : Option FPNode) = some p := hfind
      simpa [Option.or] using this.symm
    subst hpp₀
    exact hord p hp₀ hproot

/-! ### The insertion walk preserves well-formedness -/

lemma insertSorted_wf {supp : Nat → Nat} :
    ∀ (s : List Nat) (t : FPTree) (cur : Nat),
      WFTree t → TreeSorted supp t.nodes → cur < t.nodes.length →
      (∀ p, findNode t.nodes cur = some p → ∀ j ∈ s,
        p.parentId = none ∨ before supp (p.item.getD 0) j = true) →
      SortedB supp s →
      WFTree (insertSorted t cur s) ∧ TreeSorted supp (insertSorted t cur s).nodes := by
  intro s
  induction s with
  | nil =>
      intro t cur hwf hts _ _ _
      exact ⟨hwf, hts⟩
  | cons i rest ih =>
      intro t cur hwf hts hcur hstart hsort
      obtain ⟨hi_rest, hrest_sort⟩ := sortedB_cons hsort
      cases hfc : findChild t.nodes cur i with
      | some c =>
          obtain ⟨hcmem, hcp, hci⟩ := findChild_some hfc
          have hc0 : c.id ≠ 0 := by
            intro h0
            have hcr := hwf.wf.id_zero hcmem h0
            rw [hcr] at hcp
            cases hcp
          have step : insertSorted t cur (i :: rest) =
              insertSorted { t with nodes := bumpNodes t.nodes c.id } c.id rest := by
            show insertSorted (insertItem t cur i).1 (insertItem t cur i).2 rest = _
            rw [insertItem_eq_found hfc]
          rw [step]
          refine ih _ c.id (wf_bumpNodes hwf hcmem hc0)
            (treeSorted_bumpNodes hts) ?_ ?_ hrest_sort
          · show c.id < (bumpNodes t.nodes c.id).length
            rw [length_bumpNodes]
            exact hwf.wf.id_lt hcmem
          · intro p hp j hj
            show _ ∨ _
            right
            have : findNode (bumpNodes t.nodes c.id) c.id = some (bumpNode c) := by
              rw [findNode_bumpNodes, hwf.wf.findNode_self hcmem]
              simp [bumpNode]
            rw [this] at hp
            injection hp with hp
            subst hp
            have : (bumpNode c).item = some i := hci
            rw [this]
            exact hi_rest j hj
      | none =>
          have step : insertSorted t cur (i :: rest) =
              insertSorted ⟨t.nodes ++ [⟨t.nextId, some i, some cur, 1⟩], t.nextId + 1,
                t.itemNodes ++ [(i, t.nextId)]⟩ t.nextId rest := by
            show insertSorted (insertItem t cur i).1 (insertItem t cur i).2 rest = _
            rw [insertItem_eq_new hfc]
          rw [step]
          have hord : ∀ p, findNode t.nodes cur = some p → p.parentId ≠ none →
              before supp (p.item.getD 0) i = true := by
            intro p hp hproot
            rcases hstart p hp i (List.mem_cons_self i rest) with h | h
            · exact absurd h hproot
            · exact h
          have hwf1 : WFTree ⟨t.nodes ++ [⟨t.nextId, some i, some cur, 1⟩], t.nextId + 1,
              t.itemNodes ++ [(i, t.nextId)]⟩ := wf_appendNode hwf hcur hfc
          have hts1 : TreeSorted supp (t.nodes ++ [⟨t.nextId, some i, some cur, 1⟩]) :=
            treeSorted_append hwf hts hcur hord
          refine ih _ t.nextId hwf1 hts1 ?_ ?_ hrest_sort
          · show t.nextId < (t.nodes ++ [(⟨t.nextId, some i, some cur, 1⟩ : FPNode)]).length
            rw [List.length_append, hwf.next_eq]
            simp
          · intro p hp j hj
            right
            have hfn : findNode t.nodes t.nextId = none :=
              findNode_none_of_ge hwf.wf (le_of_eq hwf.next_eq.symm)
            have hw : findNode (t.nodes ++ [(⟨t.nextId, some i, some cur, 1⟩ : FPNode)]) t.nextId =
                some (⟨t.nextId, some i, some cur, 1⟩ : FPNode) := by
              rw [findNode_append, hfn]
              simp [Option.or]
            rw [hw] at hp
            injection hp with hp
            subst hp
            exact hi_rest j hj

lemma emptyTree_wf : WFTree emptyTree := by
  refine ⟨⟨?_, ?_, ?_, ?_, ?_, ?_, ?_⟩, rfl, rfl⟩
  · rfl
  · exact List.mem_singleton.mpr rfl
  · intro n hn _
    simpa using List.mem_singleton.mp hn
  · intro n hn _
    simpa using List.mem_singleton.mp hn
  · intro n hn p hp
    have : n = rootNode := List.mem_singleton.mp hn
    subst this
    cases hp
  · intro n hn
    have : n = rootNode := List.mem_singleton.mp hn
    subst this
    exact le_refl 1
  · intro n₁ hn₁ n₂ hn₂ _ _
    have h1 : n₁ = rootNode := List.mem_singleton.mp hn₁
    have h2 : n₂ = rootNode := List.mem_singleton.mp hn₂
    rw [h1, h2]

lemma emptyTree_sorted (supp : Nat → Nat) : TreeSorted supp emptyTree.nodes := by
  intro c hc pid hp
  have : c = rootNode := List.mem_singleton.mp hc
  subst this
  cases hp

lemma insertTransaction_wf {supp : Nat → Nat} {t : FPTree} (hwf : WFTree t)
    (hts : TreeSorted supp t.nodes) (tx : List Nat) :
    WFTree (insertTransaction t supp tx) ∧
      TreeSorted supp (insertTransaction t supp tx).nodes := by
  unfold insertTransaction
  refine insertSorted_wf (sortItems supp tx) t 0 hwf hts
    (List.length_pos.mpr (List.ne_nil_of_mem hwf.wf.root_mem)) ?_ (sortItems_sorted supp tx)
  intro p hp j _
  rw [hwf.wf.root_find] at hp
  injection hp with hp
  subst hp
  left
  rfl

lemma buildFrom_wf {supp : Nat → Nat} :
    ∀ (ts : List (List Nat)) (t : FPTree), WFTree t → TreeSorted supp t.nodes →
      WFTree (buildFrom supp t ts) ∧ TreeSorted supp (buildFrom supp t ts).nodes := by
  intro ts
  induction ts with
  | nil =>
      intro t hwf hts
      exact ⟨hwf, hts⟩
  | cons tx rest ih =>
      intro t hwf hts
      have h1 := insertTransaction_wf hwf hts tx
      exact ih (insertTransaction t supp tx) h1.1 h1.2

lemma buildTree_wf (ts : List (List Nat)) :
    WFTree (buildTree ts) ∧ TreeSorted (txSupport ts) (buildTree ts).nodes :=
  buildFrom_wf ts emptyTree emptyTree_wf (emptyTree_sorted _)

end FPG

namespace FPG

/-! ### Positivity of supports in indices -/

lemma pos_permanentIndex {t : FPTree} (hwf : WFTree t) : PosIndex (permanentIndex t) := by
  intro e he
  unfold permanentIndex at he
  rcases List.mem_filterMap.mp he with ⟨p, _, hmap⟩
  rcases Option.map_eq_some'.mp hmap with ⟨n, hfind, rfl⟩
  exact hwf.wf.supp_pos n (findNode_some hfind).1

lemma posIndex_bumpOrAdd {acc : List Entry} {a : FPNode} {s : Nat}
    (hacc : PosIndex acc) (hs : 1 ≤ s) : PosIndex (bumpOrAdd acc a s) := by
  unfold bumpOrAdd
  split
  · intro e' he'
    rcases List.mem_map.mp he' with ⟨e, he, rfl⟩
    have := hacc e he
    split
    · simp only []
      omega
    · exact this
  · intro e' he'
    rcases List.mem_append.mp he' with he' | he'
    · exact hacc e' he'
    · simp only [List.mem_singleton] at he'
      subst he'
      exact hs

lemma posIndex_foldAnc {chain : List FPNode} {s : Nat} :
    ∀ {acc : List Entry}, PosIndex acc → 1 ≤ s →
      PosIndex (chain.foldl (fun acc2 a => bumpOrAdd acc2 a s) acc) := by
  induction chain with
  | nil => intro acc hacc _; exact hacc
  | cons a rest ih =>
      intro acc hacc hs
      exact ih (posIndex_bumpOrAdd hacc hs) hs

lemma posIndex_getConditionalItemNodes {nodes : List FPNode} {target : Nat}
    {index : List Entry} (hpos : PosIndex index) :
    PosIndex (getConditionalItemNodes nodes target index) := by
  unfold getConditionalItemNodes
  have hfil : ∀ e ∈ index.filter (fun e => e.item == target), 1 ≤ e.support := by
    intro e he
    exact hpos e (List.mem_of_mem_filter he)
  revert hfil
  generalize index.filter (fun e => e.item == target) = l
  intro hfil
  have h : ∀ (l' : List Entry), (∀ e ∈ l', 1 ≤ e.support) → ∀ acc, PosIndex acc →
      PosIndex (l'.foldl
        (fun acc tgt => (entryAnc nodes tgt).foldl (fun acc2 a => bumpOrAdd acc2 a tgt.support) acc)
        acc) := by
    intro l'
    induction l' with
    | nil => intro _ acc hacc; exact hacc
    | cons tgt rest ih =>
        intro hl acc hacc
        refine ih (fun e he => hl e (List.mem_cons_of_mem tgt he)) _ ?_
        exact posIndex_foldAnc hacc (hl tgt (List.mem_cons_self tgt rest))
  exact h l hfil [] (fun e he => absurd he (List.not_mem_nil e))

lemma getItemSupport_pos_of_mem {index : List Entry} {i : Nat}
    (hpos : PosIndex index) (hi : i ∈ uniqueItems index) : 1 ≤ getItemSupport i index := by
  unfold uniqueItems at hi
  rw [List.mem_dedup] at hi
  rcases List.mem_map.mp hi with ⟨e, he, rfl⟩
  have hmem : e ∈ index.filter (fun e' => e'.item == e.item) :=
    List.mem_filter.mpr ⟨he, by simp⟩
  have : e.support ∈ (index.filter (fun e' => e'.item == e.item)).map (fun e => e.support) :=
    List.mem_map_of_mem _ hmem
  calc 1 ≤ e.support := hpos e he
  _ ≤ _ := List.single_le_sum (fun x _ => Nat.zero_le x) _ this

lemma flatMap_congr {α β : Type} {l : List α} {f g : α → List β}
    (h : ∀ a ∈ l, f a = g a) : l.flatMap f = l.flatMap g := by
  induction l with
  | nil => rfl
  | cons a rest ih =>
      simp only [List.flatMap_cons]
      rw [h a (List.mem_cons_self a rest), ih (fun b hb => h b (List.mem_cons_of_mem a hb))]

lemma minerAux_threshold_zero {nodes : List FPNode} :
    ∀ (fuel : Nat) (cur : List Nat) (index : List Entry), PosIndex index →
      minerAux nodes fuel cur index 0 = minerAux nodes fuel cur index 1 := by
  intro fuel
  induction fuel with
  | zero => intro _ _ _; rfl
  | succ fuel ih =>
      intro cur index hpos
      unfold minerAux
      apply flatMap_congr
      intro i hi
      have h0 : (0 : Nat) ≤ getItemSupport i index := Nat.zero_le _
      have h1 : (1 : Nat) ≤ getItemSupport i index := getItemSupport_pos_of_mem hpos hi
      rw [if_pos h0, if_pos h1]
      rw [ih (cur ++ [i]) _ (posIndex_getConditionalItemNodes hpos)]

end FPG

namespace FPG

/-! ### Claim C2 -/

lemma getItemSupport_removeInfrequent (m : Nat) (index : List Entry) (i : Nat) :
    getItemSupport i (removeInfrequentItemNodes m index) =
      if m ≤ getItemSupport i index then getItemSupport i index else 0 := by
  unfold removeInfrequentItemNodes
  have h := getItemSupport_filter_item (fun j => decide (m ≤ getItemSupport j index)) index i
  simp only [decide_eq_true_eq] at h
  exact h

/-- **C2** (amended): in the eager-pruning variant
(`frequent_pattern_tree.h` / `src/unnamed/part_002`),
`GetConditionalItemNodes` ends with `RemoveInfrequentItemNodes`, so the
index it returns contains no item whose total support is below
`minimum_support`.  The `.hpp` variant's `get_conditional_item_nodes`
performs no such pruning (see the counterexample). -/
theorem claim_C2 (nodes : List FPNode) (target : Nat) (index : List Entry) (m : Nat) :
    ∀ e ∈ getConditionalItemNodesEager nodes target index m,
      m ≤ getItemSupport e.item (getConditionalItemNodesEager nodes target index m) := by
  intro e he
  unfold getConditionalItemNodesEager at he ⊢
  have hmem := List.mem_filter.mp he
  have hpred : m ≤ getItemSupport e.item (getConditionalItemNodes nodes target index) := by
    simpa using hmem.2
  rw [getItemSupport_removeInfrequent, if_pos hpred]
  exact hpred

/-- Witness for C2: a concrete run of the eager variant whose result is
non-empty, with the theorem applied to its single entry. -/
theorem claim_C2_witness :
    (⟨1, 1, some 0, 1⟩ : Entry) ∈ getConditionalItemNodesEager (buildTree [[1, 2], [1]]).nodes 2
        (permanentIndex (buildTree [[1, 2], [1]])) 1 ∧
    1 ≤ getItemSupport 1 (getConditionalItemNodesEager (buildTree [[1, 2], [1]]).nodes 2
        (permanentIndex (buildTree [[1, 2], [1]])) 1) := by
  have hm : (⟨1, 1, some 0, 1⟩ : Entry) ∈ getConditionalItemNodesEager
      (buildTree [[1, 2], [1]]).nodes 2 (permanentIndex (buildTree [[1, 2], [1]])) 1 := by decide
  exact ⟨hm, claim_C2 (buildTree [[1, 2], [1]]).nodes 2
    (permanentIndex (buildTree [[1, 2], [1]])) 1 ⟨1, 1, some 0, 1⟩ hm⟩

/-- Counterexample for C2 as stated of the `.hpp` variant: with
transactions `{1,2}, {1}` and `minimum_support = 2`, the conditional base
that `get_conditional_item_nodes` hands to the recursive miner for
target 2 still contains item 1, whose total support 1 is below the
threshold 2 — no eager pruning happens in that variant. -/
theorem claim_C2_counterexample :
    getConditionalItemNodes (buildTree [[1, 2], [1]]).nodes 2
        (permanentIndex (buildTree [[1, 2], [1]])) = [⟨1, 1, some 0, 1⟩] ∧
    getItemSupport 1 (getConditionalItemNodes (buildTree [[1, 2], [1]]).nodes 2
        (permanentIndex (buildTree [[1, 2], [1]]))) < 2 := by
  constructor
  · decide
  · decide

/-! ### Claim C9 -/

/-- **C9** (amended): `minimum_support` is an unsigned integer, so the
only representable value of "`minimum_support ≤ 0`" is 0, and it is
neither validated nor rejected: `get_frequent_itemsets(0)` runs the core
algorithm, where every item present in an index trivially passes the
threshold test, so the call behaves exactly like `minimum_support = 1`. -/
theorem claim_C9 (ts : List (List Nat)) :
    getFrequentItemsets (buildTree ts) 0 = getFrequentItemsets (buildTree ts) 1 := by
  unfold getFrequentItemsets
  exact minerAux_threshold_zero _ _ _ (pos_permanentIndex (buildTree_wf ts).1)

/-- Counterexample for C9 as stated: the call with `minimum_support = 0`
is not rejected — it executes the core and returns a normal, non-empty
result. -/
theorem claim_C9_counterexample :
    getFrequentItemsets (buildTree [[5]]) 0 = [[5]] ∧
      getFrequentItemsets (buildTree [[5]]) 0 ≠ [] := by
  constructor
  · decide
  · decide

end FPG

namespace FPG

/-! ### The ancestor walk: fuel stability and unfolding -/

lemma ancestors_fuel {nodes : List FPNode} (wf : WFNodes nodes) :
    ∀ (f : Nat) (pid : Nat) (f' : Nat), pid < f → pid < f' →
      ancestors nodes f (some pid) = ancestors nodes f' (some pid) := by
  intro f
  induction f with
  | zero => intro pid f' h _; omega
  | succ f ih =>
      intro pid f' hf hf'
      cases f' with
      | zero => omega
      | succ f₁ =>
          cases hfind : findNode nodes pid with
          | none => simp only [ancestors, hfind]
          | some n =>
              cases hq : n.parentId with
              | none => simp only [ancestors, hfind, hq]
              | some q =>
                  simp only [ancestors, hfind, hq]
                  obtain ⟨hn, hid⟩ := findNode_some hfind
                  have hqpid : q < pid := hid ▸ wf.parent_lt n hn q hq
                  exact congrArg (n :: ·) (ih q f₁ (by omega) (by omega))

lemma ancestors_zero_len {nodes : List FPNode} (h : nodes.length = 0) (p : Option Nat) :
    ancestors nodes nodes.length p = [] := by
  rw [h]
  cases p <;> rfl

lemma ancestors_len_eq {nodes : List FPNode} (wf : WFNodes nodes) (pid : Nat) :
    ancestors nodes nodes.length (some pid) =
      (match findNode nodes pid with
      | none => []
      | some n =>
          match n.parentId with
          | none => []
          | some q => n :: ancestors nodes nodes.length (some q)) := by
  by_cases hpid : pid < nodes.length
  · obtain ⟨n, hfind, hn, hid⟩ := wf.exists_of_lt hpid
    cases hlen : nodes.length with
    | zero => omega
    | succ k =>
        cases hq : n.parentId with
        | none => simp only [ancestors, hfind, hq]
        | some q =>
            simp only [ancestors, hfind, hq]
            have hqpid : q < pid := hid ▸ wf.parent_lt n hn q hq
            exact congrArg (n :: ·) (ancestors_fuel wf k q (k + 1) (by omega) (by omega))
  · have hnone : findNode nodes pid = none := findNode_none_of_ge wf (by omega)
    cases hlen : nodes.length with
    | zero => simp only [ancestors, hnone]
    | succ k => simp only [ancestors, hnone]

lemma ancestors_len_root {nodes : List FPNode} (wf : WFNodes nodes) {n : FPNode}
    (hn : n ∈ nodes) (hq : n.parentId = none) :
    ancestors nodes nodes.length (some n.id) = [] := by
  rw [ancestors_len_eq wf, wf.findNode_self hn]
  simp only [hq]

lemma ancestors_len_cons {nodes : List FPNode} (wf : WFNodes nodes) {n : FPNode}
    (hn : n ∈ nodes) {q : Nat} (hq : n.parentId = some q) :
    ancestors nodes nodes.length (some n.id) =
      n :: ancestors nodes nodes.length (some q) := by
  rw [ancestors_len_eq wf, wf.findNode_self hn]
  simp only [hq]

lemma mem_ancestors {nodes : List FPNode} :
    ∀ (f : Nat) (p : Option Nat) (a : FPNode), a ∈ ancestors nodes f p →
      a ∈ nodes ∧ a.parentId ≠ none := by
  intro f
  induction f with
  | zero =>
      intro p a ha
      cases p with
      | none => cases ha
      | some pid => cases ha
  | succ f ih =>
      intro p a ha
      cases p with
      | none => cases ha
      | some pid =>
          cases hfind : findNode nodes pid with
          | none => simp only [ancestors, hfind] at ha; cases ha
          | some n =>
              cases hqn : n.parentId with
              | none => simp only [ancestors, hfind, hqn] at ha; cases ha
              | some q =>
                  simp only [ancestors, hfind, hqn] at ha
                  rcases List.mem_cons.mp ha with rfl | ha
                  · exact ⟨(findNode_some hfind).1, by rw [hqn]; exact Option.some_ne_none q⟩
                  · exact ih _ a ha

lemma ancestors_id_le {nodes : List FPNode} (wf : WFNodes nodes) :
    ∀ (f : Nat) (pid : Nat) (a : FPNode), a ∈ ancestors nodes f (some pid) → a.id ≤ pid := by
  intro f
  induction f with
  | zero => intro pid a ha; cases ha
  | succ f ih =>
      intro pid a ha
      cases hfind : findNode nodes pid with
      | none => simp only [ancestors, hfind] at ha; cases ha
      | some n =>
          cases hqn : n.parentId with
          | none => simp only [ancestors, hfind, hqn] at ha; cases ha
          | some q =>
              simp only [ancestors, hfind, hqn] at ha
              obtain ⟨hn, hid⟩ := findNode_some hfind
              rcases List.mem_cons.mp ha with rfl | ha
              · omega
              · have hq : q < pid := hid ▸ wf.parent_lt n hn q hqn
                have := ih q a ha
                omega

lemma ancestors_ids_pairwise {nodes : List FPNode} (wf : WFNodes nodes) :
    ∀ (f : Nat) (p : Option Nat),
      (ancestors nodes f p).Pairwise (fun a b => b.id < a.id) := by
  intro f
  induction f with
  | zero =>
      intro p
      cases p <;> exact List.Pairwise.nil
  | succ f ih =>
      intro p
      cases p with
      | none => exact List.Pairwise.nil
      | some pid =>
          cases hfind : findNode nodes pid with
          | none => simp only [ancestors, hfind]; exact List.Pairwise.nil
          | some n =>
              cases hqn : n.parentId with
              | none => simp only [ancestors, hfind, hqn]; exact List.Pairwise.nil
              | some q =>
                  simp only [ancestors, hfind, hqn]
                  refine List.Pairwise.cons ?_ (ih (some q))
                  intro b hb
                  obtain ⟨hn, hid⟩ := findNode_some hfind
                  have h1 : b.id ≤ q := ancestors_id_le wf f q b hb
                  have h2 : q < pid := hid ▸ wf.parent_lt n hn q hqn
                  omega

lemma ancestors_nodup_ids {nodes : List FPNode} (wf : WFNodes nodes) (f : Nat) (p : Option Nat) :
    ((ancestors nodes f p).map FPNode.id).Nodup := by
  have h := ancestors_ids_pairwise wf f p
  have h2 : (ancestors nodes f p).Pairwise (fun a b => a.id ≠ b.id) :=
    h.imp (fun hlt => by omega)
  exact List.pairwise_map.mpr h2

end FPG

namespace FPG

/-! ### Ancestor chains are stable under support bumps and fresh appends -/

lemma bumpSel_id (cid : Nat) (n : FPNode) :
    (if n.id = cid then bumpNode n else n).id = n.id := by
  unfold bumpNode
  split <;> rfl

lemma bumpSel_item (cid : Nat) (n : FPNode) :
    (if n.id = cid then bumpNode n else n).item = n.item := by
  unfold bumpNode
  split <;> rfl

lemma bumpSel_parent (cid : Nat) (n : FPNode) :
    (if n.id = cid then bumpNode n else n).parentId = n.parentId := by
  unfold bumpNode
  split <;> rfl

lemma ancestors_bumpNodes (nodes : List FPNode) (cid : Nat) :
    ∀ (f : Nat) (p : Option Nat),
      ancestors (bumpNodes nodes cid) f p =
        (ancestors nodes f p).map (fun n => if n.id = cid then bumpNode n else n) := by
  intro f
  induction f with
  | zero => intro p; cases p <;> rfl
  | succ f ih =>
      intro p
      cases p with
      | none => rfl
      | some pid =>
          cases hfind : findNode nodes pid with
          | none =>
              have h2 : findNode (bumpNodes nodes cid) pid = none := by
                rw [findNode_bumpNodes, hfind]
                rfl
              simp only [ancestors, hfind, h2]
              rfl
          | some n =>
              have h2 : findNode (bumpNodes nodes cid) pid =
                  some (if n.id = cid then bumpNode n else n) := by
                rw [findNode_bumpNodes, hfind]
                rfl
              cases hq : n.parentId with
              | none =>
                  have h3 : (if n.id = cid then bumpNode n else n).parentId = none := by
                    rw [bumpSel_parent, hq]
                  simp only [ancestors, hfind, h2, hq, h3]
                  rfl
              | some q =>
                  have h3 : (if n.id = cid then bumpNode n else n).parentId = some q := by
                    rw [bumpSel_parent, hq]
                  simp only [ancestors, hfind, h2, hq, h3]
                  rw [List.map_cons, ih (some q)]

lemma ancestors_appendNode {nodes : List FPNode} (wf : WFNodes nodes) {w : FPNode} :
    ∀ (f : Nat) (pid : Nat), pid < nodes.length →
      ancestors (nodes ++ [w]) f (some pid) = ancestors nodes f (some pid) := by
  intro f
  induction f with
  | zero => intro pid _; rfl
  | succ f ih =>
      intro pid hpid
      obtain ⟨n, hfind, hn, hid⟩ := wf.exists_of_lt hpid
      have h2 : findNode (nodes ++ [w]) pid = some n := findNode_append_left hfind
      cases hq : n.parentId with
      | none => simp only [ancestors, hfind, h2, hq]
      | some q =>
          simp only [ancestors, hfind, h2, hq]
          have hqpid : q < pid := hid ▸ wf.parent_lt n hn q hq
          rw [ih q (by omega)]

/-! ### Entry ancestors and their items under arena updates -/

lemma ancItems_bumpNodes (nodes : List FPNode) (cid : Nat) (e : Entry) :
    ancItems (bumpNodes nodes cid) e = ancItems nodes e := by
  unfold ancItems entryAnc
  rw [length_bumpNodes, ancestors_bumpNodes, List.map_map]
  apply List.map_congr_left
  intro n _
  simp only [Function.comp_apply]
  rw [bumpSel_item]

lemma ancItems_appendNode {nodes : List FPNode} (wf : WFNodes nodes) {w : FPNode}
    {e : Entry} (he : e.parentId = none ∨ ∃ pid, e.parentId = some pid ∧ pid < nodes.length) :
    ancItems (nodes ++ [w]) e = ancItems nodes e := by
  unfold ancItems entryAnc
  have hnone : ∀ (ns : List FPNode) (f : Nat), ancestors ns f none = [] := by
    intro ns f
    cases f <;> rfl
  rcases he with he | ⟨pid, he, hpid⟩
  · rw [he, hnone, hnone]
  · rw [he, List.length_append, List.length_singleton]
    rw [ancestors_appendNode wf (nodes.length + 1) pid hpid]
    congr 1
    exact ancestors_fuel wf (nodes.length + 1) pid nodes.length (by omega) (by omega)

/-! ### The permanent index under the two insertion steps -/

lemma filterMapCongr {α β : Type} {l : List α} {f g : α → Option β}
    (h : ∀ a ∈ l, f a = g a) : l.filterMap f = l.filterMap g := by
  induction l with
  | nil => rfl
  | cons a rest ih =>
      rw [List.filterMap_cons, List.filterMap_cons, h a (List.mem_cons_self a rest),
        ih (fun b hb => h b (List.mem_cons_of_mem a hb))]

lemma permanentIndex_bump (t : FPTree) (cid : Nat) :
    permanentIndex { t with nodes := bumpNodes t.nodes cid } =
      (permanentIndex t).map
        (fun e => if e.id = cid then { e with support := e.support + 1 } else e) := by
  unfold permanentIndex
  show t.itemNodes.filterMap _ = _
  rw [List.map_filterMap]
  apply filterMapCongr
  intro p _
  show (findNode (bumpNodes t.nodes cid) p.2).map _ = _
  rw [findNode_bumpNodes]
  cases hfind : findNode t.nodes p.2 with
  | none => rfl
  | some n =>
      by_cases hc : n.id = cid
      · simp [hc, bumpNode]
      · simp [hc]

lemma permanentIndex_appendNode {t : FPTree} (hwf : WFTree t) (it cur : Nat) :
    permanentIndex ⟨t.nodes ++ [⟨t.nextId, some it, some cur, 1⟩], t.nextId + 1,
        t.itemNodes ++ [(it, t.nextId)]⟩ =
      permanentIndex t ++ [⟨it, t.nextId, some cur, 1⟩] := by
  unfold permanentIndex
  show (t.itemNodes ++ [(it, t.nextId)]).filterMap _ = _
  rw [List.filterMap_append]
  congr 1
  · apply filterMapCongr
    intro p hp
    have hplt : p.2 < t.nodes.length := by
      rw [hwf.index_eq] at hp
      rcases List.mem_map.mp hp with ⟨n, hn, heq⟩
      have hmem : n ∈ t.nodes := List.mem_of_mem_drop hn
      have := hwf.wf.id_lt hmem
      have h2 : p.2 = n.id := by rw [← heq]
      omega
    obtain ⟨n, hfind, _, _⟩ := hwf.wf.exists_of_lt hplt
    rw [findNode_append_left hfind, hfind]
  · have hnone : findNode t.nodes t.nextId = none :=
      findNode_none_of_ge hwf.wf (le_of_eq hwf.next_eq.symm)
    have hsome : findNode (t.nodes ++ [⟨t.nextId, some it, some cur, 1⟩]) t.nextId =
        some ⟨t.nextId, some it, some cur, 1⟩ := by
      rw [findNode_append, hnone]
      simp [Option.or]
    simp only [List.filterMap_cons, List.filterMap_nil, hsome, Option.map_some]
    rfl

end FPG

namespace FPG

/-! ### Generic sum helpers -/

lemma sum_map_add {α : Type} (l : List α) (f g : α → Nat) :
    (l.map (fun a => f a + g a)).sum = (l.map f).sum + (l.map g).sum := by
  induction l with
  | nil => rfl
  | cons a rest ih =>
      simp only [List.map_cons, List.sum_cons, ih]
      omega

lemma countPCongr {α : Type} {l : List α} {p q : α → Bool}
    (h : ∀ a ∈ l, p a = q a) : l.countP p = l.countP q := by
  induction l with
  | nil => rfl
  | cons a rest ih =>
      rw [List.countP_cons, List.countP_cons, h a (List.mem_cons_self a rest),
        ih (fun b hb => h b (List.mem_cons_of_mem a hb))]

lemma sum_if_unique_id {idx : List Entry} (hnd : (idx.map Entry.id).Nodup)
    {cid : Nat} {w : Entry → Nat} {e₀ : Entry} (he : e₀ ∈ idx) (hid : e₀.id = cid) :
    (idx.map (fun e => if e.id = cid then w e else 0)).sum = w e₀ := by
  induction idx with
  | nil => cases he
  | cons a rest ih =>
      rw [List.map_cons] at hnd
      rw [List.nodup_cons] at hnd
      rcases List.mem_cons.mp he with rfl | he
      · simp only [List.map_cons, List.sum_cons, if_pos hid]
        have hz : ∀ x ∈ rest.map (fun e => if e.id = cid then w e else 0), x = 0 := by
          intro x hx
          rcases List.mem_map.mp hx with ⟨e, hemem, rfl⟩
          have hne : e.id ≠ cid := by
            intro hcontra
            apply hnd.1
            rw [hid, ← hcontra]
            exact List.mem_map_of_mem Entry.id hemem
          rw [if_neg hne]
        rw [List.sum_eq_zero hz]
        omega
      · have hane : a.id ≠ cid := by
          intro hcontra
          apply hnd.1
          rw [hcontra, ← hid]
          exact List.mem_map_of_mem Entry.id he
        simp only [List.map_cons, List.sum_cons, if_neg hane]
        rw [ih hnd.2 he]
        omega

/-! ### A closed form for the permanent index -/

lemma permanentIndex_eq {t : FPTree} (hwf : WFTree t) :
    permanentIndex t =
      (t.nodes.drop 1).map (fun n => ⟨n.item.getD 0, n.id, n.parentId, n.support⟩) := by
  unfold permanentIndex
  rw [hwf.index_eq, List.filterMap_map]
  have h : ∀ n ∈ t.nodes.drop 1,
      ((fun p : Nat × Nat => (findNode t.nodes p.2).map
          (fun m => (⟨p.1, m.id, m.parentId, m.support⟩ : Entry))) ∘
        (fun n => (n.item.getD 0, n.id))) n =
      some ⟨n.item.getD 0, n.id, n.parentId, n.support⟩ := by
    intro n hn
    have hmem : n ∈ t.nodes := List.mem_of_mem_drop hn
    simp only [Function.comp_apply]
    rw [hwf.wf.findNode_self hmem]
    rfl
  calc (t.nodes.drop 1).filterMap _
      = (t.nodes.drop 1).filterMap
          (fun n => some (⟨n.item.getD 0, n.id, n.parentId, n.support⟩ : Entry)) :=
        filterMapCongr h
  _ = _ := List.filterMap_eq_map _ ▸ rfl

lemma permanentIndex_nodup_ids {t : FPTree} (hwf : WFTree t) :
    ((permanentIndex t).map Entry.id).Nodup := by
  rw [permanentIndex_eq hwf, List.map_map]
  have : (Entry.id ∘ fun n : FPNode => (⟨n.item.getD 0, n.id, n.parentId, n.support⟩ : Entry)) =
      FPNode.id := rfl
  rw [this, List.map_drop]
  exact List.Nodup.sublist (List.drop_sublist 1 _) hwf.wf.nodup_ids

lemma mem_drop_one {t : FPTree} (hwf : WFTree t) {c : FPNode}
    (hc : c ∈ t.nodes) (hc0 : c.id ≠ 0) : c ∈ t.nodes.drop 1 := by
  cases hn : t.nodes with
  | nil => rw [hn] at hc; cases hc
  | cons h rest =>
      have hh : h ∈ t.nodes := by rw [hn]; exact List.mem_cons_self h rest
      have hh0 : h.id = 0 := by
        have hids := hwf.wf.ids
        rw [hn, List.map_cons] at hids
        have hlen2 : (h :: rest).length = rest.length + 1 := rfl
        rw [hlen2, List.range_succ_eq_map] at hids
        injection hids with h1 h2
      rw [hn] at hc
      rcases List.mem_cons.mp hc with rfl | hc
      · exact absurd hh0 hc0
      · simpa using hc

lemma mem_permanentIndex_of_node {t : FPTree} (hwf : WFTree t) {c : FPNode}
    (hc : c ∈ t.nodes) (hc0 : c.id ≠ 0) :
    (⟨c.item.getD 0, c.id, c.parentId, c.support⟩ : Entry) ∈ permanentIndex t := by
  rw [permanentIndex_eq hwf]
  exact List.mem_map_of_mem _ (mem_drop_one hwf hc hc0)

end FPG

namespace FPG

/-! ### Entry-level facts about the permanent index -/

lemma bumpE_parent (cid : Nat) (e : Entry) :
    (if e.id = cid then { e with support := e.support + 1 } else e).parentId = e.parentId := by
  split <;> rfl

lemma ancItems_parent_eq {nodes : List FPNode} {e₁ e₂ : Entry}
    (h : e₁.parentId = e₂.parentId) : ancItems nodes e₁ = ancItems nodes e₂ := by
  unfold ancItems entryAnc
  rw [h]

lemma drop_one_id_ne_zero {t : FPTree} (hwf : WFTree t) {n : FPNode}
    (hn : n ∈ t.nodes.drop 1) : n.id ≠ 0 := by
  intro h0
  have hmem : n ∈ t.nodes := List.mem_of_mem_drop hn
  have hroot : n = rootNode := hwf.wf.id_zero hmem h0
  cases hns : t.nodes with
  | nil => rw [hns] at hn; cases hn
  | cons h rest =>
      have hids := hwf.wf.ids
      rw [hns, List.map_cons] at hids
      have hlen2 : (h :: rest).length = rest.length + 1 := rfl
      rw [hlen2, List.range_succ_eq_map] at hids
      injection hids with h1 h2
      have hn' : n ∈ rest := by
        rw [hns] at hn
        simpa using hn
      have : n.id ∈ rest.map FPNode.id := List.mem_map_of_mem FPNode.id hn'
      rw [h0, h2] at this
      rcases List.mem_map.mp this with ⟨k, _, hk⟩
      omega

lemma entry_parent_bound {t : FPTree} (hwf : WFTree t) :
    ∀ e ∈ permanentIndex t, ∃ pid, e.parentId = some pid ∧ pid < t.nodes.length := by
  intro e he
  rw [permanentIndex_eq hwf] at he
  rcases List.mem_map.mp he with ⟨n, hn, rfl⟩
  have hmem : n ∈ t.nodes := List.mem_of_mem_drop hn
  have hn0 : n.id ≠ 0 := drop_one_id_ne_zero hwf hn
  cases hq : n.parentId with
  | none =>
      have : n = rootNode := hwf.wf.parent_none n hmem hq
      rw [this] at hn0
      exact absurd rfl hn0
  | some q =>
      have h1 : q < n.id := hwf.wf.parent_lt n hmem q hq
      have h2 : n.id < t.nodes.length := hwf.wf.id_lt hmem
      exact ⟨q, rfl, by omega⟩

/-! ### The conditional sum under the two insertion steps -/

lemma condSum_bump_step {t : FPTree} (hwf : WFTree t) {c : FPNode}
    (hc : c ∈ t.nodes) (hc0 : c.id ≠ 0) (i : Nat) (S : Finset Nat) :
    condSum (bumpNodes t.nodes c.id)
        (permanentIndex { t with nodes := bumpNodes t.nodes c.id }) i S
      = condSum t.nodes (permanentIndex t) i S +
        (if c.item.getD 0 = i ∧ ∀ s ∈ S,
            s ∈ (ancestors t.nodes t.nodes.length c.parentId).map (fun a => a.item.getD 0)
          then 1 else 0) := by
  rw [permanentIndex_bump]
  unfold condSum
  rw [List.map_map]
  have hpt : ∀ e ∈ permanentIndex t,
      ((fun e : Entry =>
          if e.item = i ∧ ∀ s ∈ S, s ∈ ancItems (bumpNodes t.nodes c.id) e then e.support else 0) ∘
        (fun e : Entry => if e.id = c.id then { e with support := e.support + 1 } else e)) e
      = (fun e : Entry =>
          (if e.item = i ∧ ∀ s ∈ S, s ∈ ancItems t.nodes e then e.support else 0) +
          (if e.id = c.id then
            (if e.item = i ∧ ∀ s ∈ S, s ∈ ancItems t.nodes e then 1 else 0) else 0)) e := by
    intro e _
    simp only [Function.comp_apply]
    have hanc : ancItems (bumpNodes t.nodes c.id)
        (if e.id = c.id then { e with support := e.support + 1 } else e) = ancItems t.nodes e := by
      rw [ancItems_bumpNodes]
      exact ancItems_parent_eq (bumpE_parent c.id e)
    rw [hanc]
    by_cases hid : e.id = c.id
    · rw [if_pos hid, if_pos hid]
      dsimp only
      split_ifs <;> omega
    · rw [if_neg hid, if_neg hid]
      split_ifs <;> omega
  rw [List.map_congr_left hpt, sum_map_add]
  congr 1
  have hswap : ∀ e ∈ permanentIndex t,
      (fun e : Entry => (if e.id = c.id then
          (if e.item = i ∧ ∀ s ∈ S, s ∈ ancItems t.nodes e then 1 else 0) else 0)) e
      = (fun e : Entry => (if e.id = c.id then
          (fun e : Entry => if e.item = i ∧ ∀ s ∈ S, s ∈ ancItems t.nodes e then 1 else 0) e
          else 0)) e := by
    intro e _
    rfl
  have hec : (⟨c.item.getD 0, c.id, c.parentId, c.support⟩ : Entry) ∈ permanentIndex t :=
    mem_permanentIndex_of_node hwf hc hc0
  rw [sum_if_unique_id (permanentIndex_nodup_ids hwf) hec rfl]
  rfl

lemma condSum_append_step {t : FPTree} (hwf : WFTree t) {it cur : Nat}
    (hcur : cur < t.nodes.length) (i : Nat) (S : Finset Nat) :
    condSum (t.nodes ++ [⟨t.nextId, some it, some cur, 1⟩])
        (permanentIndex ⟨t.nodes ++ [⟨t.nextId, some it, some cur, 1⟩], t.nextId + 1,
          t.itemNodes ++ [(it, t.nextId)]⟩) i S
      = condSum t.nodes (permanentIndex t) i S +
        (if it = i ∧ ∀ s ∈ S,
            s ∈ (ancestors t.nodes t.nodes.length (some cur)).map (fun a => a.item.getD 0)
          then 1 else 0) := by
  rw [permanentIndex_appendNode hwf it cur]
  unfold condSum
  rw [List.map_append, List.sum_append]
  congr 1
  · apply congrArg
    apply List.map_congr_left
    intro e he
    rcases entry_parent_bound hwf e he with ⟨pid, hpid, hlt⟩
    have hanc : ancItems (t.nodes ++ [⟨t.nextId, some it, some cur, 1⟩]) e =
        ancItems t.nodes e :=
      ancItems_appendNode hwf.wf (Or.inr ⟨pid, hpid, hlt⟩)
    rw [hanc]
  · have hanc : ancItems (t.nodes ++ [⟨t.nextId, some it, some cur, 1⟩])
        (⟨it, t.nextId, some cur, 1⟩ : Entry) =
        (ancestors t.nodes t.nodes.length (some cur)).map (fun a => a.item.getD 0) := by
      have h1 : ancItems (t.nodes ++ [⟨t.nextId, some it, some cur, 1⟩])
          (⟨it, t.nextId, some cur, 1⟩ : Entry) = ancItems t.nodes ⟨it, t.nextId, some cur, 1⟩ :=
        ancItems_appendNode hwf.wf (Or.inr ⟨cur, rfl, hcur⟩)
      rw [h1]
      rfl
    simp only [List.map_cons, List.map_nil, List.sum_cons, List.sum_nil, hanc]
    by_cases hcond : it = i ∧ ∀ s ∈ S,
        s ∈ (ancestors t.nodes t.nodes.length (some cur)).map (fun a => a.item.getD 0) <;>
      simp [hcond]

end FPG

namespace FPG

/-! ### The conditional sum across a whole insertion walk -/

lemma delta_combine {i i₀ : Nat} {rest A : List Nat} {S : Finset Nat} (hnotin : i₀ ∉ rest) :
    (if i₀ = i ∧ ∀ x ∈ S, x ∈ A then 1 else 0) +
      (if i ∈ rest ∧ ∀ x ∈ S, (x ∈ i₀ :: A ∨ x ∈ rest.takeWhile (fun j => j != i)) then 1 else 0)
      = (if i ∈ i₀ :: rest ∧ ∀ x ∈ S,
          (x ∈ A ∨ x ∈ (i₀ :: rest).takeWhile (fun j => j != i)) then 1 else 0) := by
  by_cases hii : i₀ = i
  · subst hii
    have htw : (i₀ :: rest).takeWhile (fun j => j != i₀) = [] := by
      simp [List.takeWhile_cons]
    rw [htw]
    have hcond2 : ¬(i₀ ∈ rest ∧ ∀ x ∈ S,
        (x ∈ i₀ :: A ∨ x ∈ rest.takeWhile (fun j => j != i₀))) :=
      fun h => hnotin h.1
    rw [if_neg hcond2]
    by_cases hA : ∀ x ∈ S, x ∈ A
    · have g1 : i₀ = i₀ ∧ ∀ x ∈ S, x ∈ A := ⟨rfl, hA⟩
      have g2 : i₀ ∈ i₀ :: rest ∧ ∀ x ∈ S, (x ∈ A ∨ x ∈ ([] : List Nat)) :=
        ⟨List.mem_cons_self i₀ rest, fun x hx => Or.inl (hA x hx)⟩
      rw [if_pos g1, if_pos g2]
    · have g1 : ¬(i₀ = i₀ ∧ ∀ x ∈ S, x ∈ A) := fun h => hA h.2
      have g2 : ¬(i₀ ∈ i₀ :: rest ∧ ∀ x ∈ S, (x ∈ A ∨ x ∈ ([] : List Nat))) := by
        intro h
        apply hA
        intro x hx
        rcases h.2 x hx with h' | h'
        · exact h'
        · cases h'
      rw [if_neg g1, if_neg g2]
  · have hbne : (i₀ != i) = true := by simpa using hii
    have htw : (i₀ :: rest).takeWhile (fun j => j != i) =
        i₀ :: rest.takeWhile (fun j => j != i) := by
      simp [List.takeWhile_cons, hbne]
    have g1 : ¬(i₀ = i ∧ ∀ x ∈ S, x ∈ A) := fun h => hii h.1
    rw [if_neg g1, htw]
    have hiff : (i ∈ rest ∧ ∀ x ∈ S, (x ∈ i₀ :: A ∨ x ∈ rest.takeWhile (fun j => j != i)))
        ↔ (i ∈ i₀ :: rest ∧ ∀ x ∈ S,
            (x ∈ A ∨ x ∈ i₀ :: rest.takeWhile (fun j => j != i))) := by
      constructor
      · rintro ⟨h1, h2⟩
        refine ⟨List.mem_cons_of_mem i₀ h1, ?_⟩
        intro x hx
        rcases h2 x hx with h' | h'
        · rcases List.mem_cons.mp h' with rfl | h''
          · exact Or.inr (List.mem_cons_self _ _)
          · exact Or.inl h''
        · exact Or.inr (List.mem_cons_of_mem i₀ h')
      · rintro ⟨h1, h2⟩
        refine ⟨?_, ?_⟩
        · rcases List.mem_cons.mp h1 with h' | h''
          · exact absurd h'.symm hii
          · exact h''
        · intro x hx
          rcases h2 x hx with h' | h'
          · exact Or.inl (List.mem_cons_of_mem i₀ h')
          · rcases List.mem_cons.mp h' with rfl | h''
            · exact Or.inl (List.mem_cons_self _ _)
            · exact Or.inr h''
    rw [if_congr hiff rfl rfl]
    omega

lemma insertSorted_condSum {supp : Nat → Nat} :
    ∀ (s : List Nat) (t : FPTree) (cur : Nat),
      WFTree t → TreeSorted supp t.nodes → cur < t.nodes.length →
      (∀ p, findNode t.nodes cur = some p → ∀ j ∈ s,
        p.parentId = none ∨ before supp (p.item.getD 0) j = true) →
      SortedB supp s → s.Nodup →
      ∀ (i : Nat) (S : Finset Nat),
        condSum (insertSorted t cur s).nodes (permanentIndex (insertSorted t cur s)) i S
          = condSum t.nodes (permanentIndex t) i S +
            (if i ∈ s ∧ ∀ x ∈ S,
                (x ∈ (ancestors t.nodes t.nodes.length (some cur)).map (fun a => a.item.getD 0) ∨
                  x ∈ s.takeWhile (fun j => j != i)) then 1 else 0) := by
  intro s
  induction s with
  | nil =>
      intro t cur hwf hts hcur hstart hsort hnd i S
      simp [insertSorted]
  | cons i₀ rest ih =>
      intro t cur hwf hts hcur hstart hsort hnd i S
      obtain ⟨hi0_rest, hrest_sort⟩ := sortedB_cons hsort
      obtain ⟨hi0_notin, hrest_nd⟩ := List.nodup_cons.mp hnd
      cases hfc : findChild t.nodes cur i₀ with
      | some c =>
          obtain ⟨hcmem, hcp, hci⟩ := findChild_some hfc
          have hc0 : c.id ≠ 0 := by
            intro h0
            have hcr := hwf.wf.id_zero hcmem h0
            rw [hcr] at hcp
            cases hcp
          have hci' : c.item.getD 0 = i₀ := by rw [hci]; rfl
          have step : insertSorted t cur (i₀ :: rest) =
              insertSorted { t with nodes := bumpNodes t.nodes c.id } c.id rest := by
            show insertSorted (insertItem t cur i₀).1 (insertItem t cur i₀).2 rest = _
            rw [insertItem_eq_found hfc]
          rw [step]
          have hwf₁ := wf_bumpNodes hwf hcmem hc0
          have hts₁ : TreeSorted supp (bumpNodes t.nodes c.id) := treeSorted_bumpNodes hts
          have hcur₁ : c.id < (bumpNodes t.nodes c.id).length := by
            rw [length_bumpNodes]
            exact hwf.wf.id_lt hcmem
          have hfind₁ : findNode (bumpNodes t.nodes c.id) c.id = some (bumpNode c) := by
            rw [findNode_bumpNodes, hwf.wf.findNode_self hcmem]
            simp [bumpNode]
          have hstart₁ : ∀ p, findNode (bumpNodes t.nodes c.id) c.id = some p → ∀ j ∈ rest,
              p.parentId = none ∨ before supp (p.item.getD 0) j = true := by
            intro p hp j hj
            rw [hfind₁] at hp
            injection hp with hp
            subst hp
            right
            have hbi : (bumpNode c).item = some i₀ := hci
            rw [hbi]
            exact hi0_rest j hj
          have hrec := ih { t with nodes := bumpNodes t.nodes c.id } c.id hwf₁ hts₁ hcur₁
            hstart₁ hrest_sort hrest_nd i S
          rw [hrec]
          have hbump := condSum_bump_step hwf hcmem hc0 i S
          have hanc₁ : (ancestors (bumpNodes t.nodes c.id) (bumpNodes t.nodes c.id).length
              (some c.id)).map (fun a => a.item.getD 0)
              = i₀ :: (ancestors t.nodes t.nodes.length (some cur)).map
                  (fun a => a.item.getD 0) := by
            rw [length_bumpNodes, ancestors_bumpNodes, List.map_map]
            have h2 : ((fun a : FPNode => a.item.getD 0) ∘
                (fun n => if n.id = c.id then bumpNode n else n)) =
                fun a : FPNode => a.item.getD 0 := by
              funext n
              simp only [Function.comp_apply]
              rw [bumpSel_item]
            rw [h2, ancestors_len_cons hwf.wf hcmem hcp, List.map_cons, hci']
          show condSum (bumpNodes t.nodes c.id)
              (permanentIndex { t with nodes := bumpNodes t.nodes c.id }) i S + _ = _
          rw [hbump, hanc₁, hcp, hci', Nat.add_assoc]
          congr 1
          exact delta_combine hi0_notin
      | none =>
          have step : insertSorted t cur (i₀ :: rest) =
              insertSorted ⟨t.nodes ++ [⟨t.nextId, some i₀, some cur, 1⟩], t.nextId + 1,
                t.itemNodes ++ [(i₀, t.nextId)]⟩ t.nextId rest := by
            show insertSorted (insertItem t cur i₀).1 (insertItem t cur i₀).2 rest = _
            rw [insertItem_eq_new hfc]
          rw [step]
          have hord : ∀ p, findNode t.nodes cur = some p → p.parentId ≠ none →
              before supp (p.item.getD 0) i₀ = true := by
            intro p hp hproot
            rcases hstart p hp i₀ (List.mem_cons_self i₀ rest) with h | h
            · exact absurd h hproot
            · exact h
          have hwf₁ : WFTree ⟨t.nodes ++ [⟨t.nextId, some i₀, some cur, 1⟩], t.nextId + 1,
              t.itemNodes ++ [(i₀, t.nextId)]⟩ := wf_appendNode hwf hcur hfc
          have hts₁ : TreeSorted supp (t.nodes ++ [⟨t.nextId, some i₀, some cur, 1⟩]) :=
            treeSorted_append hwf hts hcur hord
          have hcur₁ : t.nextId < (t.nodes ++ [(⟨t.nextId, some i₀, some cur, 1⟩ : FPNode)]).length := by
            rw [List.length_append, hwf.next_eq]
            simp
          have hfn : findNode t.nodes t.nextId = none :=
            findNode_none_of_ge hwf.wf (le_of_eq hwf.next_eq.symm)
          have hw : findNode (t.nodes ++ [(⟨t.nextId, some i₀, some cur, 1⟩ : FPNode)]) t.nextId =
              some (⟨t.nextId, some i₀, some cur, 1⟩ : FPNode) := by
            rw [findNode_append, hfn]
            simp [Option.or]
          have hstart₁ : ∀ p,
              findNode (t.nodes ++ [(⟨t.nextId, some i₀, some cur, 1⟩ : FPNode)]) t.nextId = some p →
              ∀ j ∈ rest, p.parentId = none ∨ before supp (p.item.getD 0) j = true := by
            intro p hp j hj
            rw [hw] at hp
            injection hp with hp
            subst hp
            right
            exact hi0_rest j hj
          have hrec := ih ⟨t.nodes ++ [⟨t.nextId, some i₀, some cur, 1⟩], t.nextId + 1,
            t.itemNodes ++ [(i₀, t.nextId)]⟩ t.nextId hwf₁ hts₁ hcur₁ hstart₁ hrest_sort
            hrest_nd i S
          rw [hrec]
          have happ := @condSum_append_step t hwf i₀ cur hcur i S
          have hwmem : (⟨t.nextId, some i₀, some cur, 1⟩ : FPNode) ∈
              t.nodes ++ [(⟨t.nextId, some i₀, some cur, 1⟩ : FPNode)] :=
            List.mem_append_right _ (List.mem_singleton.mpr rfl)
          have hanc₁ : (ancestors (t.nodes ++ [(⟨t.nextId, some i₀, some cur, 1⟩ : FPNode)])
              (t.nodes ++ [(⟨t.nextId, some i₀, some cur, 1⟩ : FPNode)]).length
              (some t.nextId)).map (fun a => a.item.getD 0)
              = i₀ :: (ancestors t.nodes t.nodes.length (some cur)).map
                  (fun a => a.item.getD 0) := by
            have h1 := ancestors_len_cons hwf₁.wf hwmem
              (show (⟨t.nextId, some i₀, some cur, 1⟩ : FPNode).parentId = some cur from rfl)
            rw [h1, List.map_cons]
            have hlen' : (t.nodes ++ [(⟨t.nextId, some i₀, some cur, 1⟩ : FPNode)]).length =
                t.nodes.length + 1 := by simp
            rw [hlen', ancestors_appendNode hwf.wf (t.nodes.length + 1) cur hcur,
              ancestors_fuel hwf.wf (t.nodes.length + 1) cur t.nodes.length (by omega) hcur]
            rfl
          show condSum (t.nodes ++ [(⟨t.nextId, some i₀, some cur, 1⟩ : FPNode)])
              (permanentIndex ⟨t.nodes ++ [⟨t.nextId, some i₀, some cur, 1⟩], t.nextId + 1,
                t.itemNodes ++ [(i₀, t.nextId)]⟩) i S + _ = _
          rw [happ, hanc₁, Nat.add_assoc]
          congr 1
          exact delta_combine hi0_notin

end FPG

namespace FPG

lemma insertTransaction_condSum {supp : Nat → Nat} {t : FPTree} (hwf : WFTree t)
    (hts : TreeSorted supp t.nodes) (tx : List Nat) (i : Nat) (S : Finset Nat)
    (hord : ∀ x ∈ S, before supp x i = true) :
    condSum (insertTransaction t supp tx).nodes
        (permanentIndex (insertTransaction t supp tx)) i S
      = condSum t.nodes (permanentIndex t) i S +
        (if i ∈ tx ∧ ∀ x ∈ S, x ∈ tx then 1 else 0) := by
  unfold insertTransaction
  have hlen0 : 0 < t.nodes.length :=
    List.length_pos.mpr (List.ne_nil_of_mem hwf.wf.root_mem)
  have hstart0 : ∀ p, findNode t.nodes 0 = some p → ∀ j ∈ sortItems supp tx,
      p.parentId = none ∨ before supp (p.item.getD 0) j = true := by
    intro p hp j _
    rw [hwf.wf.root_find] at hp
    injection hp with hp
    subst hp
    left
    rfl
  rw [insertSorted_condSum (sortItems supp tx) t 0 hwf hts hlen0 hstart0
    (sortItems_sorted supp tx) (sortItems_nodup supp tx) i S]
  have hanc0 : ancestors t.nodes t.nodes.length (some 0) = [] := by
    rw [ancestors_len_eq hwf.wf, hwf.wf.root_find]
    rfl
  rw [hanc0]
  have hiff : (i ∈ sortItems supp tx ∧ ∀ x ∈ S,
      (x ∈ ([] : List FPNode).map (fun a => a.item.getD 0) ∨
        x ∈ (sortItems supp tx).takeWhile (fun j => j != i)))
      ↔ (i ∈ tx ∧ ∀ x ∈ S, x ∈ tx) := by
    constructor
    · rintro ⟨h1, h2⟩
      refine ⟨mem_sortItems.mp h1, ?_⟩
      intro x hx
      rcases h2 x hx with h' | h'
      · cases h'
      · exact mem_sortItems.mp ((List.takeWhile_sublist _).mem h')
    · rintro ⟨h1, h2⟩
      refine ⟨mem_sortItems.mpr h1, ?_⟩
      intro x hx
      right
      exact mem_takeWhile_of_before (sortItems_sorted supp tx)
        (mem_sortItems.mpr (h2 x hx)) (hord x hx)
  rw [if_congr hiff rfl rfl]

lemma buildFrom_condSum {supp : Nat → Nat} :
    ∀ (D : List (List Nat)) (t : FPTree), WFTree t → TreeSorted supp t.nodes →
      ∀ (i : Nat) (S : Finset Nat), (∀ x ∈ S, before supp x i = true) →
        condSum (buildFrom supp t D).nodes (permanentIndex (buildFrom supp t D)) i S
          = condSum t.nodes (permanentIndex t) i S +
            D.countP (fun tx => decide (i ∈ tx ∧ ∀ x ∈ S, x ∈ tx)) := by
  intro D
  induction D with
  | nil =>
      intro t hwf hts i S hord
      simp [buildFrom]
  | cons tx rest ih =>
      intro t hwf hts i S hord
      have hstep := insertTransaction_condSum hwf hts tx i S hord
      have hpres := insertTransaction_wf hwf hts tx
      show condSum (buildFrom supp (insertTransaction t supp tx) rest).nodes
          (permanentIndex (buildFrom supp (insertTransaction t supp tx) rest)) i S = _
      rw [ih (insertTransaction t supp tx) hpres.1 hpres.2 i S hord, hstep,
        List.countP_cons]
      by_cases hc : i ∈ tx ∧ ∀ x ∈ S, x ∈ tx
      · rw [if_pos hc]
        have hd : decide (i ∈ tx ∧ ∀ x ∈ S, x ∈ tx) = true := decide_eq_true hc
        rw [hd, if_pos rfl]
        omega
      · rw [if_neg hc]
        have hd : decide (i ∈ tx ∧ ∀ x ∈ S, x ∈ tx) = false := decide_eq_false hc
        rw [hd, if_neg Bool.false_ne_true]
        omega

lemma emptyTree_permanentIndex : permanentIndex emptyTree = [] := rfl

/-- The base-case invariant: in the tree built from `ts`, the sum of the
supports of the `i`-nodes whose ancestor chains cover `S` counts exactly
the transactions containing `{i} ∪ S`, for any `S` of items strictly
before `i` in the global order. -/
lemma buildTree_condSum (ts : List (List Nat)) (i : Nat) (S : Finset Nat)
    (hord : ∀ x ∈ S, before (txSupport ts) x i = true) :
    condSum (buildTree ts).nodes (permanentIndex (buildTree ts)) i S
      = ts.countP (fun tx => decide (i ∈ tx ∧ ∀ x ∈ S, x ∈ tx)) := by
  have h := buildFrom_condSum ts emptyTree emptyTree_wf (emptyTree_sorted _) i S hord
  have hempty : condSum emptyTree.nodes (permanentIndex emptyTree) i S = 0 := rfl
  show condSum (buildFrom (txSupport ts) emptyTree ts).nodes
      (permanentIndex (buildFrom (txSupport ts) emptyTree ts)) i S = _
  rw [h, hempty]
  omega

end FPG

namespace FPG

/-! ### Claim C6 -/

lemma getItemSupport_eq_condSum_empty (nodes : List FPNode) (idx : List Entry) (i : Nat) :
    getItemSupport i idx = condSum nodes idx i ∅ := by
  unfold getItemSupport condSum
  induction idx with
  | nil => rfl
  | cons e rest ih =>
      by_cases he : e.item = i
      · have hb : (e.item == i) = true := by simpa using he
        rw [List.filter_cons, hb]
        simp only [if_true, List.map_cons, List.sum_cons]
        rw [ih]
        have hc : e.item = i ∧ ∀ s ∈ (∅ : Finset Nat), s ∈ ancItems nodes e :=
          ⟨he, fun s hs => absurd hs (Finset.not_mem_empty s)⟩
        rw [if_pos hc]
      · have hb : (e.item == i) = false := by simpa using he
        rw [List.filter_cons, hb]
        simp only [Bool.false_eq_true, if_false, List.map_cons, List.sum_cons]
        rw [ih]
        have hc : ¬(e.item = i ∧ ∀ s ∈ (∅ : Finset Nat), s ∈ ancItems nodes e) :=
          fun h => he h.1
        rw [if_neg hc]
        omega

/-- **C6**: after construction the item index registers every non-root
node (under the node's item), and for every item the supports of its
index entries sum to the number of transactions containing that item. -/
theorem claim_C6 (ts : List (List Nat)) :
    (∀ n ∈ (buildTree ts).nodes, n.id ≠ 0 →
      (n.item.getD 0, n.id) ∈ (buildTree ts).itemNodes) ∧
    ∀ i, getItemSupport i (permanentIndex (buildTree ts)) = txSupport ts i := by
  have hwf := (buildTree_wf ts).1
  constructor
  · intro n hn hn0
    rw [hwf.index_eq]
    exact List.mem_map_of_mem _ (mem_drop_one hwf hn hn0)
  · intro i
    rw [getItemSupport_eq_condSum_empty (buildTree ts).nodes,
      buildTree_condSum ts i ∅ (fun x hx => absurd hx (Finset.not_mem_empty x))]
    unfold txSupport
    apply countPCongr
    intro tx _
    cases hmem : tx.contains i with
    | true =>
        have hin : i ∈ tx := by simpa using hmem
        exact decide_eq_true ⟨hin, fun x hx => absurd hx (Finset.not_mem_empty x)⟩
    | false =>
        have hout : i ∉ tx := by simpa using hmem
        exact decide_eq_false (fun hcontra => hout hcontra.1)

end FPG

namespace FPG

/-! ### Claim C7: support monotonicity along non-root edges -/

lemma mono_bumpNodes {t : FPTree} (hwf : WFTree t) {c : FPNode} (hc : c ∈ t.nodes)
    (hmono : MonoNodes t.nodes)
    (hstrict : ∀ pid, c.parentId = some pid → pid ≠ 0 →
      ∀ p, findNode t.nodes pid = some p → c.support < p.support) :
    MonoNodes (bumpNodes t.nodes c.id) := by
  intro c' hc' pid hp hpid0 p' hfind
  rcases List.mem_map.mp hc' with ⟨a, ha, rfl⟩
  rw [bump_fun_parent] at hp
  rw [findNode_bumpNodes] at hfind
  rcases Option.map_eq_some'.mp hfind with ⟨p, hpfind, rfl⟩
  by_cases hac : a.id = c.id
  · have hae : a = c := List.inj_on_of_nodup_map hwf.wf.nodup_ids ha hc hac
    subst hae
    have hplt := hwf.wf.parent_lt a ha pid hp
    have hpid : p.id = pid := (findNode_some hpfind).2
    have hpc : ¬(p.id = a.id) := by omega
    rw [if_pos hac]
    rw [if_neg hpc]
    have := hstrict pid hp hpid0 p hpfind
    show a.support + 1 ≤ p.support
    omega
  · rw [if_neg hac]
    have hbase := hmono a ha pid hp hpid0 p hpfind
    by_cases hpc : p.id = c.id
    · rw [if_pos hpc]
      show a.support ≤ p.support + 1
      omega
    · rw [if_neg hpc]
      exact hbase

lemma mono_appendNode {t : FPTree} (hwf : WFTree t) {it cur : Nat}
    (hcur : cur < t.nodes.length) (hmono : MonoNodes t.nodes) :
    MonoNodes (t.nodes ++ [⟨t.nextId, some it, some cur, 1⟩]) := by
  intro c hc pid hp hpid0 p hfind
  have hfind' : findNode t.nodes pid = some p := by
    cases hold : findNode t.nodes pid with
    | some p₀ =>
        rw [findNode_append, hold] at hfind
        have hppe : p₀ = p := by simpa [Option.or] using hfind
        rw [← hppe]
    | none =>
        exfalso
        have hple : t.nodes.length ≤ pid := by
          by_contra hlt
          push_neg at hlt
          rcases hwf.wf.exists_of_lt hlt with ⟨q, hq, _, _⟩
          rw [hq] at hold
          cases hold
        rcases List.mem_append.mp hc with hcold | hcnew
        · have h1 := hwf.wf.parent_lt c hcold pid hp
          have h2 := hwf.wf.id_lt hcold
          omega
        · simp only [List.mem_singleton] at hcnew
          subst hcnew
          simp only at hp
          injection hp with hp
          omega
  rcases List.mem_append.mp hc with hcold | hcnew
  · exact hmono c hcold pid hp hpid0 p hfind'
  · simp only [List.mem_singleton] at hcnew
    subst hcnew
    simp only at hp
    injection hp with hp
    subst hp
    have hpmem := (findNode_some hfind').1
    show 1 ≤ p.support
    exact hwf.wf.supp_pos p hpmem

lemma insertSorted_mono {supp : Nat → Nat} :
    ∀ (s : List Nat) (t : FPTree) (cur : Nat),
      WFTree t → TreeSorted supp t.nodes → cur < t.nodes.length →
      (∀ p, findNode t.nodes cur = some p → ∀ j ∈ s,
        p.parentId = none ∨ before supp (p.item.getD 0) j = true) →
      SortedB supp s →
      MonoNodes t.nodes →
      (cur ≠ 0 → ∀ c ∈ t.nodes, c.parentId = some cur →
        ∀ p, findNode t.nodes cur = some p → c.support < p.support) →
      MonoNodes (insertSorted t cur s).nodes := by
  intro s
  induction s with
  | nil =>
      intro t cur _ _ _ _ _ hmono _
      exact hmono
  | cons i₀ rest ih =>
      intro t cur hwf hts hcur hstart hsort hmono hstrict
      obtain ⟨hi0_rest, hrest_sort⟩ := sortedB_cons hsort
      cases hfc : findChild t.nodes cur i₀ with
      | some c =>
          obtain ⟨hcmem, hcp, hci⟩ := findChild_some hfc
          have hc0 : c.id ≠ 0 := by
            intro h0
            have hcr := hwf.wf.id_zero hcmem h0
            rw [hcr] at hcp
            cases hcp
          have step : insertSorted t cur (i₀ :: rest) =
              insertSorted { t with nodes := bumpNodes t.nodes c.id } c.id rest := by
            show insertSorted (insertItem t cur i₀).1 (insertItem t cur i₀).2 rest = _
            rw [insertItem_eq_found hfc]
          rw [step]
          have hwf₁ := wf_bumpNodes hwf hcmem hc0
          have hts₁ : TreeSorted supp (bumpNodes t.nodes c.id) := treeSorted_bumpNodes hts
          have hcur₁ : c.id < (bumpNodes t.nodes c.id).length := by
            rw [length_bumpNodes]
            exact hwf.wf.id_lt hcmem
          have hfind₁ : findNode (bumpNodes t.nodes c.id) c.id = some (bumpNode c) := by
            rw [findNode_bumpNodes, hwf.wf.findNode_self hcmem]
            simp [bumpNode]
          have hstart₁ : ∀ p, findNode (bumpNodes t.nodes c.id) c.id = some p → ∀ j ∈ rest,
              p.parentId = none ∨ before supp (p.item.getD 0) j = true := by
            intro p hp j hj
            rw [hfind₁] at hp
            injection hp with hp
            subst hp
            right
            have hbi : (bumpNode c).item = some i₀ := hci
            rw [hbi]
            exact hi0_rest j hj
          have hmono₁ : MonoNodes (bumpNodes t.nodes c.id) := by
            apply mono_bumpNodes hwf hcmem hmono
            intro pid hp hpid0 p hpfind
            have hpc : pid = cur := by
              rw [hcp] at hp
              injection hp with hp
              exact hp.symm
            subst hpc
            exact hstrict hpid0 c hcmem hcp p hpfind
          have hstrict₁ : c.id ≠ 0 → ∀ g ∈ (bumpNodes t.nodes c.id), g.parentId = some c.id →
              ∀ p, findNode (bumpNodes t.nodes c.id) c.id = some p → g.support < p.support := by
            intro _ g hg hgp p hpfind
            rw [hfind₁] at hpfind
            injection hpfind with hpfind
            subst hpfind
            rcases List.mem_map.mp hg with ⟨a, ha, rfl⟩
            rw [bump_fun_parent] at hgp
            have habase : a.support ≤ c.support := hmono a ha c.id hgp hc0 c
              (hwf.wf.findNode_self hcmem)
            have hac : ¬(a.id = c.id) := by
              intro hacid
              have hae : a = c := List.inj_on_of_nodup_map hwf.wf.nodup_ids ha hcmem hacid
              subst hae
              have := hwf.wf.parent_lt a ha a.id hgp
              omega
            rw [if_neg hac]
            show a.support < (bumpNode c).support
            unfold bumpNode
            simp only []
            omega
          exact ih { t with nodes := bumpNodes t.nodes c.id } c.id hwf₁ hts₁ hcur₁
            hstart₁ hrest_sort hmono₁ (fun _ => hstrict₁ hc0)
      | none =>
          have step : insertSorted t cur (i₀ :: rest) =
              insertSorted ⟨t.nodes ++ [⟨t.nextId, some i₀, some cur, 1⟩], t.nextId + 1,
                t.itemNodes ++ [(i₀, t.nextId)]⟩ t.nextId rest := by
            show insertSorted (insertItem t cur i₀).1 (insertItem t cur i₀).2 rest = _
            rw [insertItem_eq_new hfc]
          rw [step]
          have hord : ∀ p, findNode t.nodes cur = some p → p.parentId ≠ none →
              before supp (p.item.getD 0) i₀ = true := by
            intro p hp hproot
            rcases hstart p hp i₀ (List.mem_cons_self i₀ rest) with h | h
            · exact absurd h hproot
            · exact h
          have hwf₁ : WFTree ⟨t.nodes ++ [⟨t.nextId, some i₀, some cur, 1⟩], t.nextId + 1,
              t.itemNodes ++ [(i₀, t.nextId)]⟩ := wf_appendNode hwf hcur hfc
          have hts₁ : TreeSorted supp (t.nodes ++ [⟨t.nextId, some i₀, some cur, 1⟩]) :=
            treeSorted_append hwf hts hcur hord
          have hcur₁ : t.nextId <
              (t.nodes ++ [(⟨t.nextId, some i₀, some cur, 1⟩ : FPNode)]).length := by
            rw [List.length_append, hwf.next_eq]
            simp
          have hfn : findNode t.nodes t.nextId = none :=
            findNode_none_of_ge hwf.wf (le_of_eq hwf.next_eq.symm)
          have hw : findNode (t.nodes ++ [(⟨t.nextId, some i₀, some cur, 1⟩ : FPNode)]) t.nextId =
              some (⟨t.nextId, some i₀, some cur, 1⟩ : FPNode) := by
            rw [findNode_append, hfn]
            simp [Option.or]
          have hstart₁ : ∀ p,
              findNode (t.nodes ++ [(⟨t.nextId, some i₀, some cur, 1⟩ : FPNode)]) t.nextId =
                some p →
              ∀ j ∈ rest, p.parentId = none ∨ before supp (p.item.getD 0) j = true := by
            intro p hp j hj
            rw [hw] at hp
            injection hp with hp
            subst hp
            right
            exact hi0_rest j hj
          have hmono₁ : MonoNodes (t.nodes ++ [⟨t.nextId, some i₀, some cur, 1⟩]) :=
            mono_appendNode hwf hcur hmono
          have hstrict₁ : t.nextId ≠ 0 →
              ∀ g ∈ (t.nodes ++ [(⟨t.nextId, some i₀, some cur, 1⟩ : FPNode)]),
                g.parentId = some t.nextId →
              ∀ p, findNode (t.nodes ++ [(⟨t.nextId, some i₀, some cur, 1⟩ : FPNode)]) t.nextId =
                some p → g.support < p.support := by
            intro _ g hg hgp p _
            exfalso
            rcases List.mem_append.mp hg with hgold | hgnew
            · have h1 := hwf.wf.parent_lt g hgold t.nextId hgp
              have h2 := hwf.wf.id_lt hgold
              rw [hwf.next_eq] at h1
              omega
            · simp only [List.mem_singleton] at hgnew
              subst hgnew
              simp only at hgp
              injection hgp with hgp
              rw [hwf.next_eq] at hgp
              omega
          exact ih _ t.nextId hwf₁ hts₁ hcur₁ hstart₁ hrest_sort hmono₁ hstrict₁

lemma buildTree_mono (ts : List (List Nat)) : MonoNodes (buildTree ts).nodes := by
  suffices h : ∀ (D : List (List Nat)) (t : FPTree), WFTree t →
      TreeSorted (txSupport ts) t.nodes → MonoNodes t.nodes →
      MonoNodes (buildFrom (txSupport ts) t D).nodes by
    apply h ts emptyTree emptyTree_wf (emptyTree_sorted _)
    intro c hc pid hp _ p _
    have : c = rootNode := List.mem_singleton.mp hc
    subst this
    cases hp
  intro D
  induction D with
  | nil =>
      intro t _ _ hmono
      exact hmono
  | cons tx rest ihD =>
      intro t hwf hts hmono
      have hpres := insertTransaction_wf hwf hts tx
      apply ihD _ hpres.1 hpres.2
      unfold insertTransaction
      have hlen0 : 0 < t.nodes.length :=
        List.length_pos.mpr (List.ne_nil_of_mem hwf.wf.root_mem)
      apply insertSorted_mono (sortItems (txSupport ts) tx) t 0 hwf hts hlen0 ?_
        (sortItems_sorted _ tx) hmono ?_
      · intro p hp j _
        rw [hwf.wf.root_find] at hp
        injection hp with hp
        subst hp
        left
        rfl
      · intro h0
        exact absurd rfl h0

end FPG

namespace FPG

/-- Witness for C6 at a concrete tree: the index registers the non-root
node for item 1 and the supports of item 1's entries sum to the number
of transactions containing 1. -/
theorem claim_C6_witness :
    ((1 : Nat), (1 : Nat)) ∈ (buildTree [[1, 2], [1]]).itemNodes ∧
    getItemSupport 1 (permanentIndex (buildTree [[1, 2], [1]])) = txSupport [[1, 2], [1]] 1 := by
  constructor
  · exact (claim_C6 [[1, 2], [1]]).1 ⟨1, some 1, some 0, 2⟩ (by decide) (by decide)
  · exact (claim_C6 [[1, 2], [1]]).2 1

/-- **C7** (amended): in the tree built from any list of transactions,
the support of a node never exceeds the support of its parent whenever
that parent is itself a non-root node.  Children of the root are exempt:
the root's `support` field is the constant 1 and does not track
transaction counts (see the counterexample). -/
theorem claim_C7 (ts : List (List Nat)) :
    ∀ c ∈ (buildTree ts).nodes, ∀ pid, c.parentId = some pid → pid ≠ 0 →
      ∀ p, findNode (buildTree ts).nodes pid = some p → c.support ≤ p.support :=
  buildTree_mono ts

/-- Witness for C7: a concrete non-root edge where the bound holds. -/
theorem claim_C7_witness :
    (⟨2, some 2, some 1, 1⟩ : FPNode) ∈ (buildTree [[1, 2]]).nodes ∧
    findNode (buildTree [[1, 2]]).nodes 1 = some ⟨1, some 1, some 0, 1⟩ ∧
    (⟨2, some 2, some 1, 1⟩ : FPNode).support ≤ (⟨1, some 1, some 0, 1⟩ : FPNode).support := by
  refine ⟨by decide, by decide, ?_⟩
  exact claim_C7 [[1, 2]] ⟨2, some 2, some 1, 1⟩ (by decide) 1 rfl (by decide)
    ⟨1, some 1, some 0, 1⟩ (by decide)

/-- Counterexample for C7 as stated: after inserting `{7}` twice, the
child of the root has support 2 while its parent, the root, keeps
support 1 — so "support never exceeds the support of its parent" fails
at root children. -/
theorem claim_C7_counterexample :
    (⟨1, some 7, some 0, 2⟩ : FPNode) ∈ (buildTree [[7], [7]]).nodes ∧
    (⟨1, some 7, some 0, 2⟩ : FPNode).parentId = some rootNode.id ∧
    findNode (buildTree [[7], [7]]).nodes rootNode.id = some rootNode ∧
    ¬((⟨1, some 7, some 0, 2⟩ : FPNode).support ≤ rootNode.support) := by
  refine ⟨by decide, by decide, by decide, by decide⟩

end FPG

namespace FPG

/-! ### Claim C4 -/

/-- **C4**: insertion processes exactly the distinct items of the
transaction, in descending order of global support with ties broken by
ascending item value, and each step of the walk either creates a fresh
child (support 1, parent = current node) registered in the item index,
or increments the existing child's support by one — leaving every other
node and the rest of the index untouched. -/
theorem claim_C4 (supp : Nat → Nat) (tx : List Nat) (t : FPTree) (cur it : Nat)
    (hwf : WFTree t) :
    ((sortItems supp tx).Perm tx.dedup ∧
      (sortItems supp tx).Pairwise
        (fun a b => supp b < supp a ∨ (supp a = supp b ∧ a < b)) ∧
      insertTransaction t supp tx = insertSorted t 0 (sortItems supp tx)) ∧
    ((∃ c, findChild t.nodes cur it = some c ∧
        (insertItem t cur it).1.nodes = bumpNodes t.nodes c.id ∧
        (insertItem t cur it).1.itemNodes = t.itemNodes ∧
        (insertItem t cur it).1.nextId = t.nextId ∧
        findNode (insertItem t cur it).1.nodes c.id = some (bumpNode c) ∧
        (∀ n ∈ t.nodes, n.id ≠ c.id → n ∈ (insertItem t cur it).1.nodes) ∧
        (insertItem t cur it).1.nodes.length = t.nodes.length) ∨
      (findChild t.nodes cur it = none ∧
        (insertItem t cur it).1.nodes = t.nodes ++ [⟨t.nextId, some it, some cur, 1⟩] ∧
        (insertItem t cur it).1.itemNodes = t.itemNodes ++ [(it, t.nextId)] ∧
        ∀ n ∈ t.nodes, n ∈ (insertItem t cur it).1.nodes)) := by
  constructor
  · refine ⟨sortItems_perm supp tx, ?_, rfl⟩
    refine (sortItems_sorted supp tx).imp ?_
    intro a b hab
    rw [before_iff] at hab
    rcases hab with ⟨h1, h2⟩ | ⟨h1, h2⟩
    · exact Or.inr ⟨h1, h2⟩
    · exact Or.inl h2
  · cases hfc : findChild t.nodes cur it with
    | some c =>
        left
        obtain ⟨hcmem, _, _⟩ := findChild_some hfc
        refine ⟨c, rfl, ?_, ?_, ?_, ?_, ?_, ?_⟩
        · rw [insertItem_eq_found hfc]
        · rw [insertItem_eq_found hfc]
        · rw [insertItem_eq_found hfc]
        · rw [insertItem_eq_found hfc]
          show findNode (bumpNodes t.nodes c.id) c.id = some (bumpNode c)
          rw [findNode_bumpNodes, hwf.wf.findNode_self hcmem]
          simp [bumpNode]
        · intro n hn hne
          rw [insertItem_eq_found hfc]
          show n ∈ bumpNodes t.nodes c.id
          have : n = if n.id = c.id then { n with support := n.support + 1 } else n := by
            rw [if_neg hne]
          rw [this]
          exact List.mem_map_of_mem _ hn
        · rw [insertItem_eq_found hfc]
          exact length_bumpNodes t.nodes c.id
    | none =>
        right
        refine ⟨rfl, ?_, ?_, ?_⟩
        · rw [insertItem_eq_new hfc]
        · rw [insertItem_eq_new hfc]
        · intro n hn
          rw [insertItem_eq_new hfc]
          exact List.mem_append_left _ hn

/-- Witness for C4: at a concrete tree and step, the processed item list
is the sorted deduplicated transaction and the step creates a fresh,
registered child. -/
theorem claim_C4_witness :
    (sortItems (txSupport [[1, 2], [1]]) [1, 2]).Perm ([1, 2] : List Nat).dedup ∧
    sortItems (txSupport [[1, 2], [1]]) [1, 2] = [1, 2] := by
  refine ⟨(claim_C4 (txSupport [[1, 2], [1]]) [1, 2] (buildTree [[1, 2], [1]]) 0 1
    (buildTree_wf [[1, 2], [1]]).1).1.1, by decide⟩

end FPG

namespace FPG

/-! ### The two shapes of the `find_item_node` accumulation step -/

lemma bumpESel_id (cid : Nat) (s : Nat) (e : Entry) :
    (if e.id = cid then { e with support := e.support + s } else e).id = e.id := by
  split <;> rfl

lemma bumpOrAdd_any_eq {nodes : List FPNode} (wf : WFNodes nodes) {acc : List Entry} {a : FPNode}
    (ha : a ∈ nodes)
    (hcons : ∀ f ∈ acc, ∃ n, findNode nodes f.id = some n ∧
      n.item = some f.item ∧ n.parentId = f.parentId) :
    (acc.any (fun e => e.item == a.item.getD 0 && e.id == a.id)) =
      (acc.any (fun e => e.id == a.id)) := by
  by_cases h : ∃ e ∈ acc, e.id = a.id
  · rcases h with ⟨e, he, hid⟩
    have h1 : acc.any (fun e => e.id == a.id) = true :=
      List.any_eq_true.mpr ⟨e, he, by simpa using hid⟩
    rcases hcons e he with ⟨n, hfind, hitem, _⟩
    rw [hid, wf.findNode_self ha] at hfind
    have hna : n = a := by injection hfind with h'; exact h'.symm
    rw [hna] at hitem
    have h2 : acc.any (fun e => e.item == a.item.getD 0 && e.id == a.id) = true := by
      refine List.any_eq_true.mpr ⟨e, he, ?_⟩
      rw [hitem]
      simp [hid]
    rw [h1, h2]
  · have h1 : acc.any (fun e => e.id == a.id) = false := by
      rw [Bool.eq_false_iff]
      intro hcontra
      rcases List.any_eq_true.mp hcontra with ⟨e, he, hpe⟩
      exact h ⟨e, he, by simpa using hpe⟩
    have h2 : acc.any (fun e => e.item == a.item.getD 0 && e.id == a.id) = false := by
      rw [Bool.eq_false_iff]
      intro hcontra
      rcases List.any_eq_true.mp hcontra with ⟨e, he, hpe⟩
      simp only [Bool.and_eq_true, beq_iff_eq] at hpe
      exact h ⟨e, he, hpe.2⟩
    rw [h1, h2]

lemma bumpOrAdd_eq_found {nodes : List FPNode} (wf : WFNodes nodes) {acc : List Entry}
    {a : FPNode} {s : Nat} (ha : a ∈ nodes)
    (hcons : ∀ f ∈ acc, ∃ n, findNode nodes f.id = some n ∧
      n.item = some f.item ∧ n.parentId = f.parentId)
    (hin : a.id ∈ acc.map Entry.id) :
    bumpOrAdd acc a s =
      acc.map (fun e => if e.id = a.id then { e with support := e.support + s } else e) := by
  unfold bumpOrAdd
  rw [bumpOrAdd_any_eq wf ha hcons]
  rcases List.mem_map.mp hin with ⟨e₀, he₀, hid₀⟩
  have hany : acc.any (fun e => e.id == a.id) = true :=
    List.any_eq_true.mpr ⟨e₀, he₀, by simpa using hid₀⟩
  rw [hany]
  simp only [if_true]
  apply List.map_congr_left
  intro e he
  by_cases hid : e.id = a.id
  · rcases hcons e he with ⟨n, hfind, hitem, _⟩
    rw [hid, wf.findNode_self ha] at hfind
    have hna : n = a := by injection hfind with h'; exact h'.symm
    rw [hna] at hitem
    have hcond : (e.item == a.item.getD 0 && e.id == a.id) = true := by
      rw [hitem]
      simp [hid]
    rw [hcond, if_pos hid]
    simp
  · have hcond : (e.item == a.item.getD 0 && e.id == a.id) = false := by
      rw [Bool.eq_false_iff]
      intro hc
      simp only [Bool.and_eq_true, beq_iff_eq] at hc
      exact hid hc.2
    rw [hcond, if_neg hid]
    simp

lemma bumpOrAdd_eq_new {acc : List Entry} {a : FPNode} {s : Nat}
    (hout : a.id ∉ acc.map Entry.id) :
    bumpOrAdd acc a s = acc ++ [⟨a.item.getD 0, a.id, a.parentId, s⟩] := by
  unfold bumpOrAdd
  have hany : acc.any (fun e => e.item == a.item.getD 0 && e.id == a.id) = false := by
    rw [Bool.eq_false_iff]
    intro hcontra
    rcases List.any_eq_true.mp hcontra with ⟨e, he, hpe⟩
    simp only [Bool.and_eq_true, beq_iff_eq] at hpe
    exact hout (hpe.2 ▸ List.mem_map_of_mem Entry.id he)
  rw [hany]
  simp

end FPG

namespace FPG

lemma bumpESel_item (cid : Nat) (s : Nat) (e : Entry) :
    (if e.id = cid then { e with support := e.support + s } else e).item = e.item := by
  split <;> rfl

lemma bumpESel_parent (cid : Nat) (s : Nat) (e : Entry) :
    (if e.id = cid then { e with support := e.support + s } else e).parentId = e.parentId := by
  split <;> rfl

lemma map_id_bumpE (acc : List Entry) (cid : Nat) (s : Nat) :
    ((acc.map (fun e => if e.id = cid then { e with support := e.support + s } else e)).map
      Entry.id) = acc.map Entry.id := by
  rw [List.map_map]
  apply List.map_congr_left
  intro e _
  exact bumpESel_id cid s e

lemma item_ne_none_of_parent {nodes : List FPNode} (wf : WFNodes nodes) {a : FPNode}
    (ha : a ∈ nodes) (hap : a.parentId ≠ none) : a.item = some (a.item.getD 0) := by
  cases hitem : a.item with
  | none =>
      have := wf.item_none a ha hitem
      rw [this] at hap
      exact absurd rfl hap
  | some x => rfl

lemma innerFold_char {nodes : List FPNode} (wf : WFNodes nodes) (s : Nat) (oldsum : Nat → Nat) :
    ∀ (todo done : List FPNode) (acc : List Entry),
      (∀ a ∈ todo, a ∈ nodes ∧ a.parentId ≠ none) →
      (((done ++ todo).map FPNode.id).Nodup) →
      ((acc.map Entry.id).Nodup) →
      (∀ f ∈ acc, ∃ n, findNode nodes f.id = some n ∧ n.item = some f.item ∧
        n.parentId = f.parentId) →
      (∀ f ∈ acc, f.support = oldsum f.id +
        (if f.id ∈ done.map FPNode.id then s else 0)) →
      (∀ fid, (∀ f ∈ acc, f.id ≠ fid) → oldsum fid = 0) →
      (∀ a ∈ done, ∃ f ∈ acc, f.id = a.id) →
      (((todo.foldl (fun acc2 a => bumpOrAdd acc2 a s) acc).map Entry.id).Nodup) ∧
      (∀ f ∈ todo.foldl (fun acc2 a => bumpOrAdd acc2 a s) acc,
        ∃ n, findNode nodes f.id = some n ∧ n.item = some f.item ∧ n.parentId = f.parentId) ∧
      (∀ f ∈ todo.foldl (fun acc2 a => bumpOrAdd acc2 a s) acc,
        f.support = oldsum f.id + (if f.id ∈ (done ++ todo).map FPNode.id then s else 0)) ∧
      (∀ fid, (∀ f ∈ todo.foldl (fun acc2 a => bumpOrAdd acc2 a s) acc, f.id ≠ fid) →
        oldsum fid = 0) ∧
      (∀ a ∈ done ++ todo, ∃ f ∈ todo.foldl (fun acc2 a => bumpOrAdd acc2 a s) acc,
        f.id = a.id) ∧
      (∀ f ∈ acc, ∃ f' ∈ todo.foldl (fun acc2 a => bumpOrAdd acc2 a s) acc, f'.id = f.id) := by
  intro todo
  induction todo with
  | nil =>
      intro done acc _ _ hnd hcons hsup hzero hcov
      refine ⟨hnd, hcons, ?_, hzero, ?_, ?_⟩
      · simpa using hsup
      · simpa using fun a ha => hcov a ha
      · intro f hf
        exact ⟨f, hf, rfl⟩
  | cons a rest ih =>
      intro done acc hchain hndchain hnd hcons hsup hzero hcov
      obtain ⟨hamem, hap⟩ := hchain a (List.mem_cons_self a rest)
      have hchain' : ∀ b ∈ rest, b ∈ nodes ∧ b.parentId ≠ none :=
        fun b hb => hchain b (List.mem_cons_of_mem a hb)
      have hre : (done ++ [a]) ++ rest = done ++ a :: rest := by simp
      have hndchain' : (((done ++ [a]) ++ rest).map FPNode.id).Nodup := by
        rw [hre]
        exact hndchain
      have hmid : (a.id :: ((done.map FPNode.id) ++ (rest.map FPNode.id))).Nodup := by
        have h0 : ((done ++ a :: rest).map FPNode.id) =
            done.map FPNode.id ++ a.id :: rest.map FPNode.id := by
          simp
        rw [h0] at hndchain
        exact List.nodup_middle.mp hndchain
      have hadone : a.id ∉ done.map FPNode.id := by
        have := (List.nodup_cons.mp hmid).1
        intro hc
        exact this (List.mem_append_left _ hc)
      rw [List.foldl_cons]
      by_cases hin : a.id ∈ acc.map Entry.id
      · rw [bumpOrAdd_eq_found wf hamem hcons hin]
        have hnd₁ : (((acc.map (fun e => if e.id = a.id then
            { e with support := e.support + s } else e)).map Entry.id)).Nodup := by
          rw [map_id_bumpE]
          exact hnd
        have hcons₁ : ∀ f ∈ acc.map (fun e => if e.id = a.id then
            { e with support := e.support + s } else e),
            ∃ n, findNode nodes f.id = some n ∧ n.item = some f.item ∧
              n.parentId = f.parentId := by
          intro f hf
          rcases List.mem_map.mp hf with ⟨e, he, rfl⟩
          rcases hcons e he with ⟨n, h1, h2, h3⟩
          exact ⟨n, by rw [bumpESel_id]; exact h1, by rw [bumpESel_item]; exact h2,
            by rw [bumpESel_parent]; exact h3⟩
        have hsup₁ : ∀ f ∈ acc.map (fun e => if e.id = a.id then
            { e with support := e.support + s } else e),
            f.support = oldsum f.id + (if f.id ∈ (done ++ [a]).map FPNode.id then s else 0) := by
          intro f hf
          rcases List.mem_map.mp hf with ⟨e, he, rfl⟩
          rw [bumpESel_id]
          by_cases hid : e.id = a.id
          · rw [if_pos hid]
            have h1 := hsup e he
            rw [hid] at h1 ⊢
            rw [if_neg hadone] at h1
            have hmem : a.id ∈ (done ++ [a]).map FPNode.id := by simp
            rw [if_pos hmem]
            show e.support + s = _
            omega
          · rw [if_neg hid]
            have h1 := hsup e he
            have hmem : e.id ∈ (done ++ [a]).map FPNode.id ↔ e.id ∈ done.map FPNode.id := by
              simp only [List.map_append, List.mem_append]
              constructor
              · intro h
                rcases h with h | h
                · exact h
                · simp at h
                  exact absurd h hid
              · exact fun h => Or.inl h
          -- then rewrite indicator
            by_cases hd : e.id ∈ done.map FPNode.id
            · rw [if_pos (hmem.mpr hd)]
              rw [if_pos hd] at h1
              exact h1
            · rw [if_neg (fun hc => hd (hmem.mp hc))]
              rw [if_neg hd] at h1
              exact h1
        have hzero₁ : ∀ fid, (∀ f ∈ acc.map (fun e => if e.id = a.id then
            { e with support := e.support + s } else e), f.id ≠ fid) → oldsum fid = 0 := by
          intro fid h
          apply hzero
          intro f hf
          have := h (if f.id = a.id then { f with support := f.support + s } else f)
            (List.mem_map_of_mem _ hf)
          rw [bumpESel_id] at this
          exact this
        have hcov₁ : ∀ b ∈ done ++ [a], ∃ f ∈ acc.map (fun e => if e.id = a.id then
            { e with support := e.support + s } else e), f.id = b.id := by
          intro b hb
          rcases List.mem_append.mp hb with hb | hb
          · rcases hcov b hb with ⟨f, hf, hfid⟩
            exact ⟨_, List.mem_map_of_mem _ hf, by rw [bumpESel_id]; exact hfid⟩
          · simp only [List.mem_singleton] at hb
            subst hb
            rcases List.mem_map.mp hin with ⟨e₀, he₀, hid₀⟩
            exact ⟨_, List.mem_map_of_mem _ he₀, by rw [bumpESel_id]; exact hid₀⟩
        have hres := ih (done ++ [a]) _ hchain' hndchain' hnd₁ hcons₁ hsup₁ hzero₁ hcov₁
        obtain ⟨r1, r2, r3, r4, r5, r6⟩ := hres
        rw [hre] at r3 r5
        refine ⟨r1, r2, r3, r4, r5, ?_⟩
        intro f hf
        have h1 : (if f.id = a.id then { f with support := f.support + s } else f) ∈
            acc.map (fun e => if e.id = a.id then { e with support := e.support + s } else e) :=
          List.mem_map_of_mem _ hf
        rcases r6 _ h1 with ⟨f', hf', hfid⟩
        rw [bumpESel_id] at hfid
        exact ⟨f', hf', hfid⟩
      · rw [bumpOrAdd_eq_new hin]
        have hitem := item_ne_none_of_parent wf hamem hap
        have hnd₁ : (((acc ++ [(⟨a.item.getD 0, a.id, a.parentId, s⟩ : Entry)]).map Entry.id)).Nodup := by
          rw [List.map_append]
          rw [List.nodup_append]
          refine ⟨hnd, List.nodup_singleton _, ?_⟩
          intro x hx
          simp only [List.map_cons, List.map_nil, List.mem_singleton]
          intro hxa
          rw [hxa] at hx
          exact hin hx
        have hcons₁ : ∀ f ∈ acc ++ [(⟨a.item.getD 0, a.id, a.parentId, s⟩ : Entry)],
            ∃ n, findNode nodes f.id = some n ∧ n.item = some f.item ∧
              n.parentId = f.parentId := by
          intro f hf
          rcases List.mem_append.mp hf with hf | hf
          · exact hcons f hf
          · simp only [List.mem_singleton] at hf
            subst hf
            exact ⟨a, wf.findNode_self hamem, hitem, rfl⟩
        have hsup₁ : ∀ f ∈ acc ++ [(⟨a.item.getD 0, a.id, a.parentId, s⟩ : Entry)],
            f.support = oldsum f.id + (if f.id ∈ (done ++ [a]).map FPNode.id then s else 0) := by
          intro f hf
          rcases List.mem_append.mp hf with hf | hf
          · have h1 := hsup f hf
            have hfa : f.id ≠ a.id := by
              intro hc
              exact hin (hc ▸ List.mem_map_of_mem Entry.id hf)
            have hmem : f.id ∈ (done ++ [a]).map FPNode.id ↔ f.id ∈ done.map FPNode.id := by
              simp only [List.map_append, List.mem_append]
              constructor
              · intro h
                rcases h with h | h
                · exact h
                · simp at h
                  exact absurd h hfa
              · exact fun h => Or.inl h
            by_cases hd : f.id ∈ done.map FPNode.id
            · rw [if_pos (hmem.mpr hd)]
              rw [if_pos hd] at h1
              exact h1
            · rw [if_neg (fun hc => hd (hmem.mp hc))]
              rw [if_neg hd] at h1
              exact h1
          · simp only [List.mem_singleton] at hf
            subst hf
            have hz : oldsum a.id = 0 := by
              apply hzero
              intro f hf hc
              exact hin (hc ▸ List.mem_map_of_mem Entry.id hf)
            have hmem : a.id ∈ (done ++ [a]).map FPNode.id := by simp
            show s = oldsum a.id + _
            rw [hz, if_pos hmem]
            omega
        have hzero₁ : ∀ fid,
            (∀ f ∈ acc ++ [(⟨a.item.getD 0, a.id, a.parentId, s⟩ : Entry)], f.id ≠ fid) →
            oldsum fid = 0 := by
          intro fid h
          apply hzero
          intro f hf
          exact h f (List.mem_append_left _ hf)
        have hcov₁ : ∀ b ∈ done ++ [a],
            ∃ f ∈ acc ++ [(⟨a.item.getD 0, a.id, a.parentId, s⟩ : Entry)], f.id = b.id := by
          intro b hb
          rcases List.mem_append.mp hb with hb | hb
          · rcases hcov b hb with ⟨f, hf, hfid⟩
            exact ⟨f, List.mem_append_left _ hf, hfid⟩
          · simp only [List.mem_singleton] at hb
            subst hb
            exact ⟨_, List.mem_append_right _ (List.mem_singleton.mpr rfl), rfl⟩
        have hres := ih (done ++ [a]) _ hchain' hndchain' hnd₁ hcons₁ hsup₁ hzero₁ hcov₁
        obtain ⟨r1, r2, r3, r4, r5, r6⟩ := hres
        rw [hre] at r3 r5
        refine ⟨r1, r2, r3, r4, r5, ?_⟩
        intro f hf
        exact r6 f (List.mem_append_left _ hf)

end FPG

namespace FPG

lemma any_id_eq_mem (l : List FPNode) (fid : Nat) :
    (l.any (fun b => b.id == fid)) = true ↔ fid ∈ l.map FPNode.id := by
  rw [List.any_eq_true]
  constructor
  · rintro ⟨b, hb, hbe⟩
    have : b.id = fid := by simpa using hbe
    exact this ▸ List.mem_map_of_mem FPNode.id hb
  · intro h
    rcases List.mem_map.mp h with ⟨b, hb, hbe⟩
    exact ⟨b, hb, by simpa using hbe⟩

lemma outerFold_char {nodes : List FPNode} (wf : WFNodes nodes) :
    ∀ (l processed acc : List Entry),
      ((acc.map Entry.id).Nodup) →
      (∀ f ∈ acc, ∃ n, findNode nodes f.id = some n ∧ n.item = some f.item ∧
        n.parentId = f.parentId) →
      (∀ f ∈ acc, f.support = ((processed.filter
        (fun e => (entryAnc nodes e).any (fun b => b.id == f.id))).map Entry.support).sum) →
      (∀ e ∈ processed, ∀ a ∈ entryAnc nodes e, ∃ f ∈ acc, f.id = a.id) →
      (((l.foldl (fun acc2 tgt => (entryAnc nodes tgt).foldl
          (fun acc3 a => bumpOrAdd acc3 a tgt.support) acc2) acc).map Entry.id).Nodup) ∧
      (∀ f ∈ l.foldl (fun acc2 tgt => (entryAnc nodes tgt).foldl
          (fun acc3 a => bumpOrAdd acc3 a tgt.support) acc2) acc,
        ∃ n, findNode nodes f.id = some n ∧ n.item = some f.item ∧ n.parentId = f.parentId) ∧
      (∀ f ∈ l.foldl (fun acc2 tgt => (entryAnc nodes tgt).foldl
          (fun acc3 a => bumpOrAdd acc3 a tgt.support) acc2) acc,
        f.support = (((processed ++ l).filter
          (fun e => (entryAnc nodes e).any (fun b => b.id == f.id))).map Entry.support).sum) ∧
      (∀ e ∈ processed ++ l, ∀ a ∈ entryAnc nodes e,
        ∃ f ∈ l.foldl (fun acc2 tgt => (entryAnc nodes tgt).foldl
          (fun acc3 a => bumpOrAdd acc3 a tgt.support) acc2) acc, f.id = a.id) := by
  intro l
  induction l with
  | nil =>
      intro processed acc hnd hcons hsup hcov
      refine ⟨hnd, hcons, ?_, ?_⟩
      · simpa using hsup
      · simpa using hcov
  | cons e l' ih =>
      intro processed acc hnd hcons hsup hcov
      rw [List.foldl_cons]
      have hchain : ∀ a ∈ entryAnc nodes e, a ∈ nodes ∧ a.parentId ≠ none := by
        intro a ha
        exact mem_ancestors _ _ a ha
      have hndchain : ((([] : List FPNode) ++ entryAnc nodes e).map FPNode.id).Nodup := by
        simp only [List.nil_append]
        exact ancestors_nodup_ids wf _ _
      have hsup' : ∀ f ∈ acc, f.support = (fun fid => ((processed.filter
          (fun e' => (entryAnc nodes e').any (fun b => b.id == fid))).map Entry.support).sum) f.id +
          (if f.id ∈ ([] : List FPNode).map FPNode.id then e.support else 0) := by
        intro f hf
        have := hsup f hf
        simpa using this
      have hzero' : ∀ fid, (∀ f ∈ acc, f.id ≠ fid) → ((processed.filter
          (fun e' => (entryAnc nodes e').any (fun b => b.id == fid))).map Entry.support).sum = 0 := by
        intro fid h
        have hfil : processed.filter
            (fun e' => (entryAnc nodes e').any (fun b => b.id == fid)) = [] := by
          rw [List.filter_eq_nil]
          intro e' he' hany
          rcases (any_id_eq_mem _ _).mp hany with hmem
          rcases List.mem_map.mp hmem with ⟨b, hb, hbid⟩
          rcases hcov e' he' b hb with ⟨f, hfacc, hfid⟩
          exact h f hfacc (by rw [hfid, hbid])
        rw [hfil]
        rfl
      have hcov' : ∀ a ∈ ([] : List FPNode), ∃ f ∈ acc, f.id = a.id := by
        intro a ha
        cases ha
      have hinner := innerFold_char wf e.support
        (fun fid => ((processed.filter
          (fun e' => (entryAnc nodes e').any (fun b => b.id == fid))).map Entry.support).sum)
        (entryAnc nodes e) [] acc hchain hndchain hnd hcons hsup' hzero' hcov'
      obtain ⟨q1, q2, q3, q4, q5, q6⟩ := hinner
      have hsup₁ : ∀ f ∈ (entryAnc nodes e).foldl
          (fun acc3 a => bumpOrAdd acc3 a e.support) acc,
          f.support = (((processed ++ [e]).filter
            (fun e' => (entryAnc nodes e').any (fun b => b.id == f.id))).map Entry.support).sum := by
        intro f hf
        have h3 : f.support = ((processed.filter
            (fun e' => (entryAnc nodes e').any (fun b => b.id == f.id))).map Entry.support).sum +
            (if f.id ∈ (([] : List FPNode) ++ entryAnc nodes e).map FPNode.id
              then e.support else 0) := q3 f hf
        simp only [List.nil_append] at h3
        rw [List.filter_append, List.map_append, List.sum_append, h3]
        congr 1
        by_cases hm : f.id ∈ (entryAnc nodes e).map FPNode.id
        · rw [if_pos hm]
          have hany : ((entryAnc nodes e).any (fun b => b.id == f.id)) = true :=
            (any_id_eq_mem _ _).mpr hm
          rw [List.filter_cons, hany]
          simp
        · rw [if_neg hm]
          have hany : ((entryAnc nodes e).any (fun b => b.id == f.id)) = false := by
            rw [Bool.eq_false_iff]
            intro hc
            exact hm ((any_id_eq_mem _ _).mp hc)
          rw [List.filter_cons, hany]
          simp
      have hcov₁ : ∀ e' ∈ processed ++ [e], ∀ a ∈ entryAnc nodes e',
          ∃ f ∈ (entryAnc nodes e).foldl (fun acc3 a => bumpOrAdd acc3 a e.support) acc,
            f.id = a.id := by
        intro e' he' a ha
        rcases List.mem_append.mp he' with he' | he'
        · rcases hcov e' he' a ha with ⟨f, hfacc, hfid⟩
          rcases q6 f hfacc with ⟨f', hf', hfid'⟩
          exact ⟨f', hf', by rw [hfid', hfid]⟩
        · simp only [List.mem_singleton] at he'
          subst he'
          exact q5 a (by simpa using ha)
      have hres := ih (processed ++ [e]) _ q1 q2 hsup₁ hcov₁
      obtain ⟨r1, r2, r3, r4⟩ := hres
      have hre : (processed ++ [e]) ++ l' = processed ++ e :: l' := by simp
      rw [hre] at r3 r4
      exact ⟨r1, r2, r3, r4⟩

/-- **C3**: the `.hpp` conditional-base construction merges by node
identity and reweights by target support — the returned index has at
most one entry per node id, each entry is a field-for-field copy of the
arena node it was created from, its support is the sum of the supports
of the target entries whose ancestor chain passes through that node, and
every node visited on some target's ancestor chain has exactly one such
entry (so distinct ancestor nodes sharing an item value keep separate
entries). -/
theorem claim_C3 (nodes : List FPNode) (wf : WFNodes nodes) (target : Nat)
    (index : List Entry) :
    (((getConditionalItemNodes nodes target index).map Entry.id).Nodup) ∧
    (∀ f ∈ getConditionalItemNodes nodes target index,
      (∃ n, findNode nodes f.id = some n ∧ n.item = some f.item ∧ n.parentId = f.parentId) ∧
      f.support = (((index.filter (fun e => e.item == target)).filter
        (fun e => (entryAnc nodes e).any (fun b => b.id == f.id))).map Entry.support).sum) ∧
    (∀ e ∈ index.filter (fun e => e.item == target), ∀ a ∈ entryAnc nodes e,
      ∃ f ∈ getConditionalItemNodes nodes target index, f.id = a.id) := by
  have h := outerFold_char wf (index.filter (fun e => e.item == target)) [] []
    (by simp) (by intro f hf; cases hf) (by intro f hf; cases hf)
    (by intro e he a ha; cases he)
  obtain ⟨r1, r2, r3, r4⟩ := h
  simp only [List.nil_append] at r3 r4
  exact ⟨r1, fun f hf => ⟨r2 f hf, r3 f hf⟩, r4⟩

/-- Witness for C3: at a concrete tree and target the conditional base
has pairwise distinct node ids and its single entry carries the summed
target support. -/
theorem claim_C3_witness :
    (((getConditionalItemNodes (buildTree [[1, 2], [1]]).nodes 2
        (permanentIndex (buildTree [[1, 2], [1]]))).map Entry.id).Nodup) := by
  exact (claim_C3 (buildTree [[1, 2], [1]]).nodes (buildTree_wf [[1, 2], [1]]).1.wf 2
    (permanentIndex (buildTree [[1, 2], [1]]))).1

end FPG

namespace FPG

/-- **C10**: ids of distinct permanent-tree nodes are distinct
(sequential assignment), every synthetic entry of a conditional base
carries the id, item and parent reference of the permanent node it was
copied from, and within one conditional index no two entries share an
id — the invariant `find_item_node`'s identity lookup relies on. -/
theorem claim_C10 (ts : List (List Nat)) (target : Nat) (index : List Entry) :
    (((buildTree ts).nodes.map FPNode.id).Nodup) ∧
    (∀ f ∈ getConditionalItemNodes (buildTree ts).nodes target index,
      ∃ n, findNode (buildTree ts).nodes f.id = some n ∧ n.item = some f.item ∧
        n.parentId = f.parentId) ∧
    (((getConditionalItemNodes (buildTree ts).nodes target index).map Entry.id).Nodup) := by
  have wf := (buildTree_wf ts).1.wf
  have h := outerFold_char wf (index.filter (fun e => e.item == target)) [] []
    (by simp) (by intro f hf; cases hf) (by intro f hf; cases hf)
    (by intro e he a ha; cases he)
  exact ⟨wf.nodup_ids, h.2.1, h.1⟩

/-- Witness for C10: the single entry of a concrete conditional base is
a copy (same id, item, parent) of the permanent node with id 1. -/
theorem claim_C10_witness :
    ∃ n, findNode (buildTree [[1, 2], [1]]).nodes 1 = some n ∧ n.item = some 1 ∧
      n.parentId = some 0 := by
  have h := (claim_C10 [[1, 2], [1]] 2 (permanentIndex (buildTree [[1, 2], [1]]))).2.1
    ⟨1, 1, some 0, 1⟩ (by decide)
  exact h

end FPG

namespace FPG

/-! ### Termination of the recursive miner (C8) -/

lemma ancestors_none (nodes : List FPNode) (fuel : Nat) :
    ancestors nodes fuel none = [] := by
  cases fuel <;> rfl

lemma le_maxIdx {index : List Entry} : ∀ f ∈ index, f.id ≤ maxIdx index := by
  induction index with
  | nil => intro f hf; cases hf
  | cons e l ih =>
      intro f hf
      rcases List.mem_cons.mp hf with rfl | hf
      · simp only [maxIdx, List.foldr_cons]
        omega
      · have := ih f hf
        simp only [maxIdx, List.foldr_cons] at *
        omega

lemma maxIdx_le {index : List Entry} {k : Nat} (h : ∀ f ∈ index, f.id ≤ k) :
    maxIdx index ≤ k := by
  induction index with
  | nil => exact Nat.zero_le k
  | cons e l ih =>
      simp only [maxIdx, List.foldr_cons]
      have h1 := h e (List.mem_cons_self e l)
      have h2 : maxIdx l ≤ k := ih (fun f hf => h f (List.mem_cons_of_mem e hf))
      simp only [maxIdx] at h2
      omega

lemma bumpOrAdd_id_provenance {acc : List Entry} {a : FPNode} {s : Nat} :
    ∀ f ∈ bumpOrAdd acc a s, f.id ∈ acc.map Entry.id ∨ f.id = a.id := by
  intro f hf
  unfold bumpOrAdd at hf
  split at hf
  · rcases List.mem_map.mp hf with ⟨e, he, hfe⟩
    left
    have hid : f.id = e.id := by
      rw [← hfe]
      split <;> rfl
    rw [hid]
    exact List.mem_map_of_mem Entry.id he
  · rcases List.mem_append.mp hf with hf | hf
    · exact Or.inl (List.mem_map_of_mem Entry.id hf)
    · simp only [List.mem_singleton] at hf
      subst hf
      exact Or.inr rfl

lemma innerFold_id_provenance (s : Nat) :
    ∀ (chain : List FPNode) (acc : List Entry),
      ∀ f ∈ chain.foldl (fun acc2 a => bumpOrAdd acc2 a s) acc,
        f.id ∈ acc.map Entry.id ∨ ∃ a ∈ chain, f.id = a.id := by
  intro chain
  induction chain with
  | nil => intro acc f hf; exact Or.inl (List.mem_map_of_mem Entry.id hf)
  | cons a chain' ih =>
      intro acc f hf
      rw [List.foldl_cons] at hf
      rcases ih (bumpOrAdd acc a s) f hf with hin | ⟨b, hb, hfb⟩
      · rcases List.mem_map.mp hin with ⟨e, he, hfe⟩
        rcases bumpOrAdd_id_provenance e he with h | h
        · left
          rw [← hfe]
          exact h
        · right
          exact ⟨a, List.mem_cons_self a chain', by rw [← hfe, h]⟩
      · exact Or.inr ⟨b, List.mem_cons_of_mem a hb, hfb⟩

lemma outerFold_id_provenance {nodes : List FPNode} :
    ∀ (l acc : List Entry),
      ∀ f ∈ l.foldl (fun acc2 tgt => (entryAnc nodes tgt).foldl
          (fun acc3 a => bumpOrAdd acc3 a tgt.support) acc2) acc,
        f.id ∈ acc.map Entry.id ∨ ∃ tgt ∈ l, ∃ a ∈ entryAnc nodes tgt, f.id = a.id := by
  intro l
  induction l with
  | nil => intro acc f hf; exact Or.inl (List.mem_map_of_mem Entry.id hf)
  | cons e l' ih =>
      intro acc f hf
      rw [List.foldl_cons] at hf
      rcases ih _ f hf with hin | ⟨tgt, htgt, a, ha, hfa⟩
      · rcases List.mem_map.mp hin with ⟨g, hg, hgf⟩
        rcases innerFold_id_provenance e.support (entryAnc nodes e) acc g hg with h | ⟨a, ha, hga⟩
        · left
          rw [← hgf]
          exact h
        · right
          exact ⟨e, List.mem_cons_self e l', a, ha, by rw [← hgf, hga]⟩
      · exact Or.inr ⟨tgt, List.mem_cons_of_mem e htgt, a, ha, hfa⟩

lemma cb_id_lt {nodes : List FPNode} (wf : WFNodes nodes) {target : Nat} {index : List Entry}
    (hcons : ∀ e ∈ index, ∃ n, findNode nodes e.id = some n ∧ n.item = some e.item ∧
      n.parentId = e.parentId) :
    ∀ f ∈ getConditionalItemNodes nodes target index,
      ∃ tgt ∈ index, tgt.item = target ∧ f.id < tgt.id := by
  intro f hf
  unfold getConditionalItemNodes at hf
  rcases outerFold_id_provenance _ [] f hf with hin | ⟨tgt, htgt, a, ha, hfa⟩
  · cases hin
  · obtain ⟨htgt', hit⟩ := List.mem_filter.mp htgt
    have hit' : tgt.item = target := by simpa using hit
    rcases hcons tgt htgt' with ⟨n, hfind, _, hpar⟩
    obtain ⟨hn, hid⟩ := findNode_some hfind
    cases hq : tgt.parentId with
    | none =>
        unfold entryAnc at ha
        rw [hq, ancestors_none] at ha
        cases ha
    | some q =>
        unfold entryAnc at ha
        rw [hq] at ha
        have h1 : a.id ≤ q := ancestors_id_le wf _ q a ha
        have h2 : q < n.id := wf.parent_lt n hn q (by rw [hpar, hq])
        exact ⟨tgt, htgt', hit', by omega⟩

lemma cb_consistent {nodes : List FPNode} (wf : WFNodes nodes) (target : Nat)
    (index : List Entry) :
    ∀ f ∈ getConditionalItemNodes nodes target index,
      ∃ n, findNode nodes f.id = some n ∧ n.item = some f.item ∧ n.parentId = f.parentId := by
  have h := outerFold_char wf (index.filter (fun e => e.item == target)) [] []
    (by simp) (by intro f hf; cases hf) (by intro f hf; cases hf)
    (by intro e he a ha; cases he)
  exact h.2.1

lemma minerAux_nil (nodes : List FPNode) (fuel : Nat) (cur : List Nat) (m : Nat) :
    minerAux nodes fuel cur [] m = [] := by
  cases fuel with
  | zero => rfl
  | succ k => rfl

lemma minerAux_no_frequent {nodes : List FPNode} (fuel : Nat) (cur : List Nat)
    (index : List Entry) (m : Nat)
    (h : ∀ i ∈ uniqueItems index, getItemSupport i index < m) :
    minerAux nodes fuel cur index m = [] := by
  cases fuel with
  | zero => rfl
  | succ k =>
      unfold minerAux
      have hc : ∀ i ∈ uniqueItems index,
          (if m ≤ getItemSupport i index then
            (cur ++ [i]) :: minerAux nodes k (cur ++ [i])
              (getConditionalItemNodes nodes i index) m
          else []) = ([] : List (List Nat)) := by
        intro i hi
        rw [if_neg (by have := h i hi; omega)]
      rw [flatMap_congr hc]
      induction uniqueItems index with
      | nil => rfl
      | cons x l ih => simpa using ih

lemma minerAux_fuel {nodes : List FPNode} (wf : WFNodes nodes) :
    ∀ (k : Nat) (index : List Entry),
      (∀ e ∈ index, ∃ n, findNode nodes e.id = some n ∧ n.item = some e.item ∧
        n.parentId = e.parentId) →
      maxIdx index ≤ k →
      ∀ fuel₁ fuel₂ cur m, k < fuel₁ → k < fuel₂ →
        minerAux nodes fuel₁ cur index m = minerAux nodes fuel₂ cur index m := by
  intro k
  induction k with
  | zero =>
      intro index hcons hmax fuel₁ fuel₂ cur m h1 h2
      cases fuel₁ with
      | zero => omega
      | succ f₁ =>
          cases fuel₂ with
          | zero => omega
          | succ f₂ =>
              unfold minerAux
              apply flatMap_congr
              intro i hi
              split_ifs with hm
              · congr 1
                have hnil : getConditionalItemNodes nodes i index = [] := by
                  rw [List.eq_nil_iff_forall_not_mem]
                  intro f hf
                  rcases cb_id_lt wf hcons f hf with ⟨tgt, htgt, _, hlt⟩
                  have := le_maxIdx tgt htgt
                  omega
                rw [hnil, minerAux_nil, minerAux_nil]
              · rfl
  | succ j ih =>
      intro index hcons hmax fuel₁ fuel₂ cur m h1 h2
      cases fuel₁ with
      | zero => omega
      | succ f₁ =>
          cases fuel₂ with
          | zero => omega
          | succ f₂ =>
              unfold minerAux
              apply flatMap_congr
              intro i hi
              split_ifs with hm
              · congr 1
                have hcbc := cb_consistent wf i index
                have hcbm : maxIdx (getConditionalItemNodes nodes i index) ≤ j := by
                  apply maxIdx_le
                  intro f hf
                  rcases cb_id_lt wf hcons f hf with ⟨tgt, htgt, _, hlt⟩
                  have := le_maxIdx tgt htgt
                  omega
                exact ih _ hcbc hcbm f₁ f₂ (cur ++ [i]) m (by omega) (by omega)
              · rfl

lemma permanentIndex_consistent {t : FPTree} (hwf : WFTree t) :
    ∀ e ∈ permanentIndex t, ∃ n, findNode t.nodes e.id = some n ∧
      n.item = some e.item ∧ n.parentId = e.parentId := by
  intro e he
  rw [permanentIndex_eq hwf] at he
  rcases List.mem_map.mp he with ⟨n, hn, rfl⟩
  have hmem : n ∈ t.nodes := List.mem_of_mem_drop hn
  refine ⟨n, hwf.wf.findNode_self hmem, ?_, rfl⟩
  cases hit : n.item with
  | none =>
      have hr : n = rootNode := hwf.wf.item_none n hmem hit
      have h0 : n.id ≠ 0 := drop_one_id_ne_zero hwf hn
      rw [hr] at h0
      exact absurd rfl h0
  | some x => simp [hit]

end FPG

namespace FPG

/-- **C8**: the recursive miner on a built tree terminates — its result
is independent of any fuel beyond the largest node id referenced by the
permanent index, recursion bottoms out returning nothing when no item of
an index meets the threshold, and every conditional base references only
strict ancestors of the target item's nodes (so the largest referenced
id strictly decreases at each recursive call). -/
theorem claim_C8 (ts : List (List Nat)) (m : Nat) :
    (∀ fuel, maxIdx (permanentIndex (buildTree ts)) < fuel →
      minerAux (buildTree ts).nodes fuel [] (permanentIndex (buildTree ts)) m =
        getFrequentItemsets (buildTree ts) m) ∧
    (∀ fuel cur index, (∀ i ∈ uniqueItems index, getItemSupport i index < m) →
      minerAux (buildTree ts).nodes fuel cur index m = []) ∧
    (∀ target, ∀ f ∈ getConditionalItemNodes (buildTree ts).nodes target
        (permanentIndex (buildTree ts)),
      ∃ tgt ∈ permanentIndex (buildTree ts), tgt.item = target ∧ f.id < tgt.id) := by
  have hwf := (buildTree_wf ts).1
  refine ⟨?_, ?_, ?_⟩
  · intro fuel hfuel
    exact minerAux_fuel hwf.wf (maxIdx (permanentIndex (buildTree ts)))
      (permanentIndex (buildTree ts)) (permanentIndex_consistent hwf) le_rfl
      fuel (maxIdx (permanentIndex (buildTree ts)) + 1) [] m hfuel (Nat.lt_succ_self _)
  · intro fuel cur index h
    exact minerAux_no_frequent fuel cur index m h
  · intro target f hf
    exact cb_id_lt hwf.wf (permanentIndex_consistent hwf) f hf

/-- Witness for C8: on a concrete tree, extra fuel does not change the
mining result. -/
theorem claim_C8_witness :
    minerAux (buildTree [[1, 2], [1]]).nodes 7 [] (permanentIndex (buildTree [[1, 2], [1]])) 1 =
      getFrequentItemsets (buildTree [[1, 2], [1]]) 1 := by
  exact (claim_C8 [[1, 2], [1]] 1).1 7 (by decide)

end FPG

namespace FPG

/-! ### Generic summation and counting helpers for the correctness proof -/

lemma sum_filter_ite {α : Type} (p : α → Bool) (g : α → Nat) (l : List α) :
    ((l.filter p).map g).sum = (l.map (fun x => if p x then g x else 0)).sum := by
  induction l with
  | nil => rfl
  | cons a rest ih =>
      by_cases hp : p a = true
      · rw [List.filter_cons, if_pos hp]
        simp only [List.map_cons, List.sum_cons, ih, if_pos hp]
      · rw [List.filter_cons, if_neg hp]
        simp only [List.map_cons, List.sum_cons, ih, if_neg hp]
        omega

lemma list_sum_comm {α β : Type} (l₁ : List α) (l₂ : List β) (g : α → β → Nat) :
    (l₁.map (fun a => (l₂.map (fun b => g a b)).sum)).sum =
      (l₂.map (fun b => (l₁.map (fun a => g a b)).sum)).sum := by
  induction l₁ with
  | nil =>
      simp only [List.map_nil, List.sum_nil]
      rw [List.sum_eq_zero]
      intro x hx
      rcases List.mem_map.mp hx with ⟨b, _, rfl⟩
      rfl
  | cons a rest ih =>
      simp only [List.map_cons, List.sum_cons, ih]
      exact (sum_map_add l₂ (fun b => g a b) (fun b => (rest.map (fun x => g x b)).sum)).symm

lemma if_push {α : Type} (c : Prop) [Decidable c] (l : List α) (g : α → Nat) :
    (if c then (l.map g).sum else 0) = (l.map (fun x => if c then g x else 0)).sum := by
  by_cases hc : c
  · rw [if_pos hc]
    congr 1
    exact List.map_congr_left (fun x _ => (if_pos hc).symm)
  · rw [if_neg hc]
    symm
    rw [List.sum_eq_zero]
    intro x hx
    rcases List.mem_map.mp hx with ⟨b, _, rfl⟩
    rw [if_neg hc]

lemma countP_flatMap {α β : Type} (l : List α) (f : α → List β) (p : β → Bool) :
    (l.flatMap f).countP p = (l.map (fun a => (f a).countP p)).sum := by
  induction l with
  | nil => rfl
  | cons a rest ih =>
      rw [List.flatMap_cons, List.countP_append, List.map_cons, List.sum_cons, ih]

lemma sum_single_nat {l : List Nat} (hnd : l.Nodup) (i₀ : Nat) (g : Nat → Nat)
    (h0 : ∀ i ∈ l, i ≠ i₀ → g i = 0) :
    (l.map g).sum = if i₀ ∈ l then g i₀ else 0 := by
  induction l with
  | nil => rfl
  | cons a rest ih =>
      rw [List.nodup_cons] at hnd
      by_cases ha : a = i₀
      · subst ha
        rw [if_pos (List.mem_cons_self a rest), List.map_cons, List.sum_cons]
        have hz : (rest.map g).sum = 0 := by
          rw [List.sum_eq_zero]
          intro x hx
          rcases List.mem_map.mp hx with ⟨b, hb, rfl⟩
          exact h0 b (List.mem_cons_of_mem a hb) (fun hc => hnd.1 (hc ▸ hb))
        omega
      · rw [List.map_cons, List.sum_cons, h0 a (List.mem_cons_self a rest) ha,
          ih hnd.2 (fun i hi hne => h0 i (List.mem_cons_of_mem a hi) hne)]
        have hmem : (i₀ ∈ a :: rest) ↔ (i₀ ∈ rest) := by
          constructor
          · intro h
            rcases List.mem_cons.mp h with rfl | h
            · exact absurd rfl ha
            · exact h
          · exact List.mem_cons_of_mem a
        by_cases hi₀ : i₀ ∈ rest
        · rw [if_pos hi₀, if_pos (hmem.mpr hi₀)]
          omega
        · rw [if_neg hi₀, if_neg (fun hc => hi₀ (hmem.mp hc))]

lemma exists_before_max (supp : Nat → Nat) :
    ∀ (l : List Nat), l ≠ [] →
      ∃ i₀ ∈ l, ∀ y ∈ l, y ≠ i₀ → before supp y i₀ = true := by
  intro l
  induction l with
  | nil => intro h; exact absurd rfl h
  | cons a rest ih =>
      intro _
      by_cases hrest : rest = []
      · subst hrest
        refine ⟨a, List.mem_cons_self a [], ?_⟩
        intro y hy hne
        rcases List.mem_cons.mp hy with rfl | hy
        · exact absurd rfl hne
        · cases hy
      · obtain ⟨i₀, hi₀, hmax⟩ := ih hrest
        by_cases hab : a = i₀
        · refine ⟨i₀, List.mem_cons_of_mem a hi₀, ?_⟩
          intro y hy hne
          rcases List.mem_cons.mp hy with rfl | hy
          · exact absurd hab hne
          · exact hmax y hy hne
        · by_cases hba : before supp a i₀ = true
          · refine ⟨i₀, List.mem_cons_of_mem a hi₀, ?_⟩
            intro y hy hne
            rcases List.mem_cons.mp hy with rfl | hy
            · exact hba
            · exact hmax y hy hne
          · have hfwd : before supp i₀ a = true := by
              rcases before_total (fun h => hab h.symm) with h | h
              · exact h
              · exact absurd h hba
            refine ⟨a, List.mem_cons_self a rest, ?_⟩
            intro y hy hne
            rcases List.mem_cons.mp hy with rfl | hy
            · exact absurd rfl hne
            · by_cases hyi : y = i₀
              · rw [hyi]; exact hfwd
              · exact before_trans (hmax y hy hyi) hfwd

end FPG

namespace FPG

/-! ### Structure of ancestor chains in a sorted tree -/

lemma ancestors_split {nodes : List FPNode} (wf : WFNodes nodes) :
    ∀ (pid : Nat) (a : FPNode), a ∈ ancestors nodes nodes.length (some pid) →
      ∃ l₁, ancestors nodes nodes.length (some pid) =
        l₁ ++ a :: ancestors nodes nodes.length a.parentId := by
  intro pid
  induction pid using Nat.strong_induction_on with
  | _ pid ih =>
      intro a ha
      cases hfind : findNode nodes pid with
      | none =>
          simp only [ancestors_len_eq wf pid, hfind] at ha
          cases ha
      | some n =>
          cases hq : n.parentId with
          | none =>
              simp only [ancestors_len_eq wf pid, hfind, hq] at ha
              cases ha
          | some q =>
              have hn : n ∈ nodes := (findNode_some hfind).1
              have hid : n.id = pid := (findNode_some hfind).2
              have hstep : ancestors nodes nodes.length (some pid) =
                  n :: ancestors nodes nodes.length (some q) := by
                have h := ancestors_len_cons wf hn hq
                rw [hid] at h
                exact h
              rw [hstep] at ha
              rcases List.mem_cons.mp ha with rfl | ha
              · refine ⟨[], ?_⟩
                rw [hstep, hq]
                rfl
              · have hqlt : q < pid := by
                  have := wf.parent_lt n hn q hq
                  omega
                rcases ih q hqlt a ha with ⟨l₁, hl₁⟩
                refine ⟨n :: l₁, ?_⟩
                rw [hstep, hl₁]
                rfl

lemma ancestors_all_before {nodes : List FPNode} (wf : WFNodes nodes) {supp : Nat → Nat}
    (hsort : TreeSorted supp nodes) :
    ∀ (pid : Nat) (n : FPNode), findNode nodes pid = some n → n.parentId ≠ none →
      ∀ b ∈ ancestors nodes nodes.length n.parentId,
        before supp (b.item.getD 0) (n.item.getD 0) = true := by
  intro pid
  induction pid using Nat.strong_induction_on with
  | _ pid ih =>
      intro n hfind hnp b hb
      cases hq : n.parentId with
      | none => exact absurd hq hnp
      | some q =>
          rw [hq] at hb
          cases hfq : findNode nodes q with
          | none =>
              simp only [ancestors_len_eq wf q, hfq] at hb
              cases hb
          | some p =>
              cases hpq : p.parentId with
              | none =>
                  simp only [ancestors_len_eq wf q, hfq, hpq] at hb
                  cases hb
              | some r =>
                  have hp : p ∈ nodes := (findNode_some hfq).1
                  have hpid : p.id = q := (findNode_some hfq).2
                  have hn : n ∈ nodes := (findNode_some hfind).1
                  have hbefore_p : before supp (p.item.getD 0) (n.item.getD 0) = true :=
                    hsort n hn q hq p hfq (by rw [hpq]; exact Option.some_ne_none r)
                  have hstep : ancestors nodes nodes.length (some q) =
                      p :: ancestors nodes nodes.length (some r) := by
                    have h := ancestors_len_cons wf hp hpq
                    rw [hpid] at h
                    exact h
                  rw [hstep] at hb
                  rcases List.mem_cons.mp hb with rfl | hb
                  · exact hbefore_p
                  · have hqlt : q < pid := by
                      have h1 := wf.parent_lt n hn q hq
                      have h2 : n.id = pid := (findNode_some hfind).2
                      omega
                    have hrec := ih q hqlt p hfq (by rw [hpq]; exact Option.some_ne_none r) b
                      (by rw [hpq]; exact hb)
                    exact before_trans hrec hbefore_p

lemma ancestors_pairwise_before {nodes : List FPNode} (wf : WFNodes nodes) {supp : Nat → Nat}
    (hsort : TreeSorted supp nodes) :
    ∀ (pid : Nat), (ancestors nodes nodes.length (some pid)).Pairwise
      (fun x y => before supp (y.item.getD 0) (x.item.getD 0) = true) := by
  intro pid
  induction pid using Nat.strong_induction_on with
  | _ pid ih =>
      cases hfind : findNode nodes pid with
      | none =>
          simp only [ancestors_len_eq wf pid, hfind]
          exact List.Pairwise.nil
      | some n =>
          cases hq : n.parentId with
          | none =>
              simp only [ancestors_len_eq wf pid, hfind, hq]
              exact List.Pairwise.nil
          | some q =>
              have hn : n ∈ nodes := (findNode_some hfind).1
              have hid : n.id = pid := (findNode_some hfind).2
              have hstep : ancestors nodes nodes.length (some pid) =
                  n :: ancestors nodes nodes.length (some q) := by
                have h := ancestors_len_cons wf hn hq
                rw [hid] at h
                exact h
              rw [hstep]
              refine List.Pairwise.cons ?_ ?_
              · intro b hb
                exact ancestors_all_before wf hsort pid n hfind
                  (by rw [hq]; exact Option.some_ne_none q) b (by rw [hq]; exact hb)
              · have hqlt : q < pid := by
                  have := wf.parent_lt n hn q hq
                  omega
                exact ih q hqlt

lemma entryAnc_pairwise {nodes : List FPNode} (wf : WFNodes nodes) {supp : Nat → Nat}
    (hsort : TreeSorted supp nodes) (e : Entry) :
    (entryAnc nodes e).Pairwise
      (fun x y => before supp (y.item.getD 0) (x.item.getD 0) = true) := by
  unfold entryAnc
  cases hq : e.parentId with
  | none => rw [ancestors_none]; exact List.Pairwise.nil
  | some q => exact ancestors_pairwise_before wf hsort q

lemma pairwise_item_unique {supp : Nat → Nat} :
    ∀ {l : List FPNode},
      l.Pairwise (fun x y => before supp (y.item.getD 0) (x.item.getD 0) = true) →
      ∀ a ∈ l, ∀ b ∈ l, a.item.getD 0 = b.item.getD 0 → a = b := by
  intro l hl
  induction hl with
  | nil => intro a ha; cases ha
  | cons h₁ h₂ ih =>
      intro a ha b hb heq
      rcases List.mem_cons.mp ha with rfl | ha'
      · rcases List.mem_cons.mp hb with rfl | hb'
        · rfl
        · exfalso
          have h := h₁ b hb'
          rw [heq, before_irrefl] at h
          exact Bool.false_ne_true h
      · rcases List.mem_cons.mp hb with rfl | hb'
        · exfalso
          have h := h₁ a ha'
          rw [heq, before_irrefl] at h
          exact Bool.false_ne_true h
        · exact ih a ha' b hb' heq

end FPG

namespace FPG

/-! ### Instances of the conditional-base characterization -/

lemma cb_nodup {nodes : List FPNode} (wf : WFNodes nodes) (target : Nat)
    (index : List Entry) :
    ((getConditionalItemNodes nodes target index).map Entry.id).Nodup := by
  have h := outerFold_char wf (index.filter (fun e => e.item == target)) [] []
    (by simp) (by intro f hf; cases hf) (by intro f hf; cases hf)
    (by intro e he a ha; cases he)
  exact h.1

lemma cb_support_char {nodes : List FPNode} (wf : WFNodes nodes) (target : Nat)
    (index : List Entry) :
    ∀ f ∈ getConditionalItemNodes nodes target index,
      f.support = (((index.filter (fun e => e.item == target)).filter
        (fun e => (entryAnc nodes e).any (fun b => b.id == f.id))).map Entry.support).sum := by
  have h := outerFold_char wf (index.filter (fun e => e.item == target)) [] []
    (by simp) (by intro f hf; cases hf) (by intro f hf; cases hf)
    (by intro e he a ha; cases he)
  have h3 := h.2.2.1
  simp only [List.nil_append] at h3
  exact h3

lemma cb_coverage {nodes : List FPNode} (wf : WFNodes nodes) (target : Nat)
    (index : List Entry) :
    ∀ e ∈ index.filter (fun e => e.item == target), ∀ a ∈ entryAnc nodes e,
      ∃ f ∈ getConditionalItemNodes nodes target index, f.id = a.id := by
  have h := outerFold_char wf (index.filter (fun e => e.item == target)) [] []
    (by simp) (by intro f hf; cases hf) (by intro f hf; cases hf)
    (by intro e he a ha; cases he)
  have h4 := h.2.2.2
  simp only [List.nil_append] at h4
  exact h4

lemma cb_entry_source {nodes : List FPNode} (wf : WFNodes nodes) (target : Nat)
    (index : List Entry) :
    ∀ f ∈ getConditionalItemNodes nodes target index,
      ∃ t ∈ index.filter (fun e => e.item == target), ∃ a ∈ entryAnc nodes t,
        a.id = f.id ∧ a.item = some f.item ∧ a.parentId = f.parentId := by
  intro f hf
  have hf' := hf
  unfold getConditionalItemNodes at hf'
  rcases outerFold_id_provenance (index.filter (fun e => e.item == target)) [] f hf' with
    hin | ⟨t, ht, a, ha, hfa⟩
  · cases hin
  · rcases cb_consistent wf target index f hf with ⟨n, hfind, hitem, hpar⟩
    have hamem : a ∈ nodes := (mem_ancestors _ _ a ha).1
    have hfa' : findNode nodes a.id = some a := wf.findNode_self hamem
    rw [← hfa] at hfa'
    rw [hfind] at hfa'
    injection hfa' with hna
    refine ⟨t, ht, a, ha, hfa.symm, ?_, ?_⟩
    · rw [← hna]; exact hitem
    · rw [← hna]; exact hpar

lemma condSum_filter (nodes : List FPNode) (index : List Entry) (i : Nat) (S : Finset Nat) :
    condSum nodes index i S = ((index.filter (fun e => e.item == i)).map
      (fun e => if ∀ s ∈ S, s ∈ ancItems nodes e then e.support else 0)).sum := by
  unfold condSum
  induction index with
  | nil => rfl
  | cons e rest ih =>
      rw [List.filter_cons]
      by_cases he : e.item = i
      · rw [if_pos (by simpa using he)]
        simp only [List.map_cons, List.sum_cons, ih]
        by_cases hQ : ∀ s ∈ S, s ∈ ancItems nodes e
        · rw [if_pos ⟨he, hQ⟩, if_pos hQ]
        · rw [if_neg (fun hc => hQ hc.2), if_neg hQ]
      · rw [if_neg (by simpa using he)]
        simp only [List.map_cons, List.sum_cons, ih]
        rw [if_neg (fun hc => he hc.1)]
        omega

lemma mem_uniqueItems_of_pos {index : List Entry} {i : Nat}
    (h : 1 ≤ getItemSupport i index) : i ∈ uniqueItems index := by
  unfold getItemSupport at h
  cases hfil : index.filter (fun e => e.item == i) with
  | nil =>
      rw [hfil] at h
      simp at h
  | cons e rest =>
      have he : e ∈ index.filter (fun e' => e'.item == i) := by
        rw [hfil]
        exact List.mem_cons_self e rest
      obtain ⟨hemem, heitem⟩ := List.mem_filter.mp he
      have heq : e.item = i := by simpa using heitem
      unfold uniqueItems
      rw [List.mem_dedup, ← heq]
      exact List.mem_map_of_mem _ hemem

lemma uniqueItems_exists {index : List Entry} {i : Nat} (h : i ∈ uniqueItems index) :
    ∃ e ∈ index, e.item = i := by
  unfold uniqueItems at h
  rw [List.mem_dedup] at h
  rcases List.mem_map.mp h with ⟨e, he, hei⟩
  exact ⟨e, he, hei⟩

lemma cb_items_before {nodes : List FPNode} (wf : WFNodes nodes) {supp : Nat → Nat}
    (hsort : TreeSorted supp nodes) {index : List Entry}
    (hcons : ∀ e ∈ index, ∃ n, findNode nodes e.id = some n ∧ n.item = some e.item ∧
      n.parentId = e.parentId) (i : Nat) :
    ∀ f ∈ getConditionalItemNodes nodes i index, before supp f.item i = true := by
  intro f hf
  obtain ⟨t, ht, a, ha, haid, haitem, hapar⟩ := cb_entry_source wf i index f hf
  obtain ⟨ht', hti⟩ := List.mem_filter.mp ht
  have hti' : t.item = i := by simpa using hti
  obtain ⟨n, hfind, hnitem, hnpar⟩ := hcons t ht'
  have hnp : n.parentId ≠ none := by
    intro h0
    unfold entryAnc at ha
    rw [← hnpar, h0, ancestors_none] at ha
    cases ha
  have hmemb : a ∈ ancestors nodes nodes.length n.parentId := by
    rw [hnpar]
    unfold entryAnc at ha
    exact ha
  have hb := ancestors_all_before wf hsort t.id n hfind hnp a hmemb
  rw [haitem, hnitem, hti'] at hb
  simpa using hb
end FPG

namespace FPG

/-! ### The per-target chain sum: one target's contribution to a conditional
condSum collapses to an indicator on its own ancestor chain -/

lemma target_chain_sum {nodes : List FPNode} (wf : WFNodes nodes) {supp : Nat → Nat}
    (hsort : TreeSorted supp nodes) {CB : List Entry}
    (hnd : (CB.map Entry.id).Nodup)
    (hconsCB : ∀ f ∈ CB, ∃ n, findNode nodes f.id = some n ∧ n.item = some f.item ∧
      n.parentId = f.parentId)
    (t : Entry) (hcov : ∀ a ∈ entryAnc nodes t, ∃ f ∈ CB, f.id = a.id)
    (j : Nat) (S : Finset Nat) (hS : ∀ s ∈ S, before supp s j = true) :
    (CB.map (fun f => if f.item = j ∧ ∀ s ∈ S, s ∈ ancItems nodes f then
        (if (entryAnc nodes t).any (fun b => b.id == f.id) then t.support else 0) else 0)).sum
      = if j ∈ ancItems nodes t ∧ ∀ s ∈ S, s ∈ ancItems nodes t then t.support else 0 := by
  have hmatch : ∀ f ∈ CB, ∀ b ∈ entryAnc nodes t, b.id = f.id →
      b.item = some f.item ∧ b.parentId = f.parentId := by
    intro f hf b hb hbid
    obtain ⟨n, hfind, hitem, hpar⟩ := hconsCB f hf
    have hbmem : b ∈ nodes := (mem_ancestors _ _ b hb).1
    have hfb : findNode nodes b.id = some b := wf.findNode_self hbmem
    rw [hbid, hfind] at hfb
    injection hfb with hnb
    exact ⟨by rw [← hnb]; exact hitem, by rw [← hnb]; exact hpar⟩
  have hchain : ∀ a ∈ entryAnc nodes t,
      (∀ s, s ∈ (ancestors nodes nodes.length a.parentId).map (fun x => x.item.getD 0) →
        s ∈ ancItems nodes t) ∧
      (∀ s, before supp s (a.item.getD 0) = true → s ∈ ancItems nodes t →
        s ∈ (ancestors nodes nodes.length a.parentId).map (fun x => x.item.getD 0)) := by
    intro a ha
    cases hq : t.parentId with
    | none =>
        exfalso
        unfold entryAnc at ha
        rw [hq, ancestors_none] at ha
        cases ha
    | some pid =>
        have ha' : a ∈ ancestors nodes nodes.length (some pid) := by
          unfold entryAnc at ha
          rw [hq] at ha
          exact ha
        obtain ⟨l₁, hsplit⟩ := ancestors_split wf pid a ha'
        have hpw := ancestors_pairwise_before wf hsort pid
        constructor
        · intro s hs
          unfold ancItems entryAnc
          rw [hq, hsplit]
          rcases List.mem_map.mp hs with ⟨x, hx, rfl⟩
          exact List.mem_map_of_mem _
            (List.mem_append_right _ (List.mem_cons_of_mem a hx))
        · intro s hbs hsan
          unfold ancItems entryAnc at hsan
          rw [hq, hsplit] at hsan
          rcases List.mem_map.mp hsan with ⟨c, hc, rfl⟩
          rcases List.mem_append.mp hc with hc | hc
          · exfalso
            rw [hsplit] at hpw
            have hpw2 := (List.pairwise_append.mp hpw).2.2
            have hra := hpw2 c hc a (List.mem_cons_self a _)
            have hcontra := before_asymm hra
            rw [hbs] at hcontra
            simp at hcontra
          · rcases List.mem_cons.mp hc with rfl | hc
            · exfalso
              rw [before_irrefl] at hbs
              exact Bool.false_ne_true hbs
            · exact List.mem_map_of_mem _ hc
  by_cases hex : ∃ a ∈ entryAnc nodes t, a.item.getD 0 = j ∧
      ∀ s ∈ S, s ∈ (ancestors nodes nodes.length a.parentId).map (fun x => x.item.getD 0)
  · obtain ⟨a, ha, haj, haS⟩ := hex
    obtain ⟨f₀, hf₀, hf₀id⟩ := hcov a ha
    obtain ⟨hbitem, hbpar⟩ := hmatch f₀ hf₀ a ha hf₀id.symm
    have hf₀item : f₀.item = j := by
      rw [← haj, hbitem]
      rfl
    have hP : f₀.item = j ∧ ∀ s ∈ S, s ∈ ancItems nodes f₀ := by
      refine ⟨hf₀item, ?_⟩
      intro s hs
      unfold ancItems entryAnc
      rw [← hbpar]
      exact haS s hs
    have hany : ((entryAnc nodes t).any (fun b => b.id == f₀.id)) = true :=
      List.any_eq_true.mpr ⟨a, ha, by simp [hf₀id]⟩
    have hptwise : ∀ f ∈ CB,
        (if f.item = j ∧ ∀ s ∈ S, s ∈ ancItems nodes f then
          (if (entryAnc nodes t).any (fun b => b.id == f.id) then t.support else 0) else 0) =
        (if f.id = a.id then t.support else 0) := by
      intro f hf
      by_cases hid : f.id = a.id
      · have hff : f = f₀ := List.inj_on_of_nodup_map hnd hf hf₀ (by rw [hid, hf₀id])
        rw [hff, if_pos hP, if_pos hany, if_pos hf₀id]
      · rw [if_neg hid]
        by_cases hPf : f.item = j ∧ ∀ s ∈ S, s ∈ ancItems nodes f
        · rw [if_pos hPf]
          cases hanyf : ((entryAnc nodes t).any (fun b => b.id == f.id)) with
          | false => rfl
          | true =>
              exfalso
              rcases List.any_eq_true.mp hanyf with ⟨b, hb, hbid⟩
              have hbid' : b.id = f.id := by simpa using hbid
              obtain ⟨hbi, hbp⟩ := hmatch f hf b hb hbid'
              have hbj : b.item.getD 0 = j := by
                rw [hbi]
                exact hPf.1
              have hba : b = a := pairwise_item_unique (entryAnc_pairwise wf hsort t)
                b hb a ha (by rw [hbj, haj])
              exact hid (by rw [← hbid', hba])
        · rw [if_neg hPf]
    rw [List.map_congr_left hptwise, sum_if_unique_id hnd hf₀ hf₀id]
    have hjmem : j ∈ ancItems nodes t := by
      unfold ancItems
      rw [← haj]
      exact List.mem_map_of_mem _ ha
    have hSsub : ∀ s ∈ S, s ∈ ancItems nodes t := fun s hs => (hchain a ha).1 s (haS s hs)
    rw [if_pos ⟨hjmem, hSsub⟩]
  · have hterm0 : ∀ f ∈ CB,
        (if f.item = j ∧ ∀ s ∈ S, s ∈ ancItems nodes f then
          (if (entryAnc nodes t).any (fun b => b.id == f.id) then t.support else 0) else 0)
          = 0 := by
      intro f hf
      by_cases hPf : f.item = j ∧ ∀ s ∈ S, s ∈ ancItems nodes f
      · rw [if_pos hPf]
        cases hanyf : ((entryAnc nodes t).any (fun b => b.id == f.id)) with
        | false => rfl
        | true =>
            exfalso
            apply hex
            rcases List.any_eq_true.mp hanyf with ⟨b, hb, hbid⟩
            have hbid' : b.id = f.id := by simpa using hbid
            obtain ⟨hbi, hbp⟩ := hmatch f hf b hb hbid'
            refine ⟨b, hb, by rw [hbi]; exact hPf.1, ?_⟩
            intro s hs
            rw [hbp]
            have hsa := hPf.2 s hs
            unfold ancItems entryAnc at hsa
            exact hsa
      · rw [if_neg hPf]
    have hsum0 : (CB.map (fun f => if f.item = j ∧ ∀ s ∈ S, s ∈ ancItems nodes f then
        (if (entryAnc nodes t).any (fun b => b.id == f.id) then t.support else 0) else 0)).sum
        = 0 := by
      apply List.sum_eq_zero
      intro x hx
      rcases List.mem_map.mp hx with ⟨f, hf, rfl⟩
      exact hterm0 f hf
    rw [hsum0]
    have hnot : ¬(j ∈ ancItems nodes t ∧ ∀ s ∈ S, s ∈ ancItems nodes t) := by
      rintro ⟨hjm, hSm⟩
      apply hex
      unfold ancItems at hjm
      rcases List.mem_map.mp hjm with ⟨a, ha, haj⟩
      refine ⟨a, ha, haj, ?_⟩
      intro s hs
      have hbs : before supp s (a.item.getD 0) = true := by
        rw [haj]
        exact hS s hs
      exact (hchain a ha).2 s hbs (hSm s hs)
    rw [if_neg hnot]

end FPG

namespace FPG

/-! ### The exchange law: a conditional base's condSum is the parent
index's condSum with the target item added to the cover set -/

lemma condSum_cb {nodes : List FPNode} (wf : WFNodes nodes) {supp : Nat → Nat}
    (hsort : TreeSorted supp nodes) (index : List Entry) (i j : Nat) (S : Finset Nat)
    (hS : ∀ s ∈ S, before supp s j = true) :
    condSum nodes (getConditionalItemNodes nodes i index) j S =
      condSum nodes index i (insert j S) := by
  have hnd := cb_nodup wf i index
  have hconsCB := cb_consistent wf i index
  have hsup := cb_support_char wf i index
  have hcov := cb_coverage wf i index
  have hL1 : condSum nodes (getConditionalItemNodes nodes i index) j S =
      ((getConditionalItemNodes nodes i index).map (fun f =>
        ((index.filter (fun e => e.item == i)).map (fun t =>
          if f.item = j ∧ ∀ s ∈ S, s ∈ ancItems nodes f then
            (if (entryAnc nodes t).any (fun b => b.id == f.id) then t.support else 0)
          else 0)).sum)).sum := by
    unfold condSum
    congr 1
    apply List.map_congr_left
    intro f hf
    by_cases hPf : f.item = j ∧ ∀ s ∈ S, s ∈ ancItems nodes f
    · rw [if_pos hPf, hsup f hf, sum_filter_ite]
      exact congrArg List.sum (List.map_congr_left (fun t _ => (if_pos hPf).symm))
    · rw [if_neg hPf]
      symm
      apply List.sum_eq_zero
      intro x hx
      rcases List.mem_map.mp hx with ⟨t, _, rfl⟩
      rw [if_neg hPf]
  have hL2 : ((getConditionalItemNodes nodes i index).map (fun f =>
      ((index.filter (fun e => e.item == i)).map (fun t =>
        if f.item = j ∧ ∀ s ∈ S, s ∈ ancItems nodes f then
          (if (entryAnc nodes t).any (fun b => b.id == f.id) then t.support else 0)
        else 0)).sum)).sum =
      ((index.filter (fun e => e.item == i)).map (fun t =>
        ((getConditionalItemNodes nodes i index).map (fun f =>
          if f.item = j ∧ ∀ s ∈ S, s ∈ ancItems nodes f then
            (if (entryAnc nodes t).any (fun b => b.id == f.id) then t.support else 0)
          else 0)).sum)).sum :=
    list_sum_comm _ _ _
  rw [hL1, hL2, condSum_filter nodes index i (insert j S)]
  congr 1
  apply List.map_congr_left
  intro t ht
  rw [target_chain_sum wf hsort hnd hconsCB t (hcov t ht) j S hS]
  by_cases hc : j ∈ ancItems nodes t ∧ ∀ s ∈ S, s ∈ ancItems nodes t
  · rw [if_pos hc, if_pos ((Finset.forall_mem_insert _ _ _).mpr hc)]
  · rw [if_neg hc, if_neg (fun hcc => hc ((Finset.forall_mem_insert _ _ _).mp hcc))]

end FPG

namespace FPG

lemma decide_congr {p q : Prop} [Decidable p] [Decidable q] (h : p ↔ q) :
    decide p = decide q := by
  by_cases hp : p
  · rw [decide_eq_true hp, decide_eq_true (h.mp hp)]
  · rw [decide_eq_false hp, decide_eq_false (fun hq => hp (h.mpr hq))]

lemma inv_cb_condSum {nodes : List FPNode} (wf : WFNodes nodes) {ts : List (List Nat)}
    (hsort : TreeSorted (txSupport ts) nodes) {index : List Entry} {X : List Nat}
    (hb : ∀ j S, (∀ x ∈ X, before (txSupport ts) j x = true) →
      (∀ s ∈ S, before (txSupport ts) s j = true) →
      condSum nodes index j S = coverCount ts X j S)
    {i : Nat} (hiX : ∀ x ∈ X, before (txSupport ts) i x = true) :
    ∀ j S, (∀ x ∈ X ++ [i], before (txSupport ts) j x = true) →
      (∀ s ∈ S, before (txSupport ts) s j = true) →
      condSum nodes (getConditionalItemNodes nodes i index) j S =
        coverCount ts (X ++ [i]) j S := by
  intro j S hjx hsj
  have hji : before (txSupport ts) j i = true :=
    hjx i (List.mem_append_right X (List.mem_cons_self i []))
  rw [condSum_cb wf hsort index i j S hsj]
  have hguard2 : ∀ s ∈ insert j S, before (txSupport ts) s i = true := by
    intro s hs
    rcases Finset.mem_insert.mp hs with rfl | hs
    · exact hji
    · exact before_trans (hsj s hs) hji
  rw [hb i (insert j S) hiX hguard2]
  unfold coverCount
  apply countPCongr
  intro tx _
  apply decide_congr
  constructor
  · rintro ⟨hi', hins, hX'⟩
    have hj' := hins j (Finset.mem_insert_self j S)
    refine ⟨hj', fun s hs => hins s (Finset.mem_insert_of_mem hs), ?_⟩
    intro x hx
    rcases List.mem_append.mp hx with hx | hx
    · exact hX' x hx
    · rcases List.mem_cons.mp hx with rfl | hx
      · exact hi'
      · cases hx
  · rintro ⟨hj', hS', hXi⟩
    refine ⟨hXi i (List.mem_append_right X (List.mem_cons_self i [])), ?_, ?_⟩
    · intro s hs
      rcases Finset.mem_insert.mp hs with rfl | hs
      · exact hj'
      · exact hS' s hs
    · intro x hx
      exact hXi x (List.mem_append_left _ hx)

end FPG

namespace FPG

/-- The miner emits, for each finset `S`, exactly one list with item set
`S` when `S` strictly extends the current itemset by items that precede
it in the global order and the extended set is frequent; otherwise none.
The invariant ties each index's condSum to transaction counts. -/
lemma minerAux_count {nodes : List FPNode} (wf : WFNodes nodes) {ts : List (List Nat)}
    (hsort : TreeSorted (txSupport ts) nodes) {m : Nat} (hm : 1 ≤ m) :
    ∀ (fuel : Nat) (X : List Nat) (I : List Entry),
      maxIdx I < fuel →
      (∀ e ∈ I, ∃ n, findNode nodes e.id = some n ∧ n.item = some e.item ∧
        n.parentId = e.parentId) →
      (∀ j S, (∀ x ∈ X, before (txSupport ts) j x = true) →
        (∀ s ∈ S, before (txSupport ts) s j = true) →
        condSum nodes I j S = coverCount ts X j S) →
      (∀ e ∈ I, ∀ x ∈ X, before (txSupport ts) e.item x = true) →
      ∀ S : Finset Nat,
        (minerAux nodes fuel X I m).countP (fun l => decide (l.toFinset = S)) =
          if (∀ x ∈ X, x ∈ S) ∧ (∃ y ∈ S, y ∉ X) ∧
              (∀ y ∈ S, y ∉ X → ∀ x ∈ X, before (txSupport ts) y x = true) ∧
              m ≤ ts.countP (fun tx => decide ((∀ y ∈ S, y ∈ tx) ∧ ∀ x ∈ X, x ∈ tx))
            then 1 else 0 := by
  intro fuel
  induction fuel with
  | zero =>
      intro X I hfuel _ _ _ _
      omega
  | succ fuel ih =>
      intro X I hfuel ha hb hc S
      have hnotX : ∀ i ∈ uniqueItems I, i ∉ X := by
        intro i hi hiX
        obtain ⟨e, he, hei⟩ := uniqueItems_exists hi
        have h := hc e he i hiX
        rw [hei, before_irrefl] at h
        exact Bool.false_ne_true h
      have hguard : ∀ i ∈ uniqueItems I, ∀ x ∈ X, before (txSupport ts) i x = true := by
        intro i hi x hx
        obtain ⟨e, he, hei⟩ := uniqueItems_exists hi
        have h := hc e he x hx
        rw [hei] at h
        exact h
      have hsupp_eq : ∀ i₁, (∀ x ∈ X, before (txSupport ts) i₁ x = true) →
          getItemSupport i₁ I =
            ts.countP (fun tx => decide (i₁ ∈ tx ∧ ∀ x ∈ X, x ∈ tx)) := by
        intro i₁ hg
        rw [getItemSupport_eq_condSum_empty nodes,
          hb i₁ ∅ hg (fun s hs => absurd hs (Finset.not_mem_empty s))]
        unfold coverCount
        apply countPCongr
        intro tx _
        apply decide_congr
        constructor
        · rintro ⟨h1, _, h3⟩
          exact ⟨h1, h3⟩
        · rintro ⟨h1, h3⟩
          exact ⟨h1, fun s hs => absurd hs (Finset.not_mem_empty s), h3⟩
      have hrec : ∀ i ∈ uniqueItems I,
          (minerAux nodes fuel (X ++ [i]) (getConditionalItemNodes nodes i I) m).countP
            (fun l => decide (l.toFinset = S)) =
          if (∀ x ∈ X ++ [i], x ∈ S) ∧ (∃ y ∈ S, y ∉ X ++ [i]) ∧
              (∀ y ∈ S, y ∉ X ++ [i] → ∀ x ∈ X ++ [i], before (txSupport ts) y x = true) ∧
              m ≤ ts.countP (fun tx => decide ((∀ y ∈ S, y ∈ tx) ∧ ∀ x ∈ X ++ [i], x ∈ tx))
            then 1 else 0 := by
        intro i hi
        have hb' := inv_cb_condSum wf hsort hb (hguard i hi)
        by_cases hcb : getConditionalItemNodes nodes i I = []
        · have hfalse : ¬((∀ x ∈ X ++ [i], x ∈ S) ∧ (∃ y ∈ S, y ∉ X ++ [i]) ∧
              (∀ y ∈ S, y ∉ X ++ [i] → ∀ x ∈ X ++ [i], before (txSupport ts) y x = true) ∧
              m ≤ ts.countP (fun tx => decide ((∀ y ∈ S, y ∈ tx) ∧ ∀ x ∈ X ++ [i], x ∈ tx))) := by
            rintro ⟨hc1, ⟨y, hyS, hyX⟩, hc3, hc4⟩
            have hgy := hc3 y hyS hyX
            have h0 := hb' y ∅ hgy (fun s hs => absurd hs (Finset.not_mem_empty s))
            rw [hcb] at h0
            have hz : condSum nodes ([] : List Entry) y ∅ = 0 := rfl
            rw [hz] at h0
            have hmono : ts.countP (fun tx => decide ((∀ y' ∈ S, y' ∈ tx) ∧
                ∀ x ∈ X ++ [i], x ∈ tx)) ≤ coverCount ts (X ++ [i]) y ∅ := by
              unfold coverCount
              apply List.countP_mono_left
              intro tx _ htx
              rw [decide_eq_true_eq] at htx
              rw [decide_eq_true_eq]
              exact ⟨htx.1 y hyS, fun s hs => absurd hs (Finset.not_mem_empty s), htx.2⟩
            omega
          rw [hcb, minerAux_nil, List.countP_nil, if_neg hfalse]
        · obtain ⟨f', hf'⟩ := List.exists_mem_of_ne_nil _ hcb
          obtain ⟨t', ht', _, hlt'⟩ := cb_id_lt wf ha f' hf'
          have hmaxI := le_maxIdx t' ht'
          have hmaxCB : maxIdx (getConditionalItemNodes nodes i I) < fuel := by
            have hle : maxIdx (getConditionalItemNodes nodes i I) ≤ maxIdx I - 1 := by
              apply maxIdx_le
              intro f hf
              rcases cb_id_lt wf ha f hf with ⟨tgt, htgt, _, hlt⟩
              have := le_maxIdx tgt htgt
              omega
            omega
          have ha' := cb_consistent wf i I
          have hc' : ∀ f ∈ getConditionalItemNodes nodes i I, ∀ x ∈ X ++ [i],
              before (txSupport ts) f.item x = true := by
            intro f hf x hx
            have hfi := cb_items_before wf hsort ha i f hf
            rcases List.mem_append.mp hx with hx | hx
            · exact before_trans hfi (hguard i hi x hx)
            · rcases List.mem_cons.mp hx with rfl | hx
              · exact hfi
              · cases hx
          exact ih (X ++ [i]) (getConditionalItemNodes nodes i I) hmaxCB ha' hb' hc' S
      have hstep : (minerAux nodes (fuel + 1) X I m).countP
          (fun l => decide (l.toFinset = S)) =
          ((uniqueItems I).map (fun i => ((if m ≤ getItemSupport i I then
            (X ++ [i]) :: minerAux nodes fuel (X ++ [i])
              (getConditionalItemNodes nodes i I) m
          else []) : List (List Nat)).countP (fun l => decide (l.toFinset = S)))).sum := by
        rw [show minerAux nodes (fuel + 1) X I m = (uniqueItems I).flatMap
          (fun i => if m ≤ getItemSupport i I then (X ++ [i]) :: minerAux nodes fuel (X ++ [i])
            (getConditionalItemNodes nodes i I) m else []) from rfl]
        exact countP_flatMap _ _ _
      rw [hstep]
      have hndU : (uniqueItems I).Nodup := List.nodup_dedup _
      by_cases hC : (∀ x ∈ X, x ∈ S) ∧ (∃ y ∈ S, y ∉ X) ∧
          (∀ y ∈ S, y ∉ X → ∀ x ∈ X, before (txSupport ts) y x = true) ∧
          m ≤ ts.countP (fun tx => decide ((∀ y ∈ S, y ∈ tx) ∧ ∀ x ∈ X, x ∈ tx))
      · obtain ⟨hC1, hC2, hC3, hC4⟩ := hC
        have hl₀ : ∃ y, y ∈ S.toList.filter (fun y => decide (y ∉ X)) := by
          obtain ⟨y, hyS, hyX⟩ := hC2
          refine ⟨y, List.mem_filter.mpr ⟨Finset.mem_toList.mpr hyS, ?_⟩⟩
          rw [decide_eq_true_eq]
          exact hyX
        obtain ⟨y₀, hy₀⟩ := hl₀
        obtain ⟨i₀, hi₀l, hmax⟩ := exists_before_max (txSupport ts) _ (List.ne_nil_of_mem hy₀)
        obtain ⟨hi₀S', hi₀X'⟩ := List.mem_filter.mp hi₀l
        have hi₀S : i₀ ∈ S := Finset.mem_toList.mp hi₀S'
        have hi₀X : i₀ ∉ X := of_decide_eq_true hi₀X'
        have hmax' : ∀ y ∈ S, y ∉ X → y ≠ i₀ → before (txSupport ts) y i₀ = true := by
          intro y hyS hyX hne
          refine hmax y (List.mem_filter.mpr ⟨Finset.mem_toList.mpr hyS, ?_⟩) hne
          rw [decide_eq_true_eq]
          exact hyX
        have hi₀guard : ∀ x ∈ X, before (txSupport ts) i₀ x = true := hC3 i₀ hi₀S hi₀X
        have hthr₀ : m ≤ getItemSupport i₀ I := by
          rw [hsupp_eq i₀ hi₀guard]
          calc m ≤ ts.countP (fun tx => decide ((∀ y ∈ S, y ∈ tx) ∧ ∀ x ∈ X, x ∈ tx)) := hC4
          _ ≤ _ := by
            apply List.countP_mono_left
            intro tx _ htx
            rw [decide_eq_true_eq] at htx
            rw [decide_eq_true_eq]
            exact ⟨htx.1 i₀ hi₀S, htx.2⟩
        have hi₀mem : i₀ ∈ uniqueItems I := mem_uniqueItems_of_pos (le_trans hm hthr₀)
        have hbr0 : ∀ i ∈ uniqueItems I, i ≠ i₀ →
            ((if m ≤ getItemSupport i I then
              (X ++ [i]) :: minerAux nodes fuel (X ++ [i])
                (getConditionalItemNodes nodes i I) m
            else []) : List (List Nat)).countP (fun l => decide (l.toFinset = S)) = 0 := by
          intro i hi hne
          by_cases hthr : m ≤ getItemSupport i I
          · rw [if_pos hthr]
            simp only [List.countP_cons]
            have hhead : (decide ((X ++ [i]).toFinset = S)) = false := by
              rw [decide_eq_false_iff_not]
              intro heq
              by_cases hiS : i ∈ S
              · have hmem : i₀ ∈ (X ++ [i]).toFinset := by
                  rw [heq]
                  exact hi₀S
                rw [List.mem_toFinset] at hmem
                rcases List.mem_append.mp hmem with h | h
                · exact hi₀X h
                · rcases List.mem_cons.mp h with h | h
                  · exact hne h.symm
                  · cases h
              · apply hiS
                rw [← heq, List.mem_toFinset]
                exact List.mem_append_right X (List.mem_cons_self i [])
            have hcfalse : ¬((∀ x ∈ X ++ [i], x ∈ S) ∧ (∃ y ∈ S, y ∉ X ++ [i]) ∧
                (∀ y ∈ S, y ∉ X ++ [i] → ∀ x ∈ X ++ [i], before (txSupport ts) y x = true) ∧
                m ≤ ts.countP (fun tx => decide ((∀ y ∈ S, y ∈ tx) ∧
                  ∀ x ∈ X ++ [i], x ∈ tx))) := by
              rintro ⟨hc1', _, hc3', _⟩
              by_cases hiS : i ∈ S
              · have hi₀ni : i₀ ∉ X ++ [i] := by
                  intro h
                  rcases List.mem_append.mp h with h | h
                  · exact hi₀X h
                  · rcases List.mem_cons.mp h with h | h
                    · exact hne h.symm
                    · cases h
                have h1 := hc3' i₀ hi₀S hi₀ni i
                  (List.mem_append_right X (List.mem_cons_self i []))
                have h2 := hmax' i hiS (hnotX i hi) hne
                have h3 := before_asymm h2
                rw [h1] at h3
                simp at h3
              · exact hiS (hc1' i (List.mem_append_right X (List.mem_cons_self i [])))
            rw [hrec i hi, if_neg hcfalse, hhead]
            simp
          · rw [if_neg hthr]
            exact List.countP_nil _
        have hbr1 : ((if m ≤ getItemSupport i₀ I then
            (X ++ [i₀]) :: minerAux nodes fuel (X ++ [i₀])
              (getConditionalItemNodes nodes i₀ I) m
          else []) : List (List Nat)).countP (fun l => decide (l.toFinset = S)) = 1 := by
          rw [if_pos hthr₀]
          simp only [List.countP_cons]
          by_cases hT : ∀ y ∈ S, y ∉ X → y = i₀
          · have hhead : (decide ((X ++ [i₀]).toFinset = S)) = true := by
              rw [decide_eq_true_eq]
              apply Finset.ext
              intro y
              rw [List.mem_toFinset]
              constructor
              · intro h
                rcases List.mem_append.mp h with h | h
                · exact hC1 y h
                · rcases List.mem_cons.mp h with rfl | h
                  · exact hi₀S
                  · cases h
              · intro hyS
                by_cases hyX : y ∈ X
                · exact List.mem_append_left _ hyX
                · rw [hT y hyS hyX]
                  exact List.mem_append_right X (List.mem_cons_self i₀ [])
            have hcfalse : ¬((∀ x ∈ X ++ [i₀], x ∈ S) ∧ (∃ y ∈ S, y ∉ X ++ [i₀]) ∧
                (∀ y ∈ S, y ∉ X ++ [i₀] → ∀ x ∈ X ++ [i₀],
                  before (txSupport ts) y x = true) ∧
                m ≤ ts.countP (fun tx => decide ((∀ y ∈ S, y ∈ tx) ∧
                  ∀ x ∈ X ++ [i₀], x ∈ tx))) := by
              rintro ⟨_, ⟨y, hyS, hyX⟩, _, _⟩
              apply hyX
              by_cases hyX' : y ∈ X
              · exact List.mem_append_left _ hyX'
              · rw [hT y hyS hyX']
                exact List.mem_append_right X (List.mem_cons_self i₀ [])
            rw [hrec i₀ hi₀mem, if_neg hcfalse, hhead]
            simp
          · push_neg at hT
            obtain ⟨y₁, hy₁S, hy₁X, hy₁ne⟩ := hT
            have hhead : (decide ((X ++ [i₀]).toFinset = S)) = false := by
              rw [decide_eq_false_iff_not]
              intro heq
              have hmem : y₁ ∈ (X ++ [i₀]).toFinset := by
                rw [heq]
                exact hy₁S
              rw [List.mem_toFinset] at hmem
              rcases List.mem_append.mp hmem with h | h
              · exact hy₁X h
              · rcases List.mem_cons.mp h with h | h
                · exact hy₁ne h
                · cases h
            have hctrue : (∀ x ∈ X ++ [i₀], x ∈ S) ∧ (∃ y ∈ S, y ∉ X ++ [i₀]) ∧
                (∀ y ∈ S, y ∉ X ++ [i₀] → ∀ x ∈ X ++ [i₀],
                  before (txSupport ts) y x = true) ∧
                m ≤ ts.countP (fun tx => decide ((∀ y ∈ S, y ∈ tx) ∧
                  ∀ x ∈ X ++ [i₀], x ∈ tx)) := by
              refine ⟨?_, ⟨y₁, hy₁S, ?_⟩, ?_, ?_⟩
              · intro x hx
                rcases List.mem_append.mp hx with hx | hx
                · exact hC1 x hx
                · rcases List.mem_cons.mp hx with rfl | hx
                  · exact hi₀S
                  · cases hx
              · intro h
                rcases List.mem_append.mp h with h | h
                · exact hy₁X h
                · rcases List.mem_cons.mp h with h | h
                  · exact hy₁ne h
                  · cases h
              · intro y hyS hyXi x hx
                have hyX : y ∉ X := fun hcon => hyXi (List.mem_append_left _ hcon)
                have hyne : y ≠ i₀ := by
                  intro hcon
                  apply hyXi
                  rw [hcon]
                  exact List.mem_append_right X (List.mem_cons_self i₀ [])
                rcases List.mem_append.mp hx with hx | hx
                · exact hC3 y hyS hyX x hx
                · rcases List.mem_cons.mp hx with rfl | hx
                  · exact hmax' y hyS hyX hyne
                  · cases hx
              · calc m ≤ ts.countP (fun tx => decide ((∀ y ∈ S, y ∈ tx) ∧
                    ∀ x ∈ X, x ∈ tx)) := hC4
                _ = _ := by
                  apply countPCongr
                  intro tx _
                  apply decide_congr
                  constructor
                  · rintro ⟨h1, h2⟩
                    refine ⟨h1, ?_⟩
                    intro x hx
                    rcases List.mem_append.mp hx with hx | hx
                    · exact h2 x hx
                    · rcases List.mem_cons.mp hx with rfl | hx
                      · exact h1 _ hi₀S
                      · cases hx
                  · rintro ⟨h1, h2⟩
                    exact ⟨h1, fun x hx => h2 x (List.mem_append_left _ hx)⟩
            rw [hrec i₀ hi₀mem, if_pos hctrue, hhead]
            simp
        rw [sum_single_nat hndU i₀ _ hbr0, if_pos hi₀mem, hbr1,
          if_pos ⟨hC1, hC2, hC3, hC4⟩]
      · rw [if_neg hC]
        apply List.sum_eq_zero
        intro v hv
        rcases List.mem_map.mp hv with ⟨i, hi, rfl⟩
        by_cases hthr : m ≤ getItemSupport i I
        · rw [if_pos hthr]
          simp only [List.countP_cons]
          have hiX := hnotX i hi
          have hhead : (decide ((X ++ [i]).toFinset = S)) = false := by
            rw [decide_eq_false_iff_not]
            intro heq
            apply hC
            refine ⟨?_, ⟨i, ?_, hiX⟩, ?_, ?_⟩
            · intro x hx
              rw [← heq, List.mem_toFinset]
              exact List.mem_append_left _ hx
            · rw [← heq, List.mem_toFinset]
              exact List.mem_append_right X (List.mem_cons_self i [])
            · intro y hyS hyX x hx
              have hyXi : y ∈ X ++ [i] := by
                rw [← List.mem_toFinset, heq]
                exact hyS
              rcases List.mem_append.mp hyXi with h | h
              · exact absurd h hyX
              · rcases List.mem_cons.mp h with rfl | h
                · exact hguard y hi x hx
                · cases h
            · have he := hsupp_eq i (hguard i hi)
              rw [he] at hthr
              calc m ≤ ts.countP (fun tx => decide (i ∈ tx ∧ ∀ x ∈ X, x ∈ tx)) := hthr
              _ = _ := by
                apply countPCongr
                intro tx _
                apply decide_congr
                constructor
                · rintro ⟨h1, h2⟩
                  refine ⟨?_, h2⟩
                  intro y hyS
                  have hyXi : y ∈ X ++ [i] := by
                    rw [← List.mem_toFinset, heq]
                    exact hyS
                  rcases List.mem_append.mp hyXi with h | h
                  · exact h2 y h
                  · rcases List.mem_cons.mp h with rfl | h
                    · exact h1
                    · cases h
                · rintro ⟨h1, h2⟩
                  refine ⟨?_, h2⟩
                  apply h1
                  rw [← heq, List.mem_toFinset]
                  exact List.mem_append_right X (List.mem_cons_self i [])
          have hcfalse : ¬((∀ x ∈ X ++ [i], x ∈ S) ∧ (∃ y ∈ S, y ∉ X ++ [i]) ∧
              (∀ y ∈ S, y ∉ X ++ [i] → ∀ x ∈ X ++ [i], before (txSupport ts) y x = true) ∧
              m ≤ ts.countP (fun tx => decide ((∀ y ∈ S, y ∈ tx) ∧
                ∀ x ∈ X ++ [i], x ∈ tx))) := by
            rintro ⟨hc1', _, hc3', hc4'⟩
            apply hC
            refine ⟨?_, ?_, ?_, ?_⟩
            · intro x hx
              exact hc1' x (List.mem_append_left _ hx)
            · exact ⟨i, hc1' i (List.mem_append_right X (List.mem_cons_self i [])), hiX⟩
            · intro y hyS hyX x hx
              by_cases hyi : y = i
              · rw [hyi]
                exact hguard i hi x hx
              · have hyXi : y ∉ X ++ [i] := by
                  intro h
                  rcases List.mem_append.mp h with h | h
                  · exact hyX h
                  · rcases List.mem_cons.mp h with h | h
                    · exact hyi h
                    · cases h
                exact hc3' y hyS hyXi x (List.mem_append_left _ hx)
            · calc m ≤ ts.countP (fun tx => decide ((∀ y ∈ S, y ∈ tx) ∧
                  ∀ x ∈ X ++ [i], x ∈ tx)) := hc4'
              _ ≤ _ := by
                apply List.countP_mono_left
                intro tx _ htx
                rw [decide_eq_true_eq] at htx
                rw [decide_eq_true_eq]
                exact ⟨htx.1, fun x hx => htx.2 x (List.mem_append_left _ hx)⟩
          rw [hrec i hi, if_neg hcfalse, hhead]
          simp
        · rw [if_neg hthr]
          exact List.countP_nil _

end FPG

namespace FPG

/-- The full counting characterization of the public miner, shared by
the correctness and order-invariance results. -/
lemma getFrequentItemsets_count (ts : List (List Nat)) (m : Nat) (hm : 1 ≤ m)
    (S : Finset Nat) :
    (getFrequentItemsets (buildTree ts) m).countP (fun l => decide (l.toFinset = S)) =
      if S.Nonempty ∧ m ≤ suppFinset ts S then 1 else 0 := by
  have hwf := (buildTree_wf ts).1
  have hsort := (buildTree_wf ts).2
  have hbase : ∀ j S', (∀ x ∈ ([] : List Nat), before (txSupport ts) j x = true) →
      (∀ s ∈ S', before (txSupport ts) s j = true) →
      condSum (buildTree ts).nodes (permanentIndex (buildTree ts)) j S' =
        coverCount ts [] j S' := by
    intro j S' _ hS'
    rw [buildTree_condSum ts j S' hS']
    unfold coverCount
    apply countPCongr
    intro tx _
    apply decide_congr
    constructor
    · rintro ⟨h1, h2⟩
      exact ⟨h1, h2, fun x hx => absurd hx (List.not_mem_nil x)⟩
    · rintro ⟨h1, h2, _⟩
      exact ⟨h1, h2⟩
  have h := minerAux_count hwf.wf hsort hm (maxIdx (permanentIndex (buildTree ts)) + 1)
    [] (permanentIndex (buildTree ts)) (Nat.lt_succ_self _)
    (permanentIndex_consistent hwf) hbase
    (fun e _ x hx => absurd hx (List.not_mem_nil x)) S
  rw [show getFrequentItemsets (buildTree ts) m = minerAux (buildTree ts).nodes
    (maxIdx (permanentIndex (buildTree ts)) + 1) [] (permanentIndex (buildTree ts)) m
    from rfl]
  rw [h]
  have hiff : ((∀ x ∈ ([] : List Nat), x ∈ S) ∧ (∃ y ∈ S, y ∉ ([] : List Nat)) ∧
      (∀ y ∈ S, y ∉ ([] : List Nat) → ∀ x ∈ ([] : List Nat),
        before (txSupport ts) y x = true) ∧
      m ≤ ts.countP (fun tx => decide ((∀ y ∈ S, y ∈ tx) ∧
        ∀ x ∈ ([] : List Nat), x ∈ tx)))
      ↔ (S.Nonempty ∧ m ≤ suppFinset ts S) := by
    constructor
    · rintro ⟨_, ⟨y, hyS, _⟩, _, h4⟩
      refine ⟨⟨y, hyS⟩, ?_⟩
      unfold suppFinset
      calc m ≤ _ := h4
      _ = _ := by
        apply countPCongr
        intro tx _
        apply decide_congr
        constructor
        · rintro ⟨h1, _⟩
          exact h1
        · intro h1
          exact ⟨h1, fun x hx => absurd hx (List.not_mem_nil x)⟩
    · rintro ⟨⟨y, hyS⟩, h4⟩
      refine ⟨fun x hx => absurd hx (List.not_mem_nil x),
        ⟨y, hyS, List.not_mem_nil y⟩,
        fun y' _ _ x hx => absurd hx (List.not_mem_nil x), ?_⟩
      unfold suppFinset at h4
      calc m ≤ _ := h4
      _ = _ := by
        apply countPCongr
        intro tx _
        apply decide_congr
        constructor
        · intro h1
          exact ⟨h1, fun x hx => absurd hx (List.not_mem_nil x)⟩
        · rintro ⟨h1, _⟩
          exact h1
  by_cases hA : S.Nonempty ∧ m ≤ suppFinset ts S
  · rw [if_pos (hiff.mpr hA), if_pos hA]
  · rw [if_neg (fun hcc => hA (hiff.mp hcc)), if_neg hA]

/-- **C1**: for every transaction list and threshold `m ≥ 1`,
`get_frequent_itemsets` returns, for each non-empty itemset `S` with
support ≥ `m`, exactly one list whose item set is `S`, and nothing else;
in particular on `{0,1,2}` with threshold 1 it returns exactly 7
itemsets. -/
theorem claim_C1 (ts : List (List Nat)) (m : Nat) (hm : 1 ≤ m) :
    (∀ S : Finset Nat,
      (getFrequentItemsets (buildTree ts) m).countP (fun l => decide (l.toFinset = S)) =
        if S.Nonempty ∧ m ≤ suppFinset ts S then 1 else 0) ∧
    (getFrequentItemsets (buildTree [[0, 1, 2]]) 1).length = 7 :=
  ⟨fun S => getFrequentItemsets_count ts m hm S, rfl⟩

/-- Witness for C1: the spec's concrete scenario — transactions
`{0,1,2}` with threshold 1 yield exactly 7 itemsets. -/
theorem claim_C1_witness :
    1 ≤ 1 ∧ (getFrequentItemsets (buildTree [[0, 1, 2]]) 1).length = 7 :=
  ⟨le_rfl, (claim_C1 [[0, 1, 2]] 1 le_rfl).2⟩

end FPG

namespace FPG

/-! ### Paths in the trie: basic structure -/

lemma findChild_none_of_findNode_none {nodes : List FPNode} (wf : WFNodes nodes) {pid : Nat}
    (h : findNode nodes pid = none) (i : Nat) : findChild nodes pid i = none := by
  cases hc : findChild nodes pid i with
  | none => rfl
  | some c =>
      obtain ⟨hm, hp, _⟩ := findChild_some hc
      have h1 := wf.parent_lt c hm pid hp
      have h2 := wf.id_lt hm
      obtain ⟨n, hfind, _, _⟩ := wf.exists_of_lt (show pid < nodes.length by omega)
      rw [h] at hfind
      cases hfind

lemma pathFrom_mem {nodes : List FPNode} :
    ∀ (l : List Nat) (pid : Nat) (n : FPNode), pathFrom nodes pid l = some n → n ∈ nodes := by
  intro l
  induction l with
  | nil =>
      intro pid n h
      exact (findNode_some h).1
  | cons i r ih =>
      intro pid n h
      cases hc : findChild nodes pid i with
      | none =>
          simp only [pathFrom, hc] at h
          exact Option.noConfusion h
      | some c =>
          simp only [pathFrom, hc] at h
          exact ih c.id n h

lemma pathFrom_append_elim {nodes : List FPNode} (wf : WFNodes nodes) :
    ∀ (l₁ l₂ : List Nat) (pid : Nat),
      pathFrom nodes pid (l₁ ++ l₂) =
        (pathFrom nodes pid l₁).elim none (fun n => pathFrom nodes n.id l₂) := by
  intro l₁
  induction l₁ with
  | nil =>
      intro l₂ pid
      simp only [List.nil_append]
      cases hf : findNode nodes pid with
      | some n =>
          have hid := (findNode_some hf).2
          simp only [pathFrom, hf, Option.elim]
          rw [hid]
      | none =>
          simp only [pathFrom, hf, Option.elim]
          cases l₂ with
          | nil =>
              simp only [pathFrom]
              exact hf
          | cons j r =>
              have hcn := findChild_none_of_findNode_none wf hf j
              simp only [pathFrom, hcn]
  | cons i r ih =>
      intro l₂ pid
      simp only [List.cons_append, pathFrom]
      cases hc : findChild nodes pid i with
      | none => rfl
      | some c => exact ih l₂ c.id

lemma pathFrom_snoc {nodes : List FPNode} (wf : WFNodes nodes) {l : List Nat} {i : Nat}
    {n : FPNode} (h : pathFrom nodes 0 (l ++ [i]) = some n) :
    ∃ p, pathFrom nodes 0 l = some p ∧ findChild nodes p.id i = some n := by
  rw [pathFrom_append_elim wf l [i] 0] at h
  cases hp : pathFrom nodes 0 l with
  | none =>
      simp only [hp, Option.elim] at h
      exact Option.noConfusion h
  | some p =>
      simp only [hp, Option.elim] at h
      refine ⟨p, rfl, ?_⟩
      cases hc : findChild nodes p.id i with
      | none =>
          simp only [pathFrom, hc] at h
          exact Option.noConfusion h
      | some c =>
          simp only [pathFrom, hc] at h
          have hcm : c ∈ nodes := (findChild_some hc).1
          have hself := wf.findNode_self hcm
          rw [hself] at h
          injection h with hcn
          exact congrArg some hcn

lemma pathFrom_unique {nodes : List FPNode} (wf : WFNodes nodes) :
    ∀ (k : Nat) (l₁ l₂ : List Nat) (n₁ n₂ : FPNode), n₁.id = k →
      pathFrom nodes 0 l₁ = some n₁ → pathFrom nodes 0 l₂ = some n₂ →
      n₁.id = n₂.id → l₁ = l₂ := by
  intro k
  induction k using Nat.strong_induction_on with
  | _ k ih =>
      intro l₁ l₂ n₁ n₂ hk h₁ h₂ hid
      rcases List.eq_nil_or_concat l₁ with rfl | ⟨r₁, i₁, rfl⟩
      · rcases List.eq_nil_or_concat l₂ with rfl | ⟨r₂, i₂, rfl⟩
        · rfl
        · exfalso
          rw [List.concat_eq_append] at h₂
          obtain ⟨p, hp, hc⟩ := pathFrom_snoc wf h₂
          obtain ⟨hm₂, hpar₂, _⟩ := findChild_some hc
          have h0 : n₁.id = 0 := by
            simp only [pathFrom] at h₁
            exact (findNode_some h₁).2
          have hroot : n₂ = rootNode := wf.id_zero hm₂ (by omega)
          rw [hroot] at hpar₂
          exact Option.noConfusion hpar₂
      · rcases List.eq_nil_or_concat l₂ with rfl | ⟨r₂, i₂, rfl⟩
        · exfalso
          rw [List.concat_eq_append] at h₁
          obtain ⟨p, hp, hc⟩ := pathFrom_snoc wf h₁
          obtain ⟨hm₁, hpar₁, _⟩ := findChild_some hc
          have h0 : n₂.id = 0 := by
            simp only [pathFrom] at h₂
            exact (findNode_some h₂).2
          have hroot : n₁ = rootNode := wf.id_zero hm₁ (by omega)
          rw [hroot] at hpar₁
          exact Option.noConfusion hpar₁
        · rw [List.concat_eq_append] at h₁ h₂
          rw [List.concat_eq_append, List.concat_eq_append]
          obtain ⟨p₁, hp₁, hc₁⟩ := pathFrom_snoc wf h₁
          obtain ⟨p₂, hp₂, hc₂⟩ := pathFrom_snoc wf h₂
          obtain ⟨hm₁, hpar₁, hit₁⟩ := findChild_some hc₁
          obtain ⟨hm₂, hpar₂, hit₂⟩ := findChild_some hc₂
          have hn12 : n₁ = n₂ := List.inj_on_of_nodup_map wf.nodup_ids hm₁ hm₂ hid
          have hpid : p₁.id = p₂.id := by
            rw [← hn12] at hpar₂
            have h := hpar₁.symm.trans hpar₂
            injection h
          have hii : i₁ = i₂ := by
            rw [← hn12] at hit₂
            have h := hit₁.symm.trans hit₂
            injection h
          have hplt : p₁.id < k := by
            have := wf.parent_lt n₁ hm₁ p₁.id hpar₁
            omega
          have hr := ih p₁.id hplt r₁ r₂ p₁ p₂ rfl hp₁ hp₂ hpid
          rw [hr, hii]

lemma pathFrom_inj {nodes : List FPNode} (wf : WFNodes nodes) {l₁ l₂ : List Nat}
    {n₁ n₂ : FPNode} (h₁ : pathFrom nodes 0 l₁ = some n₁)
    (h₂ : pathFrom nodes 0 l₂ = some n₂) (hid : n₁.id = n₂.id) : l₁ = l₂ :=
  pathFrom_unique wf n₁.id l₁ l₂ n₁ n₂ rfl h₁ h₂ hid

lemma pathFrom_bumpNodes (nodes : List FPNode) (cid : Nat) :
    ∀ (l : List Nat) (pid : Nat),
      pathFrom (bumpNodes nodes cid) pid l =
        (pathFrom nodes pid l).map (fun n => if n.id = cid then bumpNode n else n) := by
  intro l
  induction l with
  | nil =>
      intro pid
      simp only [pathFrom]
      rw [findNode_bumpNodes]
  | cons i r ih =>
      intro pid
      simp only [pathFrom]
      rw [findChild_bumpNodes]
      cases hc : findChild nodes pid i with
      | none => rfl
      | some c =>
          simp only [Option.map_some']
          rw [bumpSel_id]
          exact ih c.id

lemma findChild_append_left {nodes : List FPNode} {w : FPNode} {pid i : Nat} {c : FPNode}
    (h : findChild nodes pid i = some c) : findChild (nodes ++ [w]) pid i = some c := by
  rw [findChild_append, h]
  rfl

lemma pathFrom_append_node {nodes : List FPNode} {w : FPNode} :
    ∀ (l : List Nat) (pid : Nat) (n : FPNode), pathFrom nodes pid l = some n →
      pathFrom (nodes ++ [w]) pid l = some n := by
  intro l
  induction l with
  | nil =>
      intro pid n h
      simp only [pathFrom] at h ⊢
      exact findNode_append_left h
  | cons i r ih =>
      intro pid n h
      cases hc : findChild nodes pid i with
      | none =>
          simp only [pathFrom, hc] at h
          exact Option.noConfusion h
      | some c =>
          simp only [pathFrom, hc] at h
          simp only [pathFrom, findChild_append_left hc]
          exact ih c.id n h

lemma pathFrom_append_node_rev {nodes : List FPNode} {w : FPNode}
    (hch : ∀ c ∈ nodes ++ [w], c.parentId ≠ some w.id)
    (hfresh : findNode nodes w.id = none) :
    ∀ (l : List Nat) (pid : Nat) (n : FPNode), pathFrom (nodes ++ [w]) pid l = some n →
      n ≠ w → pathFrom nodes pid l = some n := by
  have hwchildless : ∀ j, findChild (nodes ++ [w]) w.id j = none := by
    intro j
    cases hc : findChild (nodes ++ [w]) w.id j with
    | none => rfl
    | some c =>
        obtain ⟨hm, hp, _⟩ := findChild_some hc
        exact absurd hp (hch c hm)
  intro l
  induction l with
  | nil =>
      intro pid n h hne
      simp only [pathFrom] at h ⊢
      rw [findNode_append] at h
      cases hf : findNode nodes pid with
      | some n' =>
          rw [hf] at h
          exact h
      | none =>
          rw [hf] at h
          by_cases hw : w.id = pid
          · rw [if_pos hw] at h
            injection h with hwn
            exact absurd hwn.symm hne
          · rw [if_neg hw] at h
            cases h
  | cons i r ih =>
      intro pid n h hne
      cases hc : findChild (nodes ++ [w]) pid i with
      | none =>
          simp only [pathFrom, hc] at h
          exact Option.noConfusion h
      | some c =>
          simp only [pathFrom, hc] at h
          by_cases hcw : c = w
          · exfalso
            subst hcw
            cases r with
            | nil =>
                simp only [pathFrom] at h
                rw [findNode_append, hfresh, if_pos rfl] at h
                injection h with hwn
                exact hne hwn.symm
            | cons j r' =>
                simp only [pathFrom, hwchildless j] at h
                exact Option.noConfusion h
          · have hcold : findChild nodes pid i = some c := by
              rw [findChild_append] at hc
              cases hco : findChild nodes pid i with
              | some c' =>
                  rw [hco] at hc
                  exact hc
              | none =>
                  rw [hco] at hc
                  by_cases hwc : w.parentId = some pid ∧ w.item = some i
                  · rw [if_pos hwc] at hc
                    injection hc with hcc
                    exact absurd hcc.symm hcw
                  · rw [if_neg hwc] at hc
                    cases hc
            simp only [pathFrom, hcold]
            exact ih c.id n h hne

end FPG

namespace FPG

/-! ### One insertion step changes exactly one path's support -/

lemma insertItem_trie {t : FPTree} (hwf : WFTree t) {P : List Nat} {c : FPNode}
    (hP : pathFrom t.nodes 0 P = some c) (it : Nat) :
    WFTree (insertItem t c.id it).1 ∧
    (∃ c', pathFrom (insertItem t c.id it).1.nodes 0 (P ++ [it]) = some c' ∧
      c'.id = (insertItem t c.id it).2) ∧
    (∀ l, l ≠ P ++ [it] →
      trieSupport (insertItem t c.id it).1 l = trieSupport t l) ∧
    trieSupport (insertItem t c.id it).1 (P ++ [it]) = trieSupport t (P ++ [it]) + 1 := by
  cases hfc : findChild t.nodes c.id it with
  | some c₁ =>
      obtain ⟨hm₁, hp₁, hi₁⟩ := findChild_some hfc
      have hne0 : c₁.id ≠ 0 := by
        intro h0
        have hroot := hwf.wf.id_zero hm₁ h0
        rw [hroot] at hp₁
        exact Option.noConfusion hp₁
      have hold : pathFrom t.nodes 0 (P ++ [it]) = some c₁ := by
        rw [pathFrom_append_elim hwf.wf P [it] 0, hP]
        simp only [Option.elim, pathFrom, hfc]
        exact hwf.wf.findNode_self hm₁
      rw [insertItem_eq_found hfc]
      dsimp only
      refine ⟨wf_bumpNodes hwf hm₁ hne0, ?_, ?_, ?_⟩
      · refine ⟨bumpNode c₁, ?_, bumpNode_id c₁⟩
        rw [pathFrom_bumpNodes, hold]
        simp
      · intro l hl
        unfold trieSupport trieNode
        dsimp only
        rw [pathFrom_bumpNodes]
        cases ho : pathFrom t.nodes 0 l with
        | none => rfl
        | some n =>
            by_cases hn : n.id = c₁.id
            · exact absurd (pathFrom_inj hwf.wf ho hold hn) hl
            · simp only [Option.map_some', if_neg hn]
      · unfold trieSupport trieNode
        dsimp only
        rw [pathFrom_bumpNodes, hold]
        simp [bumpNode]
  | none =>
      have hcm : c ∈ t.nodes := pathFrom_mem P 0 c hP
      have hcur_lt : c.id < t.nodes.length := hwf.wf.id_lt hcm
      have hwf₁ : WFTree ⟨t.nodes ++ [⟨t.nextId, some it, some c.id, 1⟩], t.nextId + 1,
          t.itemNodes ++ [(it, t.nextId)]⟩ := wf_appendNode hwf hcur_lt hfc
      have hwid : (⟨t.nextId, some it, some c.id, 1⟩ : FPNode).id = t.nodes.length := by
        dsimp only
        exact hwf.next_eq
      have hfresh : findNode t.nodes (⟨t.nextId, some it, some c.id, 1⟩ : FPNode).id = none :=
        findNode_none_of_ge hwf.wf (by rw [hwid])
      have hch : ∀ c' ∈ t.nodes ++ [(⟨t.nextId, some it, some c.id, 1⟩ : FPNode)],
          c'.parentId ≠ some (⟨t.nextId, some it, some c.id, 1⟩ : FPNode).id := by
        intro c' hc' hpc'
        rcases List.mem_append.mp hc' with hc' | hc'
        · have h1 := hwf.wf.parent_lt c' hc' _ hpc'
          have h2 := hwf.wf.id_lt hc'
          have h3 := hwid
          dsimp only at h3 hpc' h1
          omega
        · rcases List.mem_cons.mp hc' with rfl | hc'
          · dsimp only at hpc'
            injection hpc' with hcc
            have h3 := hwf.next_eq
            omega
          · cases hc'
      have hnewP : pathFrom (t.nodes ++ [(⟨t.nextId, some it, some c.id, 1⟩ : FPNode)]) 0 P =
          some c := pathFrom_append_node P 0 c hP
      have hfc' : findChild (t.nodes ++ [(⟨t.nextId, some it, some c.id, 1⟩ : FPNode)])
          c.id it = some ⟨t.nextId, some it, some c.id, 1⟩ := by
        rw [findChild_append, hfc, if_pos ⟨rfl, rfl⟩]
        rfl
      have hnew : pathFrom (t.nodes ++ [(⟨t.nextId, some it, some c.id, 1⟩ : FPNode)]) 0
          (P ++ [it]) = some ⟨t.nextId, some it, some c.id, 1⟩ := by
        rw [pathFrom_append_elim hwf₁.wf P [it] 0]
        rw [hnewP]
        simp only [Option.elim, pathFrom, hfc']
        exact hwf₁.wf.findNode_self (List.mem_append_right _
          (List.mem_cons_self (⟨t.nextId, some it, some c.id, 1⟩ : FPNode) []))
      rw [insertItem_eq_new hfc]
      dsimp only
      refine ⟨hwf₁, ⟨⟨t.nextId, some it, some c.id, 1⟩, hnew, rfl⟩, ?_, ?_⟩
      · intro l hl
        unfold trieSupport trieNode
        dsimp only
        cases hn : pathFrom (t.nodes ++ [(⟨t.nextId, some it, some c.id, 1⟩ : FPNode)]) 0 l with
        | none =>
            cases ho : pathFrom t.nodes 0 l with
            | none => rfl
            | some n =>
                have hcontra : pathFrom
                    (t.nodes ++ [(⟨t.nextId, some it, some c.id, 1⟩ : FPNode)]) 0 l = some n :=
                  pathFrom_append_node l 0 n ho
                rw [hn] at hcontra
                exact Option.noConfusion hcontra
        | some n =>
            by_cases hnw : n = ⟨t.nextId, some it, some c.id, 1⟩
            · exact absurd (pathFrom_inj hwf₁.wf hn hnew (by rw [hnw])) hl
            · rw [pathFrom_append_node_rev hch hfresh l 0 n hn hnw]
      · unfold trieSupport trieNode
        dsimp only
        rw [hnew]
        have hold0 : pathFrom t.nodes 0 (P ++ [it]) = none := by
          rw [pathFrom_append_elim hwf.wf P [it] 0, hP]
          simp only [Option.elim, pathFrom, hfc]
        rw [hold0]
        rfl

end FPG

namespace FPG

lemma insertSorted_trie :
    ∀ (s : List Nat) (t : FPTree) (P : List Nat) (c : FPNode),
      WFTree t → pathFrom t.nodes 0 P = some c →
      WFTree (insertSorted t c.id s) ∧
      (∀ l l', l = P ++ l' → l' ≠ [] → isPfxOf l' s = true →
        trieSupport (insertSorted t c.id s) l = trieSupport t l + 1) ∧
      (∀ l, (¬∃ l', l = P ++ l' ∧ l' ≠ [] ∧ isPfxOf l' s = true) →
        trieSupport (insertSorted t c.id s) l = trieSupport t l) := by
  intro s
  induction s with
  | nil =>
      intro t P c hwf hP
      refine ⟨hwf, ?_, ?_⟩
      · intro l l' hl hne hpfx
        cases l' with
        | nil => exact absurd rfl hne
        | cons a r => simp [isPfxOf] at hpfx
      · intro l _
        rfl
  | cons i s' ih =>
      intro t P c hwf hP
      obtain ⟨hwf₁, ⟨c', hc', hcid⟩, hframe, hbump⟩ := insertItem_trie hwf hP i
      have hstep : insertSorted t c.id (i :: s') =
          insertSorted (insertItem t c.id i).1 c'.id s' := by
        rw [hcid]
        rfl
      obtain ⟨hwf', hin', hout'⟩ := ih (insertItem t c.id i).1 (P ++ [i]) c' hwf₁ hc'
      rw [hstep]
      refine ⟨hwf', ?_, ?_⟩
      · intro l l' hl hne hpfx
        cases l' with
        | nil => exact absurd rfl hne
        | cons a r =>
            simp only [isPfxOf, Bool.and_eq_true, beq_iff_eq] at hpfx
            obtain ⟨rfl, hpfx'⟩ := hpfx
            cases r with
            | nil =>
                have hl' : l = P ++ [a] := by rw [hl]
                have hnot : ¬∃ l₂, l = (P ++ [a]) ++ l₂ ∧ l₂ ≠ [] ∧ isPfxOf l₂ s' = true := by
                  rintro ⟨l₂, heq, hne₂, _⟩
                  rw [hl'] at heq
                  have hlenc := congrArg List.length heq
                  simp only [List.length_append, List.length_cons] at hlenc
                  have hz : l₂.length = 0 := by omega
                  exact hne₂ (List.eq_nil_of_length_eq_zero hz)
                rw [hout' l hnot, hl', hbump]
            | cons b r' =>
                have hl2 : l = (P ++ [a]) ++ (b :: r') := by
                  rw [hl]
                  simp
                rw [hin' l (b :: r') hl2 (List.cons_ne_nil b r') hpfx']
                have hlne : l ≠ P ++ [a] := by
                  rw [hl2]
                  intro hcc
                  have hlenc := congrArg List.length hcc
                  simp only [List.length_append, List.length_cons] at hlenc
                  omega
                rw [hframe l hlne]
      · intro l hnot
        have hnot' : ¬∃ l₂, l = (P ++ [i]) ++ l₂ ∧ l₂ ≠ [] ∧ isPfxOf l₂ s' = true := by
          rintro ⟨l₂, heq, hne₂, hp₂⟩
          apply hnot
          refine ⟨i :: l₂, ?_, List.cons_ne_nil i l₂, ?_⟩
          · rw [heq]
            simp
          · simp only [isPfxOf, Bool.and_eq_true, beq_iff_eq]
            exact ⟨trivial, hp₂⟩
        rw [hout' l hnot']
        have hlne : l ≠ P ++ [i] := by
          intro hcc
          apply hnot
          refine ⟨[i], by rw [hcc], List.cons_ne_nil i [], ?_⟩
          simp only [isPfxOf, Bool.and_eq_true, beq_iff_eq]
          exact ⟨trivial, trivial⟩
        rw [hframe l hlne]

end FPG

namespace FPG

lemma insertTransaction_trie {supp : Nat → Nat} {t : FPTree} (hwf : WFTree t) (tx : List Nat) :
    WFTree (insertTransaction t supp tx) ∧
    ∀ l, l ≠ [] → trieSupport (insertTransaction t supp tx) l =
      trieSupport t l + (if isPfxOf l (sortItems supp tx) = true then 1 else 0) := by
  have hroot : pathFrom t.nodes 0 [] = some rootNode := by
    simp only [pathFrom]
    exact hwf.wf.root_find
  obtain ⟨hwf', hin, hout⟩ := insertSorted_trie (sortItems supp tx) t [] rootNode hwf hroot
  constructor
  · exact hwf'
  · intro l hl
    by_cases hp : isPfxOf l (sortItems supp tx) = true
    · rw [if_pos hp]
      exact hin l l (by simp) hl hp
    · rw [if_neg hp]
      refine hout l ?_
      rintro ⟨l', heq, hne', hp'⟩
      simp only [List.nil_append] at heq
      subst heq
      exact hp hp'

lemma buildFrom_trie (supp : Nat → Nat) :
    ∀ (ts : List (List Nat)) (t : FPTree), WFTree t →
      WFTree (buildFrom supp t ts) ∧
      ∀ l, l ≠ [] → trieSupport (buildFrom supp t ts) l =
        trieSupport t l + ts.countP (fun tx => isPfxOf l (sortItems supp tx)) := by
  intro ts
  induction ts with
  | nil =>
      intro t hwf
      refine ⟨hwf, ?_⟩
      intro l _
      simp [buildFrom]
  | cons tx ts' ih =>
      intro t hwf
      obtain ⟨hwf₁, hdelta⟩ := insertTransaction_trie hwf tx
      obtain ⟨hwf', heq⟩ := ih (insertTransaction t supp tx) hwf₁
      have hfold : buildFrom supp t (tx :: ts') =
          buildFrom supp (insertTransaction t supp tx) ts' := rfl
      rw [hfold]
      refine ⟨hwf', ?_⟩
      intro l hl
      rw [heq l hl, hdelta l hl, List.countP_cons]
      omega

lemma buildTree_trie (ts : List (List Nat)) :
    ∀ l, l ≠ [] → trieSupport (buildTree ts) l = pfxCount ts (txSupport ts) l := by
  intro l hl
  have h := (buildFrom_trie (txSupport ts) ts emptyTree emptyTree_wf).2 l hl
  have hempty : trieSupport emptyTree l = 0 := by
    cases l with
    | nil => exact absurd rfl hl
    | cons i r =>
        unfold trieSupport trieNode
        simp only [pathFrom]
        have hnc : findChild emptyTree.nodes 0 i = none := rfl
        rw [hnc]
        rfl
  show trieSupport (buildFrom (txSupport ts) emptyTree ts) l = pfxCount ts (txSupport ts) l
  rw [h, hempty]
  unfold pfxCount
  omega

lemma trieNode_isSome_iff (ts : List (List Nat)) (l : List Nat) :
    (trieNode (buildTree ts) l).isSome = true ↔
      (l = [] ∨ 1 ≤ trieSupport (buildTree ts) l) := by
  constructor
  · intro h
    rw [Option.isSome_iff_exists] at h
    obtain ⟨n, hn⟩ := h
    right
    have hmem : n ∈ (buildTree ts).nodes := pathFrom_mem l 0 n hn
    have hpos := (buildTree_wf ts).1.wf.supp_pos n hmem
    unfold trieSupport
    rw [hn]
    exact hpos
  · intro h
    rcases h with rfl | h
    · unfold trieNode
      simp only [pathFrom]
      rw [(buildTree_wf ts).1.wf.root_find]
      rfl
    · cases hn : trieNode (buildTree ts) l with
      | none =>
          exfalso
          unfold trieSupport at h
          rw [hn] at h
          simp at h
      | some n => rfl

lemma getFrequentItemsets_zero (ts : List (List Nat)) :
    getFrequentItemsets (buildTree ts) 0 = getFrequentItemsets (buildTree ts) 1 := by
  unfold getFrequentItemsets
  exact minerAux_threshold_zero _ _ _ (pos_permanentIndex (buildTree_wf ts).1)

end FPG

namespace FPG

/-- **C5**: building the tree from any permutation of the transaction
list yields an identical trie — the same set of root paths exists and
every path carries the same final support (the comparator depends only
on global supports, which are order-invariant) — and consequently
`get_frequent_itemsets` returns the same multiset of itemsets for every
threshold. -/
theorem claim_C5 (ts ts' : List (List Nat)) (hperm : ts.Perm ts') :
    (∀ l : List Nat, l ≠ [] →
      trieSupport (buildTree ts) l = trieSupport (buildTree ts') l) ∧
    (∀ l : List Nat,
      (trieNode (buildTree ts) l).isSome = (trieNode (buildTree ts') l).isSome) ∧
    (∀ m : Nat, ∀ S : Finset Nat,
      (getFrequentItemsets (buildTree ts) m).countP (fun l => decide (l.toFinset = S)) =
        (getFrequentItemsets (buildTree ts') m).countP (fun l => decide (l.toFinset = S))) := by
  have hsupp : txSupport ts = txSupport ts' := by
    funext i
    exact hperm.countP_eq _
  have htrie : ∀ l : List Nat, l ≠ [] →
      trieSupport (buildTree ts) l = trieSupport (buildTree ts') l := by
    intro l hl
    rw [buildTree_trie ts l hl, buildTree_trie ts' l hl]
    unfold pfxCount
    rw [hsupp]
    exact hperm.countP_eq _
  have hsuppF : ∀ S : Finset Nat, suppFinset ts S = suppFinset ts' S := by
    intro S
    unfold suppFinset
    exact hperm.countP_eq _
  refine ⟨htrie, ?_, ?_⟩
  · intro l
    by_cases hl : l = []
    · subst hl
      have h1 : trieNode (buildTree ts) [] = some rootNode := by
        unfold trieNode
        simp only [pathFrom]
        exact (buildTree_wf ts).1.wf.root_find
      have h2 : trieNode (buildTree ts') [] = some rootNode := by
        unfold trieNode
        simp only [pathFrom]
        exact (buildTree_wf ts').1.wf.root_find
      rw [h1, h2]
    · apply Bool.coe_iff_coe.mp
      rw [trieNode_isSome_iff ts l, trieNode_isSome_iff ts' l, htrie l hl]
  · intro m S
    cases m with
    | zero =>
        rw [getFrequentItemsets_zero ts, getFrequentItemsets_zero ts']
        rw [getFrequentItemsets_count ts 1 le_rfl S,
          getFrequentItemsets_count ts' 1 le_rfl S, hsuppF S]
    | succ k =>
        rw [getFrequentItemsets_count ts (k + 1) (Nat.succ_le_succ (Nat.zero_le k)) S,
          getFrequentItemsets_count ts' (k + 1) (Nat.succ_le_succ (Nat.zero_le k)) S,
          hsuppF S]

/-- Witness for C5: swapping two transactions leaves the support of a
concrete path unchanged. -/
theorem claim_C5_witness :
    trieSupport (buildTree [[1, 2], [2]]) [2] = trieSupport (buildTree [[2], [1, 2]]) [2] :=
  (claim_C5 [[1, 2], [2]] [[2], [1, 2]] (by decide)).1 [2] (by decide)

end FPG
